import Mathlib

/-!
# Verification of the chomsky.js tokenizer and parser (src/parser.ts)

This file gives a shallow embedding of the hand-written tokenizer and the
recursive-descent parser of `src/parser.ts`, and proves the behavioural
properties stated in the design document.

Modelling conventions:
* JavaScript strings are `String` / `List Char`; the tokenizer works on
  `List Char` (the parser entry point `parse` takes a `String` and feeds
  `s.data` to the tokenizer, matching `tokenize(input)` on the raw string).
* The lazy token generator is materialized as a `List Token` ending in the
  `EOF` token; the parser's one-token lookahead `tok_peek` is the head of the
  remaining list.  After the final `EOF` is consumed the generator is
  exhausted (`toks.next().value` is `undefined` in JS); this state is the
  empty list, which the original program never inspects again.
* `throw 'Unexpected token!: ' + tok_peek.kind` is modelled as
  `Except.error k` where `k` is the offending (found) token kind.
* The mutually recursive parsing functions are defined by structural
  recursion on an explicit fuel argument (so that they compute by `rfl`);
  `PRes.fuel` marks fuel exhaustion.  Fuel `2 * length + 2` is proved
  sufficient below (`parse_no_fuel`), so `parse` itself is total and the
  fuel is invisible in its behaviour.
-/

namespace Chomsky

/-- The symbol characters of the grammar, `/[.*\/_^[\]]/` in the source. -/
def isSymbol (c : Char) : Bool :=
  c = '.' || c = '*' || c = '/' || c = '_' || c = '^' || c = '[' || c = ']'

/-- JavaScript's `/\s/` whitespace class (ECMAScript WhiteSpace and
LineTerminator code points). -/
def isWS (c : Char) : Bool :=
  c = ' ' || c = '\t' || c = '\n' || c = '\x0b' || c = '\x0c' || c = '\r' ||
  c = ' ' || c = ' ' ||
  (0x2000 ≤ c.toNat && c.toNat ≤ 0x200a) ||
  c = ' ' || c = ' ' || c = ' ' || c = ' ' ||
  c = '　' || c = '﻿'

/-- `TokenKind`: one of the seven literal symbols (carried as the character),
or `WORD`, `WHITESPACE`, `EOF`. -/
inductive TokenKind where
  | sym (c : Char)
  | word
  | whitespace
  | eof
deriving DecidableEq

/-- A token: symbol tokens have no value; `WORD`/`WHITESPACE` carry the exact
matched text. -/
inductive Token where
  | sym (c : Char)
  | word (s : String)
  | whitespace (s : String)
  | eof
deriving DecidableEq

def Token.kind : Token → TokenKind
  | .sym c => .sym c
  | .word _ => .word
  | .whitespace _ => .whitespace
  | .eof => .eof

/-- `tok.value` for the tokens that carry one, `""` otherwise. -/
def Token.valueStr : Token → String
  | .word s => s
  | .whitespace s => s
  | _ => ""

/-- The input characters covered by a token (symbol char, whitespace run or
word run; `EOF` covers nothing). -/
def covered : Token → List Char
  | .sym c => [c]
  | .word s => s.data
  | .whitespace s => s.data
  | .eof => []

/-- The string representation of a token kind, as produced by JavaScript's
string coercion of the `kind` field. -/
def kindText : TokenKind → String
  | .sym c => String.mk [c]
  | .word => "WORD"
  | .whitespace => "WHITESPACE"
  | .eof => "EOF"

/-- The text appended to leaf data for one token in `nodeData`'s capture
loop: `tok_peek.value ? tok_peek.value : tok_peek.kind`.  A missing or empty
(hence falsy) `value` falls back to the kind; for symbol tokens that is the
one-character symbol itself. -/
def captureText (t : Token) : String :=
  if t.valueStr = "" then kindText t.kind else t.valueStr

/-- One pass of the tokenizer loop (`function* tokenize`), with fuel; each
iteration emits a symbol token, a maximal whitespace run, or a maximal word
run.  (The whitespace inner loop of the source has no bounds check but
terminates at end of input because `input[cur]` is `undefined` there, which
is not whitespace; `takeWhile`/`dropWhile` model the maximal runs.) -/
def tokenizeF : Nat → List Char → List Token
  | 0, _ => []
  | _ + 1, [] => [Token.eof]
  | f + 1, c :: cs =>
    if isSymbol c then
      Token.sym c :: tokenizeF f cs
    else if isWS c then
      Token.whitespace (String.mk (c :: cs.takeWhile isWS)) ::
        tokenizeF f (cs.dropWhile isWS)
    else
      Token.word (String.mk (c :: cs.takeWhile (fun d => !isSymbol d && !isWS d))) ::
        tokenizeF f (cs.dropWhile (fun d => !isSymbol d && !isWS d))

/-- `tokenize(input)`: the token sequence of an input, ending in `EOF`.
Fuel `length + 1` is sufficient since every iteration consumes at least one
character (`tokenizeF_stable` below). -/
def tokenize (cs : List Char) : List Token :=
  tokenizeF (cs.length + 1) cs

/-- Node types are triples: base name plus possible subscript and
superscript. -/
structure NodeType where
  name : String
  sub : String
  sup : String
deriving DecidableEq

/-- Leaf payload: the data string and the collapsed ("hidden subtree")
marker. -/
structure Leaf where
  data : String
  isCollapsed : Bool
deriving DecidableEq

/-- The `Tree` AST of the source: optional `nodeType`, ordered `children`,
optional `leaf`, and the `classes` field that the parser never populates. -/
inductive Tree where
  | mk (nodeType : Option NodeType) (children : List Tree)
       (leaf : Option Leaf) (classes : Option (List String))

def Tree.nodeType : Tree → Option NodeType
  | .mk nt _ _ _ => nt

def Tree.children : Tree → List Tree
  | .mk _ cs _ _ => cs

def Tree.leaf : Tree → Option Leaf
  | .mk _ _ l _ => l

/-- `Tree()`: the fresh empty node `{ children: [] }`. -/
def Tree.new : Tree := .mk none [] none none

/-- `accept_ws(tokenType)`: consume the lookahead token if it has the given
kind, returning it; otherwise leave the stream unchanged. -/
def accept_ws (k : TokenKind) (ts : List Token) : Option Token × List Token :=
  match ts with
  | [] => (none, [])
  | t :: rest => if t.kind = k then (some t, rest) else (none, t :: rest)

/-- `accept(tokenType)`: skip a single pending `WHITESPACE` token (even when
the match then fails), then try to consume a token of the given kind. -/
def accept (k : TokenKind) (ts : List Token) : Option Token × List Token :=
  accept_ws k (accept_ws TokenKind.whitespace ts).2

/-- The kind of the lookahead token.  The empty list is the exhausted
generator past `EOF`, a state the parser never inspects; it is mapped to
`EOF` for totality. -/
def peekKind : List Token → TokenKind
  | [] => TokenKind.eof
  | t :: _ => t.kind

/-- `expect(tokenType)`: like `accept`, but a failed match throws a syntax
error carrying the kind of the offending lookahead token. -/
def expect (k : TokenKind) (ts : List Token) :
    Except TokenKind (Token × List Token) :=
  match accept k ts with
  | (some t, rest) => .ok (t, rest)
  | (none, rest) => .error (peekKind rest)

/-- `function nodeType()`: a `WORD`, optionally followed by `_WORD` then
optional `^WORD`, or `^WORD` then optional `_WORD`; absent scripts stay
`""`. -/
def nodeType (ts : List Token) : Except TokenKind (NodeType × List Token) :=
  match expect TokenKind.word ts with
  | .error k => .error k
  | .ok (w, ts1) =>
    match accept (TokenKind.sym '_') ts1 with
    | (some _, ts2) =>
      match expect TokenKind.word ts2 with
      | .error k => .error k
      | .ok (sb, ts3) =>
        match accept (TokenKind.sym '^') ts3 with
        | (some _, ts4) =>
          match expect TokenKind.word ts4 with
          | .error k => .error k
          | .ok (sp, ts5) =>
            .ok ({ name := w.valueStr, sub := sb.valueStr, sup := sp.valueStr }, ts5)
        | (none, ts4) =>
          .ok ({ name := w.valueStr, sub := sb.valueStr, sup := "" }, ts4)
    | (none, ts2) =>
      match accept (TokenKind.sym '^') ts2 with
      | (some _, ts3) =>
        match expect TokenKind.word ts3 with
        | .error k => .error k
        | .ok (sp, ts4) =>
          match accept (TokenKind.sym '_') ts4 with
          | (some _, ts5) =>
            match expect TokenKind.word ts5 with
            | .error k => .error k
            | .ok (sb, ts6) =>
              .ok ({ name := w.valueStr, sub := sb.valueStr, sup := sp.valueStr }, ts6)
          | (none, ts5) =>
            .ok ({ name := w.valueStr, sub := "", sup := sp.valueStr }, ts5)
      | (none, ts3) =>
        .ok ({ name := w.valueStr, sub := "", sup := "" }, ts3)

/-- A kind at which `nodeData`'s verbatim-capture loop stops:
`[`, `]` or `EOF`. -/
def stopKind (k : TokenKind) : Bool :=
  k = TokenKind.sym '[' || k = TokenKind.sym ']' || k = TokenKind.eof

/-- The verbatim-capture loop of `nodeData`: append each token's literal
text to the accumulated data until the lookahead is `[`, `]` or `EOF`
(no whitespace skipping). -/
def capture : List Token → String → String × List Token
  | [], acc => (acc, [])
  | t :: rest, acc =>
    if stopKind t.kind then (acc, t :: rest)
    else capture rest (acc ++ captureText t)

/-- The data string produced by the capture loop from a given stream
(before reaching a stop token), used to state its specification. -/
def captureData : List Token → String
  | [] => ""
  | t :: rest =>
    if stopKind t.kind then "" else captureText t ++ captureData rest

/-- `function nodeData()`: `/` gives the fixed null-content leaf `"∅"`
(not collapsed); otherwise an optional leading `*` sets `isCollapsed`, a
`WORD` is required to seed the data, and the capture loop appends the rest
verbatim. -/
def nodeData (ts : List Token) : Except TokenKind (Leaf × List Token) :=
  match accept (TokenKind.sym '/') ts with
  | (some _, ts1) => .ok ({ data := "∅", isCollapsed := false }, ts1)
  | (none, ts1) =>
    match accept (TokenKind.sym '*') ts1 with
    | (st, ts2) =>
      match expect TokenKind.word ts2 with
      | .error k => .error k
      | .ok (w, ts3) =>
        match capture ts3 ("" ++ w.valueStr) with
        | (dat, ts4) => .ok ({ data := dat, isCollapsed := st.isSome }, ts4)

/-- A kind in the `switch (tok_peek.kind)` cases of `node` that starts
`nodeData`: `* . / _ ^ WORD` (the `.` case is unreachable after a failed
`accept('.')` but present in the source). -/
def dataStart (k : TokenKind) : Bool :=
  k = TokenKind.sym '*' || k = TokenKind.sym '.' || k = TokenKind.sym '/' ||
  k = TokenKind.sym '_' || k = TokenKind.sym '^' || k = TokenKind.word

/-- Result of a fuel-indexed parsing function: out of fuel, syntax error
(carrying the found token kind), or success with the remaining stream. -/
inductive PRes (α : Type) where
  | fuel
  | err (k : TokenKind)
  | ok (a : α) (rest : List Token)
deriving DecidableEq

mutual

/-- `function node()`: `expect('[')`; skip whitespace; if the lookahead is a
`WORD`, parse the type, the dot chain and the node's content
(`nodeChain` models the `while (accept('.'))` loop at parser.ts:94-99
together with the `switch` at 102-114, building the nested single-child
chain whose deepest link receives the content); finally `expect(']')` and
return the outer root. -/
def node : Nat → List Token → PRes Tree
  | 0, _ => .fuel
  | f + 1, ts =>
    match expect (TokenKind.sym '[') ts with
    | .error k => .err k
    | .ok (_, ts1) =>
      let ts2 := (accept_ws TokenKind.whitespace ts1).2
      if peekKind ts2 = TokenKind.word then
        match nodeType ts2 with
        | .error k => .err k
        | .ok (nt, ts3) =>
          match nodeChain f nt ts3 with
          | .fuel => .fuel
          | .err k => .err k
          | .ok t ts4 =>
            match expect (TokenKind.sym ']') ts4 with
            | .error k => .err k
            | .ok (_, ts5) => .ok t ts5
      else
        match expect (TokenKind.sym ']') ts2 with
        | .error k => .err k
        | .ok (_, ts5) => .ok (Tree.mk none [] none none) ts5

/-- The dot-chain loop and content dispatch of `node`, for a head node whose
type is `nt`: while a `.` is accepted, desugar a fresh child and recurse;
otherwise attach a `NodeList` (lookahead `[`), a `NodeData` leaf (lookahead
in `dataStart`), or nothing. -/
def nodeChain : Nat → NodeType → List Token → PRes Tree
  | 0, _, _ => .fuel
  | f + 1, nt, ts =>
    match accept (TokenKind.sym '.') ts with
    | (some _, ts1) =>
      match nodeType ts1 with
      | .error k => .err k
      | .ok (nt2, ts2) =>
        match nodeChain f nt2 ts2 with
        | .fuel => .fuel
        | .err k => .err k
        | .ok child ts3 => .ok (Tree.mk (some nt) [child] none none) ts3
    | (none, ts1) =>
      if peekKind ts1 = TokenKind.sym '[' then
        match nodeList f ts1 with
        | .fuel => .fuel
        | .err k => .err k
        | .ok cs ts2 => .ok (Tree.mk (some nt) cs none none) ts2
      else if dataStart (peekKind ts1) then
        match nodeData ts1 with
        | .error k => .err k
        | .ok (lf, ts2) => .ok (Tree.mk (some nt) [] (some lf) none) ts2
      else
        .ok (Tree.mk (some nt) [] none none) ts1

/-- `function nodeList()`: skip whitespace, then parse nodes while the
lookahead is `[`, skipping whitespace after each. -/
def nodeList : Nat → List Token → PRes (List Tree)
  | 0, _ => .fuel
  | f + 1, ts =>
    let ts1 := (accept_ws TokenKind.whitespace ts).2
    if peekKind ts1 = TokenKind.sym '[' then
      match node f ts1 with
      | .fuel => .fuel
      | .err k => .err k
      | .ok t ts2 =>
        match nodeList f ts2 with
        | .fuel => .fuel
        | .err k => .err k
        | .ok cs ts3 => .ok (t :: cs) ts3
    else
      .ok [] ts1

end

/-- The body of `parse` after tokenizing: `node()`, `accept_ws()`,
`expect('EOF')`, returning the root. -/
def parseToks (f : Nat) (ts : List Token) : PRes Tree :=
  match node f ts with
  | .fuel => .fuel
  | .err k => .err k
  | .ok t ts1 =>
    let ts2 := (accept_ws TokenKind.whitespace ts1).2
    match expect TokenKind.eof ts2 with
    | .error k => .err k
    | .ok (_, ts3) => .ok t ts3

/-- `parse(input)`: tokenize and run the parser.  The `.fuel` branch is
unreachable (`parse_no_fuel` below proves the canonical fuel sufficient). -/
def parse (s : String) : Except TokenKind Tree :=
  match parseToks (2 * (tokenize s.data).length + 2) (tokenize s.data) with
  | .fuel => .error TokenKind.eof
  | .err k => .error k
  | .ok t _ => .ok t

/-- `node` at its canonical, sufficient fuel. -/
def nodeD (ts : List Token) : PRes Tree :=
  node (2 * ts.length + 2) ts

/-- `nodeChain` at its canonical, sufficient fuel. -/
def nodeChainD (nt : NodeType) (ts : List Token) : PRes Tree :=
  nodeChain (2 * ts.length + 3) nt ts

/-- `nodeList` at its canonical, sufficient fuel. -/
def nodeListD (ts : List Token) : PRes (List Tree) :=
  nodeList (2 * ts.length + 3) ts

mutual

/-- `leafExcl t`: nowhere in `t` does a node carry both a leaf and a
non-empty children sequence. -/
def leafExcl : Tree → Bool
  | .mk _ cs l _ => (l.isNone || cs.isEmpty) && leafExclList cs

/-- `leafExcl` on every tree of a list. -/
def leafExclList : List Tree → Bool
  | [] => true
  | t :: rest => leafExcl t && leafExclList rest

end

mutual

/-- `noLeaf t`: no node of `t` carries a leaf. -/
def noLeaf : Tree → Bool
  | .mk _ cs l _ => l.isNone && noLeafList cs

/-- `noLeaf` on every tree of a list. -/
def noLeafList : List Tree → Bool
  | [] => true
  | t :: rest => noLeaf t && noLeafList rest

end

/-- A node type with empty scripts. -/
def plainType (n : String) : NodeType := ⟨n, "", ""⟩

/-- A node-type literal as written in the grammar: a name with optional
subscript and superscript, the scripts in either written order. -/
inductive TypeLit where
  | plain (n : String)
  | sub (n a : String)
  | sup (n b : String)
  | subsup (n a b : String)
  | supsub (n a b : String)

/-- The tokens of a type literal. -/
def tyTokens : TypeLit → List Token
  | .plain n => [Token.word n]
  | .sub n a => [Token.word n, Token.sym '_', Token.word a]
  | .sup n b => [Token.word n, Token.sym '^', Token.word b]
  | .subsup n a b => [Token.word n, Token.sym '_', Token.word a,
      Token.sym '^', Token.word b]
  | .supsub n a b => [Token.word n, Token.sym '^', Token.word b,
      Token.sym '_', Token.word a]

/-- The node type a literal parses to. -/
def tyType : TypeLit → NodeType
  | .plain n => ⟨n, "", ""⟩
  | .sub n a => ⟨n, a, ""⟩
  | .sup n b => ⟨n, "", b⟩
  | .subsup n a b => ⟨n, a, b⟩
  | .supsub n a b => ⟨n, a, b⟩

/-- The token rendering of the dot-separated inner chain links `.B1.B2...`. -/
def dotsG : List TypeLit → List Token
  | [] => []
  | L :: ls => Token.sym '.' :: (tyTokens L ++ dotsG ls)

/-- Tokens of the shorthand chain `[A.B1...Bk.<body>]`: the spine links,
a final dot, and the body (the deepest link's type and content). -/
def chainNodeG (a : TypeLit) (ns : List TypeLit) (body : List Token) :
    List Token :=
  Token.sym '[' :: (tyTokens a ++ (dotsG ns ++
    (Token.sym '.' :: (body ++ [Token.sym ']']))))

/-- Tokens of the explicitly nested form `[A [B1 [... [<body>] ...]]]`. -/
def nestNodeG : TypeLit → List TypeLit → List Token → List Token
  | a, [], body => Token.sym '[' :: (tyTokens a ++
      ((Token.sym '[' :: (body ++ [Token.sym ']'])) ++ [Token.sym ']']))
  | a, b :: bs, body => Token.sym '[' :: (tyTokens a ++
      (nestNodeG b bs body ++ [Token.sym ']']))

/-- Wrap the deepest link's tree in one single-child node per spine link. -/
def wrapChain : NodeType → List TypeLit → Tree → Tree
  | nt, [], c => Tree.mk (some nt) [c] none none
  | nt, L :: ls, c => Tree.mk (some nt) [wrapChain (tyType L) ls c] none none

/-- The tree of the whole chain `[A.B1...Bk.<body>]`, given the body's
tree. -/
def chainWrapG (a : TypeLit) (ns : List TypeLit) (c : Tree) : Tree :=
  wrapChain (tyType a) ns c

/-- A token list whose head cannot be consumed as part of a pending node
type's scripts: its head is not `WHITESPACE`, `_` or `^`. -/
def scriptSafe : List Token → Bool
  | [] => true
  | t :: _ =>
    !(t.kind = TokenKind.whitespace || t.kind = TokenKind.sym '_' ||
      t.kind = TokenKind.sym '^')

/-- A well-formed token, as emitted by the tokenizer: symbol tokens carry
symbol characters, word/whitespace tokens carry a non-empty run of
characters of the right class. -/
def wfTok : Token → Bool
  | .sym c => isSymbol c
  | .word s => !s.data.isEmpty && s.data.all (fun c => !isSymbol c && !isWS c)
  | .whitespace s => !s.data.isEmpty && s.data.all isWS
  | .eof => true

/-! ## Tokenizer lemmas -/

theorem symbol_not_ws (c : Char) (h : isSymbol c = true) : isWS c = false := by
  simp only [isSymbol, Bool.or_eq_true, decide_eq_true_eq] at h
  rcases h with ((((((rfl | rfl) | rfl) | rfl) | rfl) | rfl) | rfl) <;> decide

theorem ws_not_symbol (c : Char) (h : isWS c = true) : isSymbol c = false := by
  by_cases hs : isSymbol c = true
  · rw [symbol_not_ws c hs] at h; cases h
  · simpa using hs

theorem takeWhile_append_all (p : α → Bool) (l₁ l₂ : List α)
    (h : ∀ a ∈ l₁, p a = true) :
    (l₁ ++ l₂).takeWhile p = l₁ ++ l₂.takeWhile p := by
  induction l₁ with
  | nil => simp
  | cons a l ih =>
    have ha : p a = true := h a (by simp)
    simp only [List.cons_append, List.takeWhile_cons, ha, if_true]
    rw [ih (fun b hb => h b (by simp [hb]))]

theorem dropWhile_append_all (p : α → Bool) (l₁ l₂ : List α)
    (h : ∀ a ∈ l₁, p a = true) :
    (l₁ ++ l₂).dropWhile p = l₂.dropWhile p := by
  induction l₁ with
  | nil => simp
  | cons a l ih =>
    have ha : p a = true := h a (by simp)
    simp only [List.cons_append, List.dropWhile_cons, ha, if_true]
    exact ih (fun b hb => h b (by simp [hb]))

theorem takeWhile_append_stop (p : α → Bool) (l : List α) (c : α) (ds : List α)
    (hc : p c = false) :
    (l ++ c :: ds).takeWhile p = (l ++ [c]).takeWhile p := by
  induction l with
  | nil => simp [List.takeWhile_cons, hc]
  | cons a l ih =>
    simp only [List.cons_append, List.takeWhile_cons]
    cases hp : p a <;> simp [ih]

theorem dropWhile_append_stop (p : α → Bool) (l : List α) (c : α) (ds : List α)
    (hc : p c = false) :
    (l ++ c :: ds).dropWhile p = l.dropWhile p ++ c :: ds := by
  induction l with
  | nil => simp [List.dropWhile_cons, hc]
  | cons a l ih =>
    simp only [List.cons_append, List.dropWhile_cons]
    cases hp : p a <;> simp [ih]

theorem tokenizeF_congr : ∀ f g : Nat, ∀ cs : List Char,
    cs.length < f → cs.length < g → tokenizeF f cs = tokenizeF g cs := by
  intro f
  induction f with
  | zero => intro g cs h; omega
  | succ f ih =>
    intro g cs hf hg
    match g, cs with
    | 0, cs => omega
    | g + 1, [] => rfl
    | g + 1, c :: cs =>
      simp only [tokenizeF]
      by_cases hs : isSymbol c = true
      · rw [if_pos hs, if_pos hs,
          ih g cs (by simp at hf; omega) (by simp at hg; omega)]
      · rw [if_neg hs, if_neg hs]
        by_cases hw : isWS c = true
        · have hd := ((List.dropWhile_suffix isWS :
            cs.dropWhile isWS <:+ cs)).length_le
          rw [if_pos hw, if_pos hw,
            ih g _ (by simp at hf; omega) (by simp at hg; omega)]
        · have hd := ((List.dropWhile_suffix (fun d => !isSymbol d && !isWS d) :
            cs.dropWhile (fun d => !isSymbol d && !isWS d) <:+ cs)).length_le
          rw [if_neg hw, if_neg hw,
            ih g _ (by simp at hf; omega) (by simp at hg; omega)]

theorem tokenizeF_stable (f : Nat) (cs : List Char) (h : cs.length < f) :
    tokenizeF f cs = tokenize cs :=
  tokenizeF_congr f (cs.length + 1) cs h (by omega)

theorem tokenize_nil : tokenize [] = [Token.eof] := rfl

theorem tokenize_cons_symbol (c : Char) (cs : List Char) (h : isSymbol c = true) :
    tokenize (c :: cs) = Token.sym c :: tokenize cs := by
  show tokenizeF ((c :: cs).length + 1) (c :: cs) = _
  simp only [List.length_cons, tokenizeF, h, if_pos]
  rw [tokenizeF_stable _ _ (by omega)]

theorem tokenize_cons_ws (c : Char) (cs : List Char) (h : isWS c = true) :
    tokenize (c :: cs) =
      Token.whitespace (String.mk (c :: cs.takeWhile isWS)) ::
        tokenize (cs.dropWhile isWS) := by
  have hs : isSymbol c = false := ws_not_symbol c h
  show tokenizeF ((c :: cs).length + 1) (c :: cs) = _
  simp only [List.length_cons, tokenizeF, hs, Bool.false_eq_true, if_false, h,
    if_true]
  rw [tokenizeF_stable _ _
    (Nat.lt_of_le_of_lt (List.dropWhile_suffix isWS).length_le (by omega))]

theorem tokenize_cons_word (c : Char) (cs : List Char)
    (hs : isSymbol c = false) (hw : isWS c = false) :
    tokenize (c :: cs) =
      Token.word (String.mk (c :: cs.takeWhile (fun d => !isSymbol d && !isWS d))) ::
        tokenize (cs.dropWhile (fun d => !isSymbol d && !isWS d)) := by
  show tokenizeF ((c :: cs).length + 1) (c :: cs) = _
  simp only [List.length_cons, tokenizeF, hs, hw, Bool.false_eq_true,
    if_false, if_true]
  rw [tokenizeF_stable _ _
    (Nat.lt_of_le_of_lt
      (List.dropWhile_suffix (fun d => !isSymbol d && !isWS d)).length_le
      (by omega))]

/-- Token coverage: concatenating the covered text of all emitted tokens
reproduces the input. -/
theorem tokenize_covered (cs : List Char) :
    ((tokenize cs).map covered).flatten = cs := by
  suffices H : ∀ n : Nat, ∀ cs : List Char, cs.length ≤ n →
      ((tokenize cs).map covered).flatten = cs from H cs.length cs le_rfl
  intro n
  induction n with
  | zero =>
    intro cs h
    have : cs = [] := List.length_eq_zero.mp (by omega)
    subst this; rfl
  | succ n ih =>
    intro cs h
    have h1 : cs.length ≤ n + 1 := h
    match cs with
    | [] => rfl
    | c :: cs =>
      have hlen : cs.length ≤ n := by
        simp only [List.length_cons] at h1; omega
      by_cases hsym : isSymbol c = true
      · rw [tokenize_cons_symbol c cs hsym]
        simp only [List.map_cons, List.flatten_cons, covered]
        rw [ih cs hlen]
        rfl
      · by_cases hws : isWS c = true
        · rw [tokenize_cons_ws c cs hws]
          simp only [List.map_cons, List.flatten_cons, covered]
          rw [ih _ (Nat.le_trans (List.dropWhile_suffix isWS).length_le hlen)]
          show (c :: cs.takeWhile isWS) ++ cs.dropWhile isWS = c :: cs
          rw [List.cons_append, List.takeWhile_append_dropWhile]
        · rw [tokenize_cons_word c cs (by simpa using hsym) (by simpa using hws)]
          simp only [List.map_cons, List.flatten_cons, covered]
          rw [ih _ (Nat.le_trans (List.dropWhile_suffix _).length_le hlen)]
          show (c :: cs.takeWhile _) ++ cs.dropWhile _ = c :: cs
          rw [List.cons_append, List.takeWhile_append_dropWhile]

/-- The token sequence always ends in exactly one `EOF`, and every token
before it is well formed (non-`EOF`, values matching their character
class). -/
theorem tokenize_wf (cs : List Char) :
    ∃ ts, tokenize cs = ts ++ [Token.eof] ∧
      ∀ t ∈ ts, t ≠ Token.eof ∧ wfTok t = true := by
  suffices H : ∀ n : Nat, ∀ cs : List Char, cs.length ≤ n →
      ∃ ts, tokenize cs = ts ++ [Token.eof] ∧
        ∀ t ∈ ts, t ≠ Token.eof ∧ wfTok t = true from H cs.length cs le_rfl
  intro n
  induction n with
  | zero =>
    intro cs h
    have : cs = [] := List.length_eq_zero.mp (by omega)
    subst this; exact ⟨[], rfl, by simp⟩
  | succ n ih =>
    intro cs h
    match cs with
    | [] => exact ⟨[], rfl, by simp⟩
    | c :: cs =>
      by_cases hsym : isSymbol c = true
      · obtain ⟨ts, hts, hwf⟩ := ih cs (by simp at h; omega)
        refine ⟨Token.sym c :: ts, ?_, ?_⟩
        · rw [tokenize_cons_symbol c cs hsym, hts]; rfl
        · intro t ht
          rcases List.mem_cons.mp ht with rfl | ht
          · exact ⟨by simp, by simp [wfTok, hsym]⟩
          · exact hwf t ht
      · by_cases hws : isWS c = true
        · obtain ⟨ts, hts, hwf⟩ := ih (cs.dropWhile isWS)
            (Nat.le_trans (List.dropWhile_suffix isWS).length_le
              (by simp at h; omega))
          refine ⟨Token.whitespace (String.mk (c :: cs.takeWhile isWS)) :: ts,
            ?_, ?_⟩
          · rw [tokenize_cons_ws c cs hws, hts]; rfl
          · intro t ht
            rcases List.mem_cons.mp ht with rfl | ht
            · refine ⟨by simp, ?_⟩
              simp only [wfTok, Bool.and_eq_true]
              refine ⟨by simp, ?_⟩
              rw [List.all_eq_true]
              intro x hx
              rcases List.mem_cons.mp hx with rfl | hx
              · exact hws
              · exact List.mem_takeWhile_imp hx
            · exact hwf t ht
        · obtain ⟨ts, hts, hwf⟩ := ih (cs.dropWhile (fun d => !isSymbol d && !isWS d))
            (Nat.le_trans (List.dropWhile_suffix _).length_le
              (by simp at h; omega))
          refine ⟨Token.word
            (String.mk (c :: cs.takeWhile (fun d => !isSymbol d && !isWS d))) :: ts,
            ?_, ?_⟩
          · rw [tokenize_cons_word c cs (by simpa using hsym) (by simpa using hws),
              hts]
            rfl
          · intro t ht
            rcases List.mem_cons.mp ht with rfl | ht
            · refine ⟨by simp, ?_⟩
              simp only [wfTok, Bool.and_eq_true]
              refine ⟨by simp, ?_⟩
              rw [List.all_eq_true]
              intro x hx
              rcases List.mem_cons.mp hx with rfl | hx
              · simp [hsym, hws]
              · simpa using List.mem_takeWhile_imp hx
            · exact hwf t ht

/-- Prepending an all-whitespace run to an input whose first character is
not whitespace prepends a single `WHITESPACE` token. -/
theorem tokenize_ws_prefix (w cs : List Char) (hne : w ≠ [])
    (hw : ∀ c ∈ w, isWS c = true)
    (hcs : ∀ c, cs.head? = some c → isWS c = false) :
    tokenize (w ++ cs) = Token.whitespace (String.mk w) :: tokenize cs := by
  match w with
  | c :: w =>
    have hc : isWS c = true := hw c (by simp)
    have htw : cs.takeWhile isWS = [] := by
      match cs with
      | [] => rfl
      | d :: cs => simp [List.takeWhile_cons, hcs d rfl]
    have hdw : cs.dropWhile isWS = cs := by
      match cs with
      | [] => rfl
      | d :: cs => simp [List.dropWhile_cons, hcs d rfl]
    rw [List.cons_append, tokenize_cons_ws c (w ++ cs) hc,
      takeWhile_append_all isWS w cs (fun a ha => hw a (by simp [ha])),
      dropWhile_append_all isWS w cs (fun a ha => hw a (by simp [ha])),
      htw, hdw, List.append_nil]

/-- Tokenizing a non-empty all-whitespace input gives a single
`WHITESPACE` token before `EOF`. -/
theorem tokenize_all_ws (w : List Char) (hne : w ≠ [])
    (hw : ∀ c ∈ w, isWS c = true) :
    tokenize w = [Token.whitespace (String.mk w), Token.eof] := by
  have := tokenize_ws_prefix w [] hne hw (by intro c hc; cases hc)
  simpa using this

/-- Splitting the input after a symbol character splits the token stream:
the tokens of the left part (minus its `EOF`) followed by the tokens of the
right part. -/
theorem tokenize_append_symbol : ∀ l : List Char, ∀ c : Char, ∀ ds : List Char,
    isSymbol c = true →
    tokenize (l ++ c :: ds) = (tokenize (l ++ [c])).dropLast ++ tokenize ds := by
  suffices H : ∀ n : Nat, ∀ l : List Char, l.length ≤ n → ∀ c ds,
      isSymbol c = true →
      tokenize (l ++ c :: ds) = (tokenize (l ++ [c])).dropLast ++ tokenize ds by
    intro l c ds hc; exact H l.length l le_rfl c ds hc
  have base : ∀ c : Char, ∀ ds : List Char, isSymbol c = true →
      tokenize (c :: ds) = (tokenize [c]).dropLast ++ tokenize ds := by
    intro c ds hc
    rw [tokenize_cons_symbol c ds hc,
      show tokenize [c] = [Token.sym c, Token.eof] from by
        rw [tokenize_cons_symbol c [] hc]; rfl]
    rfl
  intro n
  induction n with
  | zero =>
    intro l h c ds hc
    have : l = [] := List.length_eq_zero.mp (by omega)
    subst this
    exact base c ds hc
  | succ n ih =>
    intro l h c ds hc
    match l with
    | [] => exact base c ds hc
    | e :: l =>
      have hlen : l.length ≤ n := by
        simp only [List.length_cons] at h; omega
      have hlast : ∀ cs : List Char, tokenize cs ≠ [] := by
        intro cs hnil
        obtain ⟨ts, hts, -⟩ := tokenize_wf cs
        rw [hts] at hnil
        exact absurd hnil (by simp)
      by_cases hesym : isSymbol e = true
      · rw [List.cons_append, tokenize_cons_symbol e _ hesym,
          ih l hlen c ds hc,
          List.cons_append, tokenize_cons_symbol e _ hesym,
          List.dropLast_cons_of_ne_nil (hlast _), List.cons_append]
      · have hcws : isWS c = false := symbol_not_ws c hc
        by_cases hews : isWS e = true
        · rw [List.cons_append, tokenize_cons_ws e _ hews,
            takeWhile_append_stop isWS l c ds hcws,
            dropWhile_append_stop isWS l c ds hcws,
            ih (l.dropWhile isWS)
              (Nat.le_trans (List.dropWhile_suffix isWS).length_le hlen) c ds hc,
            List.cons_append, tokenize_cons_ws e _ hews,
            takeWhile_append_stop isWS l c [] hcws,
            dropWhile_append_stop isWS l c [] hcws,
            List.dropLast_cons_of_ne_nil (hlast _), List.cons_append]
        · have hcq : (fun d => !isSymbol d && !isWS d) c = false := by
            simp [hc]
          rw [List.cons_append,
            tokenize_cons_word e _ (by simpa using hesym) (by simpa using hews),
            takeWhile_append_stop _ l c ds hcq,
            dropWhile_append_stop _ l c ds hcq,
            ih (l.dropWhile _)
              (Nat.le_trans (List.dropWhile_suffix _).length_le hlen) c ds hc,
            List.cons_append,
            tokenize_cons_word e _ (by simpa using hesym) (by simpa using hews),
            takeWhile_append_stop _ l c [] hcq,
            dropWhile_append_stop _ l c [] hcq,
            List.dropLast_cons_of_ne_nil (hlast _), List.cons_append]

/-! ## Parser primitive lemmas -/

theorem accept_ws_cons_pos (k : TokenKind) (t : Token) (ts : List Token)
    (h : t.kind = k) : accept_ws k (t :: ts) = (some t, ts) := by
  simp [accept_ws, h]

theorem accept_ws_cons_neg (k : TokenKind) (t : Token) (ts : List Token)
    (h : ¬ t.kind = k) : accept_ws k (t :: ts) = (none, t :: ts) := by
  simp [accept_ws, h]

theorem accept_ws_some_inv (k : TokenKind) (ts : List Token) (t : Token)
    (r : List Token) (h : accept_ws k ts = (some t, r)) :
    ts = t :: r ∧ t.kind = k := by
  match ts with
  | [] => simp [accept_ws] at h
  | x :: rest =>
    by_cases hk : x.kind = k
    · rw [accept_ws_cons_pos k x rest hk] at h
      simp only [Prod.mk.injEq, Option.some.injEq] at h
      obtain ⟨rfl, rfl⟩ := h
      exact ⟨rfl, hk⟩
    · rw [accept_ws_cons_neg k x rest hk] at h
      simp at h

theorem accept_ws_none_inv (k : TokenKind) (ts : List Token)
    (r : List Token) (h : accept_ws k ts = (none, r)) : r = ts := by
  match ts with
  | [] => exact (congrArg Prod.snd h).symm
  | x :: rest =>
    by_cases hk : x.kind = k
    · rw [accept_ws_cons_pos k x rest hk] at h
      simp at h
    · rw [accept_ws_cons_neg k x rest hk] at h
      simp only [Prod.mk.injEq] at h
      exact h.2.symm

theorem accept_ws_snd_suffix (k : TokenKind) (ts : List Token) :
    (accept_ws k ts).2 <:+ ts := by
  match ts with
  | [] => exact List.suffix_refl []
  | t :: rest =>
    by_cases hk : t.kind = k
    · rw [accept_ws_cons_pos k t rest hk]
      exact List.suffix_cons t rest
    · rw [accept_ws_cons_neg k t rest hk]

theorem accept_ws_snd_le (k : TokenKind) (ts : List Token) :
    (accept_ws k ts).2.length ≤ ts.length :=
  (accept_ws_snd_suffix k ts).length_le

theorem accept_snd_suffix (k : TokenKind) (ts : List Token) :
    (accept k ts).2 <:+ ts :=
  (accept_ws_snd_suffix k _).trans (accept_ws_snd_suffix TokenKind.whitespace ts)

theorem accept_snd_le (k : TokenKind) (ts : List Token) :
    (accept k ts).2.length ≤ ts.length :=
  (accept_snd_suffix k ts).length_le

theorem accept_some_inv (k : TokenKind) (ts : List Token) (t : Token)
    (r : List Token) (h : accept k ts = (some t, r)) :
    (accept_ws TokenKind.whitespace ts).2 = t :: r ∧ t.kind = k :=
  accept_ws_some_inv k _ t r h

theorem accept_some_length (k : TokenKind) (ts : List Token) (t : Token)
    (r : List Token) (h : accept k ts = (some t, r)) :
    r.length < ts.length := by
  obtain ⟨heq, -⟩ := accept_some_inv k ts t r h
  have h1 := accept_ws_snd_le TokenKind.whitespace ts
  rw [heq] at h1
  simp only [List.length_cons] at h1
  omega

theorem accept_none_inv (k : TokenKind) (ts : List Token)
    (r : List Token) (h : accept k ts = (none, r)) :
    r = (accept_ws TokenKind.whitespace ts).2 :=
  accept_ws_none_inv k _ r h

theorem expect_ok_inv (k : TokenKind) (ts : List Token) (t : Token)
    (r : List Token) (h : expect k ts = .ok (t, r)) :
    accept k ts = (some t, r) := by
  unfold expect at h
  cases hA : accept k ts with
  | mk o rest =>
    rw [hA] at h
    match o with
    | some x => simp only [Except.ok.injEq, Prod.mk.injEq] at h; rw [h.1, h.2]
    | none => simp at h

theorem expect_ok_kind (k : TokenKind) (ts : List Token) (t : Token)
    (r : List Token) (h : expect k ts = .ok (t, r)) : t.kind = k :=
  (accept_some_inv k ts t r (expect_ok_inv k ts t r h)).2

theorem expect_ok_suffix (k : TokenKind) (ts : List Token) (t : Token)
    (r : List Token) (h : expect k ts = .ok (t, r)) : r <:+ ts := by
  have := accept_snd_suffix k ts
  rw [expect_ok_inv k ts t r h] at this
  exact this

theorem expect_ok_length (k : TokenKind) (ts : List Token) (t : Token)
    (r : List Token) (h : expect k ts = .ok (t, r)) : r.length < ts.length :=
  accept_some_length k ts t r (expect_ok_inv k ts t r h)

theorem expect_err_inv (k : TokenKind) (ts : List Token) (e : TokenKind)
    (h : expect k ts = .error e) :
    (accept k ts).1 = none ∧ e = peekKind (accept k ts).2 := by
  unfold expect at h
  cases hA : accept k ts with
  | mk o rest =>
    rw [hA] at h
    match o with
    | some x => simp at h
    | none => simp only [Except.error.injEq] at h; exact ⟨rfl, h.symm⟩

theorem capture_eq (ts : List Token) (acc : String) :
    capture ts acc =
      (acc ++ captureData ts, ts.dropWhile (fun t => !stopKind t.kind)) := by
  induction ts generalizing acc with
  | nil => simp [capture, captureData]
  | cons t rest ih =>
    by_cases hs : stopKind t.kind = true
    · simp [capture, captureData, hs, List.dropWhile_cons]
    · simp only [capture, captureData, hs, Bool.false_eq_true, if_false,
        List.dropWhile_cons, Bool.not_eq_true']
      rw [ih (acc ++ captureText t), String.append_assoc]
      simp [hs]

theorem capture_snd_suffix (ts : List Token) (acc : String) :
    (capture ts acc).2 <:+ ts := by
  rw [capture_eq]
  exact List.dropWhile_suffix _

theorem capture_snd_le (ts : List Token) (acc : String) :
    (capture ts acc).2.length ≤ ts.length :=
  (capture_snd_suffix ts acc).length_le

theorem nodeType_ok_main (ts : List Token) (nt : NodeType)
    (r : List Token) (h : nodeType ts = .ok (nt, r)) :
    ∃ w ts1, expect TokenKind.word ts = .ok (w, ts1) ∧ r <:+ ts1 := by
  unfold nodeType at h
  cases hW : expect TokenKind.word ts with
  | error k => simp only [hW] at h; exact Except.noConfusion h
  | ok p =>
    obtain ⟨w, ts1⟩ := p
    refine ⟨w, ts1, rfl, ?_⟩
    simp only [hW] at h
    cases hU : accept (TokenKind.sym '_') ts1 with
    | mk o2 ts2 =>
      have hs2 : ts2 <:+ ts1 := by
        have := accept_snd_suffix (TokenKind.sym '_') ts1
        rw [hU] at this; exact this
      match o2 with
      | some u =>
        simp only [hU] at h
        cases hW2 : expect TokenKind.word ts2 with
        | error k => simp only [hW2] at h; exact Except.noConfusion h
        | ok p2 =>
          obtain ⟨sb, ts3⟩ := p2
          simp only [hW2] at h
          have hs3 : ts3 <:+ ts2 := expect_ok_suffix _ _ _ _ hW2
          cases hC : accept (TokenKind.sym '^') ts3 with
          | mk o4 ts4 =>
            have hs4 : ts4 <:+ ts3 := by
              have := accept_snd_suffix (TokenKind.sym '^') ts3
              rw [hC] at this; exact this
            match o4 with
            | some c =>
              simp only [hC] at h
              cases hW3 : expect TokenKind.word ts4 with
              | error k => simp only [hW3] at h; exact Except.noConfusion h
              | ok p3 =>
                obtain ⟨sp, ts5⟩ := p3
                simp only [hW3, Except.ok.injEq, Prod.mk.injEq] at h
                have hs5 : ts5 <:+ ts4 := expect_ok_suffix _ _ _ _ hW3
                rw [← h.2]
                exact (hs5.trans hs4).trans (hs3.trans hs2)
            | none =>
              simp only [hC, Except.ok.injEq, Prod.mk.injEq] at h
              rw [← h.2]
              exact (hs4.trans hs3).trans hs2
      | none =>
        simp only [hU] at h
        cases hC : accept (TokenKind.sym '^') ts2 with
        | mk o3 ts3 =>
          have hs3 : ts3 <:+ ts2 := by
            have := accept_snd_suffix (TokenKind.sym '^') ts2
            rw [hC] at this; exact this
          match o3 with
          | some c =>
            simp only [hC] at h
            cases hW2 : expect TokenKind.word ts3 with
            | error k => simp only [hW2] at h; exact Except.noConfusion h
            | ok p2 =>
              obtain ⟨sp, ts4⟩ := p2
              simp only [hW2] at h
              have hs4 : ts4 <:+ ts3 := expect_ok_suffix _ _ _ _ hW2
              cases hU2 : accept (TokenKind.sym '_') ts4 with
              | mk o5 ts5 =>
                have hs5 : ts5 <:+ ts4 := by
                  have := accept_snd_suffix (TokenKind.sym '_') ts4
                  rw [hU2] at this; exact this
                match o5 with
                | some u =>
                  simp only [hU2] at h
                  cases hW3 : expect TokenKind.word ts5 with
                  | error k => simp only [hW3] at h; exact Except.noConfusion h
                  | ok p3 =>
                    obtain ⟨sb, ts6⟩ := p3
                    simp only [hW3, Except.ok.injEq, Prod.mk.injEq] at h
                    have hs6 : ts6 <:+ ts5 := expect_ok_suffix _ _ _ _ hW3
                    rw [← h.2]
                    exact ((hs6.trans hs5).trans hs4).trans (hs3.trans hs2)
                | none =>
                  simp only [hU2, Except.ok.injEq, Prod.mk.injEq] at h
                  rw [← h.2]
                  exact (hs5.trans hs4).trans (hs3.trans hs2)
          | none =>
            simp only [hC, Except.ok.injEq, Prod.mk.injEq] at h
            rw [← h.2]
            exact hs3.trans hs2

theorem nodeType_ok_suffix (ts : List Token) (nt : NodeType)
    (r : List Token) (h : nodeType ts = .ok (nt, r)) : r <:+ ts := by
  obtain ⟨w, ts1, hW, hs⟩ := nodeType_ok_main ts nt r h
  exact hs.trans (expect_ok_suffix _ _ _ _ hW)

theorem nodeType_ok_length (ts : List Token) (nt : NodeType)
    (r : List Token) (h : nodeType ts = .ok (nt, r)) :
    r.length < ts.length := by
  obtain ⟨w, ts1, hW, hs⟩ := nodeType_ok_main ts nt r h
  exact Nat.lt_of_le_of_lt hs.length_le (expect_ok_length _ _ _ _ hW)

theorem nodeData_ok_suffix (ts : List Token) (lf : Leaf)
    (r : List Token) (h : nodeData ts = .ok (lf, r)) : r <:+ ts := by
  unfold nodeData at h
  cases hS : accept (TokenKind.sym '/') ts with
  | mk o1 ts1 =>
    have hs1 : ts1 <:+ ts := by
      have := accept_snd_suffix (TokenKind.sym '/') ts
      rw [hS] at this; exact this
    match o1 with
    | some u =>
      simp only [hS, Except.ok.injEq, Prod.mk.injEq] at h
      rw [← h.2]; exact hs1
    | none =>
      simp only [hS] at h
      cases hA : accept (TokenKind.sym '*') ts1 with
      | mk st ts2 =>
        simp only [hA] at h
        have hs2 : ts2 <:+ ts1 := by
          have := accept_snd_suffix (TokenKind.sym '*') ts1
          rw [hA] at this; exact this
        cases hW : expect TokenKind.word ts2 with
        | error k => simp only [hW] at h; exact Except.noConfusion h
        | ok p =>
          obtain ⟨w, ts3⟩ := p
          simp only [hW] at h
          have hs3 : ts3 <:+ ts2 := expect_ok_suffix _ _ _ _ hW
          cases hC : capture ts3 ("" ++ w.valueStr) with
          | mk dat ts4 =>
            simp only [hC, Except.ok.injEq, Prod.mk.injEq] at h
            have hs4 : ts4 <:+ ts3 := by
              have := capture_snd_suffix ts3 ("" ++ w.valueStr)
              rw [hC] at this; exact this
            rw [← h.2]
            exact (hs4.trans hs3).trans (hs2.trans hs1)

theorem nodeData_ok_le (ts : List Token) (lf : Leaf)
    (r : List Token) (h : nodeData ts = .ok (lf, r)) :
    r.length ≤ ts.length :=
  (nodeData_ok_suffix ts lf r h).length_le

/-! ## Mutual fuel inductions: consumption bounds -/

theorem node_succ (f : Nat) (ts : List Token) :
    node (f + 1) ts =
      match expect (TokenKind.sym '[') ts with
      | .error k => .err k
      | .ok (_, ts1) =>
        if peekKind (accept_ws TokenKind.whitespace ts1).2 = TokenKind.word then
          match nodeType (accept_ws TokenKind.whitespace ts1).2 with
          | .error k => .err k
          | .ok (nt, ts3) =>
            match nodeChain f nt ts3 with
            | .fuel => .fuel
            | .err k => .err k
            | .ok t ts4 =>
              match expect (TokenKind.sym ']') ts4 with
              | .error k => .err k
              | .ok (_, ts5) => .ok t ts5
        else
          match expect (TokenKind.sym ']')
              (accept_ws TokenKind.whitespace ts1).2 with
          | .error k => .err k
          | .ok (_, ts5) => .ok (Tree.mk none [] none none) ts5 := rfl

theorem nodeChain_succ (f : Nat) (nt : NodeType) (ts : List Token) :
    nodeChain (f + 1) nt ts =
      match accept (TokenKind.sym '.') ts with
      | (some _, ts1) =>
        match nodeType ts1 with
        | .error k => .err k
        | .ok (nt2, ts2) =>
          match nodeChain f nt2 ts2 with
          | .fuel => .fuel
          | .err k => .err k
          | .ok child ts3 => .ok (Tree.mk (some nt) [child] none none) ts3
      | (none, ts1) =>
        if peekKind ts1 = TokenKind.sym '[' then
          match nodeList f ts1 with
          | .fuel => .fuel
          | .err k => .err k
          | .ok cs ts2 => .ok (Tree.mk (some nt) cs none none) ts2
        else if dataStart (peekKind ts1) then
          match nodeData ts1 with
          | .error k => .err k
          | .ok (lf, ts2) => .ok (Tree.mk (some nt) [] (some lf) none) ts2
        else
          .ok (Tree.mk (some nt) [] none none) ts1 := rfl

theorem nodeList_succ (f : Nat) (ts : List Token) :
    nodeList (f + 1) ts =
      if peekKind (accept_ws TokenKind.whitespace ts).2 = TokenKind.sym '[' then
        match node f ((accept_ws TokenKind.whitespace ts).2) with
        | .fuel => .fuel
        | .err k => .err k
        | .ok t ts2 =>
          match nodeList f ts2 with
          | .fuel => .fuel
          | .err k => .err k
          | .ok cs ts3 => .ok (t :: cs) ts3
      else
        .ok [] ((accept_ws TokenKind.whitespace ts).2) := rfl

theorem parseLen : ∀ f : Nat,
    (∀ ts t r, node f ts = .ok t r → r.length + 2 ≤ ts.length) ∧
    (∀ nt ts t r, nodeChain f nt ts = .ok t r → r.length ≤ ts.length) ∧
    (∀ ts cs r, nodeList f ts = .ok cs r → r.length ≤ ts.length) := by
  intro f
  induction f with
  | zero =>
    refine ⟨?_, ?_, ?_⟩ <;> intros _ _ _ h <;>
      first
        | exact PRes.noConfusion h
        | (intro h2; exact PRes.noConfusion h2)
  | succ f ih =>
    obtain ⟨ihN, ihC, ihL⟩ := ih
    refine ⟨?_, ?_, ?_⟩
    · intro ts t r h
      simp only [node] at h
      cases hE : expect (TokenKind.sym '[') ts with
      | error k => simp only [hE] at h; exact PRes.noConfusion h
      | ok p =>
        obtain ⟨tk1, ts1⟩ := p
        simp only [hE] at h
        have l1 : ts1.length < ts.length := expect_ok_length _ _ _ _ hE
        have l2 : ((accept_ws TokenKind.whitespace ts1).2).length ≤ ts1.length :=
          accept_ws_snd_le _ _
        by_cases hW :
            peekKind (accept_ws TokenKind.whitespace ts1).2 = TokenKind.word
        · rw [if_pos hW] at h
          cases hNT : nodeType ((accept_ws TokenKind.whitespace ts1).2) with
          | error k => simp only [hNT] at h; exact PRes.noConfusion h
          | ok p2 =>
            obtain ⟨nt, ts3⟩ := p2
            simp only [hNT] at h
            have l3 := nodeType_ok_length _ _ _ hNT
            cases hC : nodeChain f nt ts3 with
            | fuel => simp only [hC] at h; exact PRes.noConfusion h
            | err k => simp only [hC] at h; exact PRes.noConfusion h
            | ok t4 ts4 =>
              simp only [hC] at h
              have l4 := ihC nt ts3 t4 ts4 hC
              cases hE2 : expect (TokenKind.sym ']') ts4 with
              | error k => simp only [hE2] at h; exact PRes.noConfusion h
              | ok p3 =>
                obtain ⟨tk2, ts5⟩ := p3
                simp only [hE2] at h
                have l5 := expect_ok_length _ _ _ _ hE2
                injection h with h1 h2
                subst h2
                omega
        · rw [if_neg hW] at h
          cases hE2 : expect (TokenKind.sym ']')
              ((accept_ws TokenKind.whitespace ts1).2) with
          | error k => simp only [hE2] at h; exact PRes.noConfusion h
          | ok p3 =>
            obtain ⟨tk2, ts5⟩ := p3
            simp only [hE2] at h
            have l5 := expect_ok_length _ _ _ _ hE2
            injection h with h1 h2
            subst h2
            omega
    · intro nt ts t r h
      simp only [nodeChain] at h
      cases hA : accept (TokenKind.sym '.') ts with
      | mk o1 ts1 =>
        have la : ts1.length ≤ ts.length := by
          have := accept_snd_le (TokenKind.sym '.') ts
          rw [hA] at this; exact this
        match o1 with
        | some u =>
          simp only [hA] at h
          cases hNT : nodeType ts1 with
          | error k => simp only [hNT] at h; exact PRes.noConfusion h
          | ok p2 =>
            obtain ⟨nt2, ts2⟩ := p2
            simp only [hNT] at h
            have l2 := nodeType_ok_length _ _ _ hNT
            cases hC : nodeChain f nt2 ts2 with
            | fuel => simp only [hC] at h; exact PRes.noConfusion h
            | err k => simp only [hC] at h; exact PRes.noConfusion h
            | ok child ts3 =>
              simp only [hC] at h
              have l3 := ihC nt2 ts2 child ts3 hC
              injection h with h1 h2
              subst h2
              omega
        | none =>
          simp only [hA] at h
          by_cases hL : peekKind ts1 = TokenKind.sym '['
          · rw [if_pos hL] at h
            cases hNL : nodeList f ts1 with
            | fuel => simp only [hNL] at h; exact PRes.noConfusion h
            | err k => simp only [hNL] at h; exact PRes.noConfusion h
            | ok cs2 ts2 =>
              simp only [hNL] at h
              have l2 := ihL ts1 cs2 ts2 hNL
              injection h with h1 h2
              subst h2
              omega
          · rw [if_neg hL] at h
            by_cases hD : dataStart (peekKind ts1) = true
            · rw [if_pos hD] at h
              cases hND : nodeData ts1 with
              | error k => simp only [hND] at h; exact PRes.noConfusion h
              | ok p2 =>
                obtain ⟨lf, ts2⟩ := p2
                simp only [hND] at h
                have l2 := nodeData_ok_le _ _ _ hND
                injection h with h1 h2
                subst h2
                omega
            · rw [if_neg hD] at h
              injection h with h1 h2
              subst h2
              omega
    · intro ts cs r h
      simp only [nodeList] at h
      have lv : ((accept_ws TokenKind.whitespace ts).2).length ≤ ts.length :=
        accept_ws_snd_le _ _
      by_cases hL : peekKind (accept_ws TokenKind.whitespace ts).2 =
          TokenKind.sym '['
      · rw [if_pos hL] at h
        cases hN : node f ((accept_ws TokenKind.whitespace ts).2) with
        | fuel => simp only [hN] at h; exact PRes.noConfusion h
        | err k => simp only [hN] at h; exact PRes.noConfusion h
        | ok t1 ts2 =>
          simp only [hN] at h
          have l2 := ihN _ t1 ts2 hN
          cases hNL : nodeList f ts2 with
          | fuel => simp only [hNL] at h; exact PRes.noConfusion h
          | err k => simp only [hNL] at h; exact PRes.noConfusion h
          | ok cs2 ts3 =>
            simp only [hNL] at h
            have l3 := ihL ts2 cs2 ts3 hNL
            injection h with h1 h2
            subst h2
            omega
      · rw [if_neg hL] at h
        injection h with h1 h2
        subst h2
        omega

theorem node_ok_length (f : Nat) (ts : List Token) (t : Tree) (r : List Token)
    (h : node f ts = .ok t r) : r.length + 2 ≤ ts.length :=
  (parseLen f).1 ts t r h

theorem nodeChain_ok_le (f : Nat) (nt : NodeType) (ts : List Token) (t : Tree)
    (r : List Token) (h : nodeChain f nt ts = .ok t r) :
    r.length ≤ ts.length :=
  (parseLen f).2.1 nt ts t r h

theorem nodeList_ok_le (f : Nat) (ts : List Token) (cs : List Tree)
    (r : List Token) (h : nodeList f ts = .ok cs r) :
    r.length ≤ ts.length :=
  (parseLen f).2.2 ts cs r h

/-! ## Mutual fuel inductions: fuel sufficiency and monotonicity -/

theorem parseNoFuel : ∀ f : Nat,
    (∀ ts : List Token, 2 * ts.length < f → node f ts ≠ .fuel) ∧
    (∀ nt, ∀ ts : List Token, 2 * ts.length + 2 < f →
      nodeChain f nt ts ≠ .fuel) ∧
    (∀ ts : List Token, 2 * ts.length + 1 < f → nodeList f ts ≠ .fuel) := by
  intro f
  induction f with
  | zero => refine ⟨?_, ?_, ?_⟩ <;> intros <;> omega
  | succ f ih =>
    obtain ⟨ihN, ihC, ihL⟩ := ih
    refine ⟨?_, ?_, ?_⟩
    · intro ts hf
      simp only [node]
      cases hE : expect (TokenKind.sym '[') ts with
      | error k => simp
      | ok p =>
        obtain ⟨tk1, ts1⟩ := p
        have l1 : ts1.length < ts.length := expect_ok_length _ _ _ _ hE
        have l2 : ((accept_ws TokenKind.whitespace ts1).2).length ≤ ts1.length :=
          accept_ws_snd_le _ _
        simp only
        by_cases hW :
            peekKind (accept_ws TokenKind.whitespace ts1).2 = TokenKind.word
        · rw [if_pos hW]
          cases hNT : nodeType ((accept_ws TokenKind.whitespace ts1).2) with
          | error k => simp
          | ok p2 =>
            obtain ⟨nt, ts3⟩ := p2
            have l3 := nodeType_ok_length _ _ _ hNT
            simp only
            cases hC : nodeChain f nt ts3 with
            | fuel =>
              exact absurd hC (ihC nt ts3 (by omega))
            | err k => simp
            | ok t4 ts4 =>
              simp only
              cases hE2 : expect (TokenKind.sym ']') ts4 with
              | error k => simp
              | ok p3 => obtain ⟨tk2, ts5⟩ := p3; simp
        · rw [if_neg hW]
          cases hE2 : expect (TokenKind.sym ']')
              ((accept_ws TokenKind.whitespace ts1).2) with
          | error k => simp
          | ok p3 => obtain ⟨tk2, ts5⟩ := p3; simp
    · intro nt ts hf
      simp only [nodeChain]
      cases hA : accept (TokenKind.sym '.') ts with
      | mk o1 ts1 =>
        have la : ts1.length ≤ ts.length := by
          have := accept_snd_le (TokenKind.sym '.') ts
          rw [hA] at this; exact this
        match o1 with
        | some u =>
          have la2 : ts1.length < ts.length :=
            accept_some_length _ _ _ _ hA
          simp only
          cases hNT : nodeType ts1 with
          | error k => simp
          | ok p2 =>
            obtain ⟨nt2, ts2⟩ := p2
            have l2 := nodeType_ok_length _ _ _ hNT
            simp only
            cases hC : nodeChain f nt2 ts2 with
            | fuel => exact absurd hC (ihC nt2 ts2 (by omega))
            | err k => simp
            | ok child ts3 => simp
        | none =>
          simp only
          by_cases hL : peekKind ts1 = TokenKind.sym '['
          · rw [if_pos hL]
            cases hNL : nodeList f ts1 with
            | fuel => exact absurd hNL (ihL ts1 (by omega))
            | err k => simp
            | ok cs2 ts2 => simp
          · rw [if_neg hL]
            by_cases hD : dataStart (peekKind ts1) = true
            · rw [if_pos hD]
              cases hND : nodeData ts1 with
              | error k => simp
              | ok p2 => obtain ⟨lf, ts2⟩ := p2; simp
            · rw [if_neg hD]; simp
    · intro ts hf
      simp only [nodeList]
      have lv : ((accept_ws TokenKind.whitespace ts).2).length ≤ ts.length :=
        accept_ws_snd_le _ _
      by_cases hL : peekKind (accept_ws TokenKind.whitespace ts).2 =
          TokenKind.sym '['
      · rw [if_pos hL]
        cases hN : node f ((accept_ws TokenKind.whitespace ts).2) with
        | fuel => exact absurd hN (ihN _ (by omega))
        | err k => simp
        | ok t1 ts2 =>
          have l2 := node_ok_length _ _ _ _ hN
          simp only
          cases hNL : nodeList f ts2 with
          | fuel => exact absurd hNL (ihL ts2 (by omega))
          | err k => simp
          | ok cs2 ts3 => simp
      · rw [if_neg hL]; simp

theorem parseMono : ∀ f : Nat,
    (∀ ts : List Token, node f ts ≠ .fuel → node (f + 1) ts = node f ts) ∧
    (∀ nt, ∀ ts : List Token, nodeChain f nt ts ≠ .fuel →
      nodeChain (f + 1) nt ts = nodeChain f nt ts) ∧
    (∀ ts : List Token, nodeList f ts ≠ .fuel →
      nodeList (f + 1) ts = nodeList f ts) := by
  intro f
  induction f with
  | zero =>
    refine ⟨?_, ?_, ?_⟩ <;> intros <;> exact absurd rfl (by assumption)
  | succ f ih =>
    obtain ⟨ihN, ihC, ihL⟩ := ih
    refine ⟨?_, ?_, ?_⟩
    · intro ts hf
      rw [node_succ f ts] at hf
      rw [node_succ (f + 1) ts, node_succ f ts]
      cases hE : expect (TokenKind.sym '[') ts with
      | error k => simp only [hE]
      | ok p =>
        obtain ⟨tk1, ts1⟩ := p
        simp only [hE] at hf ⊢
        by_cases hW :
            peekKind (accept_ws TokenKind.whitespace ts1).2 = TokenKind.word
        · simp only [if_pos hW] at hf ⊢
          cases hNT : nodeType ((accept_ws TokenKind.whitespace ts1).2) with
          | error k => simp only [hNT]
          | ok p2 =>
            obtain ⟨nt, ts3⟩ := p2
            simp only [hNT] at hf ⊢
            cases hC : nodeChain f nt ts3 with
            | fuel => rw [hC] at hf; exact absurd rfl hf
            | err k => rw [ihC nt ts3 (by rw [hC]; simp), hC]
            | ok t4 ts4 => rw [ihC nt ts3 (by rw [hC]; simp), hC]
        · simp only [if_neg hW] at hf ⊢
    · intro nt ts hf
      rw [nodeChain_succ f nt ts] at hf
      rw [nodeChain_succ (f + 1) nt ts, nodeChain_succ f nt ts]
      cases hA : accept (TokenKind.sym '.') ts with
      | mk o1 ts1 =>
        match o1 with
        | some u =>
          simp only [hA] at hf ⊢
          cases hNT : nodeType ts1 with
          | error k => simp only [hNT]
          | ok p2 =>
            obtain ⟨nt2, ts2⟩ := p2
            simp only [hNT] at hf ⊢
            cases hC : nodeChain f nt2 ts2 with
            | fuel => rw [hC] at hf; exact absurd rfl hf
            | err k => rw [ihC nt2 ts2 (by rw [hC]; simp), hC]
            | ok child ts3 => rw [ihC nt2 ts2 (by rw [hC]; simp), hC]
        | none =>
          simp only [hA] at hf ⊢
          by_cases hL : peekKind ts1 = TokenKind.sym '['
          · simp only [if_pos hL] at hf ⊢
            cases hNL : nodeList f ts1 with
            | fuel => rw [hNL] at hf; exact absurd rfl hf
            | err k => rw [ihL ts1 (by rw [hNL]; simp), hNL]
            | ok cs2 ts2 => rw [ihL ts1 (by rw [hNL]; simp), hNL]
          · simp only [if_neg hL] at hf ⊢
    · intro ts hf
      rw [nodeList_succ f ts] at hf
      rw [nodeList_succ (f + 1) ts, nodeList_succ f ts]
      by_cases hL : peekKind (accept_ws TokenKind.whitespace ts).2 =
          TokenKind.sym '['
      · simp only [if_pos hL] at hf ⊢
        cases hN : node f ((accept_ws TokenKind.whitespace ts).2) with
        | fuel => rw [hN] at hf; exact absurd rfl hf
        | err k => rw [ihN _ (by rw [hN]; simp), hN]
        | ok t1 ts2 =>
          rw [ihN _ (by rw [hN]; simp)]
          simp only [hN] at hf ⊢
          cases hNL : nodeList f ts2 with
          | fuel => rw [hNL] at hf; exact absurd rfl hf
          | err k => rw [ihL ts2 (by rw [hNL]; simp), hNL]
          | ok cs2 ts3 => rw [ihL ts2 (by rw [hNL]; simp), hNL]
      · simp only [if_neg hL] at hf ⊢

theorem node_mono_le (f g : Nat) (h : f ≤ g) (ts : List Token)
    (hf : node f ts ≠ .fuel) : node g ts = node f ts := by
  induction g with
  | zero =>
    have : f = 0 := by omega
    subst this; rfl
  | succ g ih =>
    rcases Nat.eq_or_lt_of_le h with rfl | hlt
    · rfl
    · have hg : node g ts = node f ts := ih (by omega)
      rw [(parseMono g).1 ts (by rw [hg]; exact hf), hg]

theorem nodeChain_mono_le (f g : Nat) (h : f ≤ g) (nt : NodeType)
    (ts : List Token) (hf : nodeChain f nt ts ≠ .fuel) :
    nodeChain g nt ts = nodeChain f nt ts := by
  induction g with
  | zero =>
    have : f = 0 := by omega
    subst this; rfl
  | succ g ih =>
    rcases Nat.eq_or_lt_of_le h with rfl | hlt
    · rfl
    · have hg : nodeChain g nt ts = nodeChain f nt ts := ih (by omega)
      rw [(parseMono g).2.1 nt ts (by rw [hg]; exact hf), hg]

theorem nodeList_mono_le (f g : Nat) (h : f ≤ g) (ts : List Token)
    (hf : nodeList f ts ≠ .fuel) : nodeList g ts = nodeList f ts := by
  induction g with
  | zero =>
    have : f = 0 := by omega
    subst this; rfl
  | succ g ih =>
    rcases Nat.eq_or_lt_of_le h with rfl | hlt
    · rfl
    · have hg : nodeList g ts = nodeList f ts := ih (by omega)
      rw [(parseMono g).2.2 ts (by rw [hg]; exact hf), hg]

theorem node_stable (f : Nat) (ts : List Token) (h : 2 * ts.length < f) :
    node f ts = nodeD ts := by
  have hf : node f ts ≠ .fuel := (parseNoFuel f).1 ts h
  have hc : node (2 * ts.length + 2) ts ≠ .fuel :=
    (parseNoFuel _).1 ts (by omega)
  rcases Nat.le_total f (2 * ts.length + 2) with hle | hle
  · exact (node_mono_le f _ hle ts hf).symm
  · exact node_mono_le _ f hle ts hc

theorem nodeChain_stable (f : Nat) (nt : NodeType) (ts : List Token)
    (h : 2 * ts.length + 2 < f) : nodeChain f nt ts = nodeChainD nt ts := by
  have hf : nodeChain f nt ts ≠ .fuel := (parseNoFuel f).2.1 nt ts h
  have hc : nodeChain (2 * ts.length + 3) nt ts ≠ .fuel :=
    (parseNoFuel _).2.1 nt ts (by omega)
  rcases Nat.le_total f (2 * ts.length + 3) with hle | hle
  · exact (nodeChain_mono_le f _ hle nt ts hf).symm
  · exact nodeChain_mono_le _ f hle nt ts hc

theorem nodeList_stable (f : Nat) (ts : List Token)
    (h : 2 * ts.length + 1 < f) : nodeList f ts = nodeListD ts := by
  have hf : nodeList f ts ≠ .fuel := (parseNoFuel f).2.2 ts h
  have hc : nodeList (2 * ts.length + 3) ts ≠ .fuel :=
    (parseNoFuel _).2.2 ts (by omega)
  rcases Nat.le_total f (2 * ts.length + 3) with hle | hle
  · exact (nodeList_mono_le f _ hle ts hf).symm
  · exact nodeList_mono_le _ f hle ts hc

/-- The canonical fuel used by `parse` is sufficient: the parser never runs
out of fuel, so the fuel is invisible in `parse`'s behaviour. -/
theorem parse_no_fuel (ts : List Token) :
    parseToks (2 * ts.length + 2) ts ≠ .fuel := by
  unfold parseToks
  cases hN : node (2 * ts.length + 2) ts with
  | fuel => exact absurd hN ((parseNoFuel _).1 ts (by omega))
  | err k => simp
  | ok t ts1 =>
    cases hE : expect TokenKind.eof (accept_ws TokenKind.whitespace ts1).2 with
    | error k => simp [hE]
    | ok p => obtain ⟨a, b⟩ := p; simp [hE]

theorem parseSuffix : ∀ f : Nat,
    (∀ ts t r, node f ts = .ok t r → r <:+ ts) ∧
    (∀ nt ts t r, nodeChain f nt ts = .ok t r → r <:+ ts) ∧
    (∀ ts cs r, nodeList f ts = .ok cs r → r <:+ ts) := by
  intro f
  induction f with
  | zero =>
    refine ⟨?_, ?_, ?_⟩ <;> intros _ _ _ h <;>
      first
        | exact PRes.noConfusion h
        | (intro h2; exact PRes.noConfusion h2)
  | succ f ih =>
    obtain ⟨ihN, ihC, ihL⟩ := ih
    refine ⟨?_, ?_, ?_⟩
    · intro ts t r h
      simp only [node] at h
      cases hE : expect (TokenKind.sym '[') ts with
      | error k => simp only [hE] at h; exact PRes.noConfusion h
      | ok p =>
        obtain ⟨tk1, ts1⟩ := p
        simp only [hE] at h
        have s1 : ts1 <:+ ts := expect_ok_suffix _ _ _ _ hE
        have s2 : (accept_ws TokenKind.whitespace ts1).2 <:+ ts1 :=
          accept_ws_snd_suffix _ _
        by_cases hW :
            peekKind (accept_ws TokenKind.whitespace ts1).2 = TokenKind.word
        · rw [if_pos hW] at h
          cases hNT : nodeType ((accept_ws TokenKind.whitespace ts1).2) with
          | error k => simp only [hNT] at h; exact PRes.noConfusion h
          | ok p2 =>
            obtain ⟨nt, ts3⟩ := p2
            simp only [hNT] at h
            have s3 := nodeType_ok_suffix _ _ _ hNT
            cases hC : nodeChain f nt ts3 with
            | fuel => simp only [hC] at h; exact PRes.noConfusion h
            | err k => simp only [hC] at h; exact PRes.noConfusion h
            | ok t4 ts4 =>
              simp only [hC] at h
              have s4 := ihC nt ts3 t4 ts4 hC
              cases hE2 : expect (TokenKind.sym ']') ts4 with
              | error k => simp only [hE2] at h; exact PRes.noConfusion h
              | ok p3 =>
                obtain ⟨tk2, ts5⟩ := p3
                simp only [hE2] at h
                have s5 := expect_ok_suffix _ _ _ _ hE2
                injection h with h1 h2
                subst h2
                exact ((s5.trans s4).trans s3).trans (s2.trans s1)
        · rw [if_neg hW] at h
          cases hE2 : expect (TokenKind.sym ']')
              ((accept_ws TokenKind.whitespace ts1).2) with
          | error k => simp only [hE2] at h; exact PRes.noConfusion h
          | ok p3 =>
            obtain ⟨tk2, ts5⟩ := p3
            simp only [hE2] at h
            have s5 := expect_ok_suffix _ _ _ _ hE2
            injection h with h1 h2
            subst h2
            exact s5.trans (s2.trans s1)
    · intro nt ts t r h
      simp only [nodeChain] at h
      cases hA : accept (TokenKind.sym '.') ts with
      | mk o1 ts1 =>
        have sa : ts1 <:+ ts := by
          have := accept_snd_suffix (TokenKind.sym '.') ts
          rw [hA] at this; exact this
        match o1 with
        | some u =>
          simp only [hA] at h
          cases hNT : nodeType ts1 with
          | error k => simp only [hNT] at h; exact PRes.noConfusion h
          | ok p2 =>
            obtain ⟨nt2, ts2⟩ := p2
            simp only [hNT] at h
            have s2 := nodeType_ok_suffix _ _ _ hNT
            cases hC : nodeChain f nt2 ts2 with
            | fuel => simp only [hC] at h; exact PRes.noConfusion h
            | err k => simp only [hC] at h; exact PRes.noConfusion h
            | ok child ts3 =>
              simp only [hC] at h
              have s3 := ihC nt2 ts2 child ts3 hC
              injection h with h1 h2
              subst h2
              exact (s3.trans s2).trans sa
        | none =>
          simp only [hA] at h
          by_cases hL : peekKind ts1 = TokenKind.sym '['
          · rw [if_pos hL] at h
            cases hNL : nodeList f ts1 with
            | fuel => simp only [hNL] at h; exact PRes.noConfusion h
            | err k => simp only [hNL] at h; exact PRes.noConfusion h
            | ok cs2 ts2 =>
              simp only [hNL] at h
              have s2 := ihL ts1 cs2 ts2 hNL
              injection h with h1 h2
              subst h2
              exact s2.trans sa
          · rw [if_neg hL] at h
            by_cases hD : dataStart (peekKind ts1) = true
            · rw [if_pos hD] at h
              cases hND : nodeData ts1 with
              | error k => simp only [hND] at h; exact PRes.noConfusion h
              | ok p2 =>
                obtain ⟨lf, ts2⟩ := p2
                simp only [hND] at h
                have s2 := nodeData_ok_suffix _ _ _ hND
                injection h with h1 h2
                subst h2
                exact s2.trans sa
            · rw [if_neg hD] at h
              injection h with h1 h2
              subst h2
              exact sa
    · intro ts cs r h
      simp only [nodeList] at h
      have sv : (accept_ws TokenKind.whitespace ts).2 <:+ ts :=
        accept_ws_snd_suffix _ _
      by_cases hL : peekKind (accept_ws TokenKind.whitespace ts).2 =
          TokenKind.sym '['
      · rw [if_pos hL] at h
        cases hN : node f ((accept_ws TokenKind.whitespace ts).2) with
        | fuel => simp only [hN] at h; exact PRes.noConfusion h
        | err k => simp only [hN] at h; exact PRes.noConfusion h
        | ok t1 ts2 =>
          simp only [hN] at h
          have s2 := ihN _ t1 ts2 hN
          cases hNL : nodeList f ts2 with
          | fuel => simp only [hNL] at h; exact PRes.noConfusion h
          | err k => simp only [hNL] at h; exact PRes.noConfusion h
          | ok cs2 ts3 =>
            simp only [hNL] at h
            have s3 := ihL ts2 cs2 ts3 hNL
            injection h with h1 h2
            subst h2
            exact (s3.trans s2).trans sv
      · rw [if_neg hL] at h
        injection h with h1 h2
        subst h2
        exact sv

theorem node_ok_suffix (f : Nat) (ts : List Token) (t : Tree) (r : List Token)
    (h : node f ts = .ok t r) : r <:+ ts :=
  (parseSuffix f).1 ts t r h

theorem nodeChain_ok_suffix (f : Nat) (nt : NodeType) (ts : List Token)
    (t : Tree) (r : List Token) (h : nodeChain f nt ts = .ok t r) : r <:+ ts :=
  (parseSuffix f).2.1 nt ts t r h

theorem nodeList_ok_suffix (f : Nat) (ts : List Token) (cs : List Tree)
    (r : List Token) (h : nodeList f ts = .ok cs r) : r <:+ ts :=
  (parseSuffix f).2.2 ts cs r h

/-! ## Frame lemmas: the parser's behaviour depends only on the tokens it
consumes and the single lookahead token at which it stops -/

theorem suffix_split {α : Type} (l p r : List α) (hsuf : l <:+ p ++ r)
    (hlen : r.length ≤ l.length) : ∃ u q, p = u ++ q ∧ l = q ++ r := by
  obtain ⟨u', hu⟩ := hsuf
  have hlen2 : u'.length + l.length = p.length + r.length := by
    have := congrArg List.length hu
    simpa using this
  have hup : u'.length ≤ p.length := by omega
  refine ⟨p.take u'.length, p.drop u'.length, (List.take_append_drop _ p).symm, ?_⟩
  have h1 : (u' ++ l).drop u'.length = l := List.drop_left u' l
  rw [hu] at h1
  rw [← h1, List.drop_append_of_le_length hup]

theorem peekKind_append_cons {m : List Token} {x : Token} {r : List Token}
    (r' : List Token) :
    peekKind (m ++ x :: r) = peekKind (m ++ x :: r') := by
  cases m <;> rfl

theorem accept_ws_frame (k : TokenKind) (p : List Token) (x : Token)
    (r r' : List Token) (o : Option Token)
    (h : accept_ws k (p ++ x :: r) = (o, x :: r)) :
    accept_ws k (p ++ x :: r') = (o, x :: r') := by
  match p with
  | [] =>
    simp only [List.nil_append] at h ⊢
    by_cases hk : x.kind = k
    · rw [accept_ws_cons_pos k x r hk] at h
      simp only [Prod.mk.injEq] at h
      exact absurd h.2.symm (List.cons_ne_self x r)
    · rw [accept_ws_cons_neg k x r hk] at h
      simp only [Prod.mk.injEq] at h
      rw [accept_ws_cons_neg k x r' hk, ← h.1]
  | y :: p' =>
    simp only [List.cons_append] at h ⊢
    by_cases hk : y.kind = k
    · rw [accept_ws_cons_pos k y _ hk] at h
      simp only [Prod.mk.injEq] at h
      have hp' : p' = [] := by
        have := congrArg List.length h.2
        simp only [List.length_append, List.length_cons] at this
        exact List.eq_nil_of_length_eq_zero (by omega)
      subst hp'
      simp only [List.nil_append] at h ⊢
      rw [accept_ws_cons_pos k y _ hk, ← h.1]
    · rw [accept_ws_cons_neg k y _ hk] at h
      simp only [Prod.mk.injEq] at h
      have := congrArg List.length h.2
      simp only [List.length_cons, List.length_append] at this
      omega

theorem accept_ws_frame_ext (k : TokenKind) (p m : List Token) (x : Token)
    (r r' : List Token) (o : Option Token)
    (h : accept_ws k (p ++ (m ++ x :: r)) = (o, m ++ x :: r)) :
    accept_ws k (p ++ (m ++ x :: r')) = (o, m ++ x :: r') := by
  match m with
  | [] => exact accept_ws_frame k p x r r' o h
  | y :: m' =>
    have h2 := accept_ws_frame k p y (m' ++ x :: r) (m' ++ x :: r') o
      (by simpa using h)
    simpa using h2

theorem accept_frame_some (k : TokenKind) (p q q' : List Token) (t : Token)
    (h : accept k (p ++ q) = (some t, q)) : accept k (p ++ q') = (some t, q') := by
  unfold accept at h ⊢
  cases hI : accept_ws TokenKind.whitespace (p ++ q) with
  | mk o1 m =>
    rw [hI] at h
    have hm : m <:+ p ++ q := by
      have := accept_ws_snd_suffix TokenKind.whitespace (p ++ q)
      rw [hI] at this; exact this
    have hq : q.length ≤ m.length := by
      have := accept_ws_snd_le k m
      rw [h] at this
      simpa using this
    obtain ⟨u, q1, hpu, hmq⟩ := suffix_split m p q hm hq
    subst hmq
    have hinv := accept_ws_some_inv k (q1 ++ q) t q h
    match q1 with
    | [] =>
      exfalso
      simp only [List.nil_append] at hinv
      exact List.cons_ne_self t q hinv.1.symm
    | y :: q1' =>
      have hq1 : q1' = [] ∧ y = t := by
        have h2 := hinv.1
        simp only [List.cons_append, List.cons.injEq] at h2
        have := congrArg List.length h2.2
        simp only [List.length_append] at this
        exact ⟨List.eq_nil_of_length_eq_zero (by omega), h2.1⟩
      obtain ⟨rfl, rfl⟩ := hq1
      -- the whitespace skip consumed exactly `u`, returning the matched
      -- token followed by `q`
      have hIu : accept_ws TokenKind.whitespace (u ++ y :: q) = (o1, y :: q) := by
        have hpq : p ++ q = u ++ y :: q := by rw [hpu]; simp
        rw [hpq] at hI
        exact hI
      have hI' := accept_ws_frame TokenKind.whitespace u y q q' o1 hIu
      have hI'' : accept_ws TokenKind.whitespace (p ++ q') = (o1, y :: q') := by
        rw [hpu]; simpa using hI'
      rw [hI'']
      exact accept_ws_cons_pos k y q' hinv.2

theorem accept_frame_none (k : TokenKind) (p : List Token) (x : Token)
    (r r' : List Token) (h : accept k (p ++ x :: r) = (none, x :: r)) :
    accept k (p ++ x :: r') = (none, x :: r') := by
  unfold accept at h ⊢
  cases hI : accept_ws TokenKind.whitespace (p ++ x :: r) with
  | mk o1 m =>
    rw [hI] at h
    have hmid : m = x :: r := (accept_ws_none_inv k m (x :: r) h).symm
    subst hmid
    have hI' := accept_ws_frame TokenKind.whitespace p x r r' o1 hI
    rw [hI']
    by_cases hk : x.kind = k
    · rw [accept_ws_cons_pos k x r hk] at h
      simp at h
    · rw [accept_ws_cons_neg k x r hk] at h
      exact accept_ws_cons_neg k x r' hk

theorem accept_frame_none_ext (k : TokenKind) (p m : List Token) (x : Token)
    (r r' : List Token)
    (h : accept k (p ++ (m ++ x :: r)) = (none, m ++ x :: r)) :
    accept k (p ++ (m ++ x :: r')) = (none, m ++ x :: r') := by
  match m with
  | [] => exact accept_frame_none k p x r r' h
  | y :: m' =>
    have h2 := accept_frame_none k p y (m' ++ x :: r) (m' ++ x :: r')
      (by simpa using h)
    simpa using h2

theorem expect_frame_some (k : TokenKind) (p q q' : List Token) (t : Token)
    (h : expect k (p ++ q) = .ok (t, q)) : expect k (p ++ q') = .ok (t, q') := by
  have hA := expect_ok_inv k (p ++ q) t q h
  have hA' := accept_frame_some k p q q' t hA
  unfold expect
  rw [hA']

theorem peekKind_cons (t : Token) (l : List Token) :
    peekKind (t :: l) = t.kind := rfl

theorem accept_ws_pair (k : TokenKind) (ts : List Token) :
    accept_ws k ts = ((accept_ws k ts).1, (accept_ws k ts).2) := rfl

/-- A strict variant of `suffix_split`: when the suffix `l` is strictly
longer than `q`, its first token sits inside `p`. -/
theorem suffix_split_strict {α : Type} (l p q : List α) (hsuf : l <:+ p ++ q)
    (hlen : q.length < l.length) :
    ∃ u y m, p = u ++ y :: m ∧ l = y :: (m ++ q) := by
  obtain ⟨u, q1, hpu, hlq⟩ := suffix_split l p q hsuf (by omega)
  match q1 with
  | [] =>
    rw [hlq] at hlen
    simp at hlen
  | y :: m => exact ⟨u, y, m, hpu, by simpa using hlq⟩

theorem nodeType_frame (p : List Token) (x : Token) (r r' : List Token)
    (nt : NodeType) (h : nodeType (p ++ x :: r) = .ok (nt, x :: r)) :
    nodeType (p ++ x :: r') = .ok (nt, x :: r') := by
  unfold nodeType at h ⊢
  cases hW : expect TokenKind.word (p ++ x :: r) with
  | error k => simp only [hW] at h; exact Except.noConfusion h
  | ok pr =>
    obtain ⟨w, ts1⟩ := pr
    simp only [hW] at h
    have hs1 : ts1 <:+ p ++ x :: r := expect_ok_suffix _ _ _ _ hW
    cases hU : accept (TokenKind.sym '_') ts1 with
    | mk o2 ts2 =>
      have hs2 : ts2 <:+ ts1 := by
        have := accept_snd_suffix (TokenKind.sym '_') ts1
        rw [hU] at this; exact this
      match o2 with
      | some u =>
        simp only [hU] at h
        cases hW2 : expect TokenKind.word ts2 with
        | error k => simp only [hW2] at h; exact Except.noConfusion h
        | ok pr2 =>
          obtain ⟨sb, ts3⟩ := pr2
          simp only [hW2] at h
          have hs3 : ts3 <:+ ts2 := expect_ok_suffix _ _ _ _ hW2
          cases hC : accept (TokenKind.sym '^') ts3 with
          | mk o4 ts4 =>
            have hs4 : ts4 <:+ ts3 := by
              have := accept_snd_suffix (TokenKind.sym '^') ts3
              rw [hC] at this; exact this
            match o4 with
            | some c =>
              simp only [hC] at h
              cases hW3 : expect TokenKind.word ts4 with
              | error k => simp only [hW3] at h; exact Except.noConfusion h
              | ok pr3 =>
                obtain ⟨sp, ts5⟩ := pr3
                simp only [hW3, Except.ok.injEq, Prod.mk.injEq] at h
                obtain ⟨hnt, hout⟩ := h
                subst hout
                have hs5 : (x :: r) <:+ ts4 := expect_ok_suffix _ _ _ _ hW3
                obtain ⟨u1, q1, hp1, ht1⟩ := suffix_split ts1 p (x :: r) hs1
                  ((hs5.trans (hs4.trans (hs3.trans hs2))).length_le)
                subst ht1
                obtain ⟨u2, q2, hp2, ht2⟩ := suffix_split ts2 q1 (x :: r) hs2
                  ((hs5.trans (hs4.trans hs3)).length_le)
                subst ht2
                obtain ⟨u3, q3, hp3, ht3⟩ := suffix_split ts3 q2 (x :: r) hs3
                  ((hs5.trans hs4).length_le)
                subst ht3
                obtain ⟨u4, q4, hp4, ht4⟩ := suffix_split ts4 q3 (x :: r) hs4
                  hs5.length_le
                subst ht4
                have hW' : expect TokenKind.word (p ++ x :: r') =
                    .ok (w, q1 ++ x :: r') := by
                  rw [hp1, List.append_assoc] at hW ⊢
                  exact expect_frame_some _ _ _ _ _ hW
                have hU' : accept (TokenKind.sym '_') (q1 ++ x :: r') =
                    (some u, q2 ++ x :: r') := by
                  rw [hp2, List.append_assoc] at hU ⊢
                  exact accept_frame_some _ _ _ _ _ hU
                have hW2' : expect TokenKind.word (q2 ++ x :: r') =
                    .ok (sb, q3 ++ x :: r') := by
                  rw [hp3, List.append_assoc] at hW2 ⊢
                  exact expect_frame_some _ _ _ _ _ hW2
                have hC' : accept (TokenKind.sym '^') (q3 ++ x :: r') =
                    (some c, q4 ++ x :: r') := by
                  rw [hp4, List.append_assoc] at hC ⊢
                  exact accept_frame_some _ _ _ _ _ hC
                have hW3' : expect TokenKind.word (q4 ++ x :: r') =
                    .ok (sp, x :: r') :=
                  expect_frame_some _ _ _ _ _ hW3
                simp only [hW', hU', hW2', hC', hW3', hnt]
            | none =>
              simp only [hC, Except.ok.injEq, Prod.mk.injEq] at h
              obtain ⟨hnt, hout⟩ := h
              subst hout
              obtain ⟨u1, q1, hp1, ht1⟩ := suffix_split ts1 p (x :: r) hs1
                ((hs4.trans (hs3.trans hs2)).length_le)
              subst ht1
              obtain ⟨u2, q2, hp2, ht2⟩ := suffix_split ts2 q1 (x :: r) hs2
                ((hs4.trans hs3).length_le)
              subst ht2
              obtain ⟨u3, q3, hp3, ht3⟩ := suffix_split ts3 q2 (x :: r) hs3
                hs4.length_le
              subst ht3
              have hW' : expect TokenKind.word (p ++ x :: r') =
                  .ok (w, q1 ++ x :: r') := by
                rw [hp1, List.append_assoc] at hW ⊢
                exact expect_frame_some _ _ _ _ _ hW
              have hU' : accept (TokenKind.sym '_') (q1 ++ x :: r') =
                  (some u, q2 ++ x :: r') := by
                rw [hp2, List.append_assoc] at hU ⊢
                exact accept_frame_some _ _ _ _ _ hU
              have hW2' : expect TokenKind.word (q2 ++ x :: r') =
                  .ok (sb, q3 ++ x :: r') := by
                rw [hp3, List.append_assoc] at hW2 ⊢
                exact expect_frame_some _ _ _ _ _ hW2
              have hC' : accept (TokenKind.sym '^') (q3 ++ x :: r') =
                  (none, x :: r') :=
                accept_frame_none _ _ _ _ _ hC
              simp only [hW', hU', hW2', hC', hnt]
      | none =>
        simp only [hU] at h
        cases hC : accept (TokenKind.sym '^') ts2 with
        | mk o3 ts3 =>
          have hs3 : ts3 <:+ ts2 := by
            have := accept_snd_suffix (TokenKind.sym '^') ts2
            rw [hC] at this; exact this
          match o3 with
          | some c =>
            simp only [hC] at h
            cases hW2 : expect TokenKind.word ts3 with
            | error k => simp only [hW2] at h; exact Except.noConfusion h
            | ok pr2 =>
              obtain ⟨sp, ts4⟩ := pr2
              simp only [hW2] at h
              have hs4 : ts4 <:+ ts3 := expect_ok_suffix _ _ _ _ hW2
              cases hU2 : accept (TokenKind.sym '_') ts4 with
              | mk o5 ts5 =>
                have hs5 : ts5 <:+ ts4 := by
                  have := accept_snd_suffix (TokenKind.sym '_') ts4
                  rw [hU2] at this; exact this
                match o5 with
                | some u =>
                  simp only [hU2] at h
                  cases hW3 : expect TokenKind.word ts5 with
                  | error k => simp only [hW3] at h; exact Except.noConfusion h
                  | ok pr3 =>
                    obtain ⟨sb, ts6⟩ := pr3
                    simp only [hW3, Except.ok.injEq, Prod.mk.injEq] at h
                    obtain ⟨hnt, hout⟩ := h
                    subst hout
                    have hs6 : (x :: r) <:+ ts5 := expect_ok_suffix _ _ _ _ hW3
                    obtain ⟨u1, q1, hp1, ht1⟩ := suffix_split ts1 p (x :: r) hs1
                      ((hs6.trans (hs5.trans (hs4.trans (hs3.trans hs2)))).length_le)
                    subst ht1
                    obtain ⟨u2, q2, hp2, ht2⟩ := suffix_split ts2 q1 (x :: r) hs2
                      ((hs6.trans (hs5.trans (hs4.trans hs3))).length_le)
                    subst ht2
                    obtain ⟨u3, q3, hp3, ht3⟩ := suffix_split ts3 q2 (x :: r) hs3
                      ((hs6.trans (hs5.trans hs4)).length_le)
                    subst ht3
                    obtain ⟨u4, q4, hp4, ht4⟩ := suffix_split ts4 q3 (x :: r) hs4
                      ((hs6.trans hs5).length_le)
                    subst ht4
                    obtain ⟨u5, q5, hp5, ht5⟩ := suffix_split ts5 q4 (x :: r) hs5
                      hs6.length_le
                    subst ht5
                    have hW' : expect TokenKind.word (p ++ x :: r') =
                        .ok (w, q1 ++ x :: r') := by
                      rw [hp1, List.append_assoc] at hW ⊢
                      exact expect_frame_some _ _ _ _ _ hW
                    have hU' : accept (TokenKind.sym '_') (q1 ++ x :: r') =
                        (none, q2 ++ x :: r') := by
                      rw [hp2, List.append_assoc] at hU ⊢
                      exact accept_frame_none_ext _ _ _ _ _ _ hU
                    have hC' : accept (TokenKind.sym '^') (q2 ++ x :: r') =
                        (some c, q3 ++ x :: r') := by
                      rw [hp3, List.append_assoc] at hC ⊢
                      exact accept_frame_some _ _ _ _ _ hC
                    have hW2' : expect TokenKind.word (q3 ++ x :: r') =
                        .ok (sp, q4 ++ x :: r') := by
                      rw [hp4, List.append_assoc] at hW2 ⊢
                      exact expect_frame_some _ _ _ _ _ hW2
                    have hU2' : accept (TokenKind.sym '_') (q4 ++ x :: r') =
                        (some u, q5 ++ x :: r') := by
                      rw [hp5, List.append_assoc] at hU2 ⊢
                      exact accept_frame_some _ _ _ _ _ hU2
                    have hW3' : expect TokenKind.word (q5 ++ x :: r') =
                        .ok (sb, x :: r') :=
                      expect_frame_some _ _ _ _ _ hW3
                    simp only [hW', hU', hC', hW2', hU2', hW3', hnt]
                | none =>
                  simp only [hU2, Except.ok.injEq, Prod.mk.injEq] at h
                  obtain ⟨hnt, hout⟩ := h
                  subst hout
                  obtain ⟨u1, q1, hp1, ht1⟩ := suffix_split ts1 p (x :: r) hs1
                    ((hs5.trans (hs4.trans (hs3.trans hs2))).length_le)
                  subst ht1
                  obtain ⟨u2, q2, hp2, ht2⟩ := suffix_split ts2 q1 (x :: r) hs2
                    ((hs5.trans (hs4.trans hs3)).length_le)
                  subst ht2
                  obtain ⟨u3, q3, hp3, ht3⟩ := suffix_split ts3 q2 (x :: r) hs3
                    ((hs5.trans hs4).length_le)
                  subst ht3
                  obtain ⟨u4, q4, hp4, ht4⟩ := suffix_split ts4 q3 (x :: r) hs4
                    hs5.length_le
                  subst ht4
                  have hW' : expect TokenKind.word (p ++ x :: r') =
                      .ok (w, q1 ++ x :: r') := by
                    rw [hp1, List.append_assoc] at hW ⊢
                    exact expect_frame_some _ _ _ _ _ hW
                  have hU' : accept (TokenKind.sym '_') (q1 ++ x :: r') =
                      (none, q2 ++ x :: r') := by
                    rw [hp2, List.append_assoc] at hU ⊢
                    exact accept_frame_none_ext _ _ _ _ _ _ hU
                  have hC' : accept (TokenKind.sym '^') (q2 ++ x :: r') =
                      (some c, q3 ++ x :: r') := by
                    rw [hp3, List.append_assoc] at hC ⊢
                    exact accept_frame_some _ _ _ _ _ hC
                  have hW2' : expect TokenKind.word (q3 ++ x :: r') =
                      .ok (sp, q4 ++ x :: r') := by
                    rw [hp4, List.append_assoc] at hW2 ⊢
                    exact expect_frame_some _ _ _ _ _ hW2
                  have hU2' : accept (TokenKind.sym '_') (q4 ++ x :: r') =
                      (none, x :: r') :=
                    accept_frame_none _ _ _ _ _ hU2
                  simp only [hW', hU', hC', hW2', hU2', hnt]
          | none =>
            simp only [hC, Except.ok.injEq, Prod.mk.injEq] at h
            obtain ⟨hnt, hout⟩ := h
            subst hout
            obtain ⟨u1, q1, hp1, ht1⟩ := suffix_split ts1 p (x :: r) hs1
              ((hs3.trans hs2).length_le)
            subst ht1
            obtain ⟨u2, q2, hp2, ht2⟩ := suffix_split ts2 q1 (x :: r) hs2
              hs3.length_le
            subst ht2
            have hW' : expect TokenKind.word (p ++ x :: r') =
                .ok (w, q1 ++ x :: r') := by
              rw [hp1, List.append_assoc] at hW ⊢
              exact expect_frame_some _ _ _ _ _ hW
            have hU' : accept (TokenKind.sym '_') (q1 ++ x :: r') =
                (none, q2 ++ x :: r') := by
              rw [hp2, List.append_assoc] at hU ⊢
              exact accept_frame_none_ext _ _ _ _ _ _ hU
            have hC' : accept (TokenKind.sym '^') (q2 ++ x :: r') =
                (none, x :: r') :=
              accept_frame_none _ _ _ _ _ hC
            simp only [hW', hU', hC', hnt]

theorem nodeType_frame_ext (p m : List Token) (x : Token) (r r' : List Token)
    (nt : NodeType)
    (h : nodeType (p ++ (m ++ x :: r)) = .ok (nt, m ++ x :: r)) :
    nodeType (p ++ (m ++ x :: r')) = .ok (nt, m ++ x :: r') := by
  match m with
  | [] => exact nodeType_frame p x r r' nt h
  | y :: m' =>
    have h2 := nodeType_frame p y (m' ++ x :: r) (m' ++ x :: r') nt
      (by simpa using h)
    simpa using h2


theorem captureData_frame (p : List Token) (x : Token) (r r' : List Token)
    (hall : ∀ t ∈ p, stopKind t.kind = false) (hx : stopKind x.kind = true) :
    captureData (p ++ x :: r) = captureData (p ++ x :: r') := by
  induction p with
  | nil => simp [captureData, hx]
  | cons t p ih =>
    have ht : stopKind t.kind = false := hall t (by simp)
    simp only [List.cons_append, captureData, ht, Bool.false_eq_true, if_false]
    exact congrArg (fun s => captureText t ++ s)
      (ih (fun a ha => hall a (by simp [ha])))

theorem capture_frame (acc : String) (p : List Token) (x : Token)
    (r r' : List Token) (d : String)
    (h : capture (p ++ x :: r) acc = (d, x :: r)) :
    capture (p ++ x :: r') acc = (d, x :: r') := by
  rw [capture_eq] at h
  obtain ⟨hd, hdw⟩ : acc ++ captureData (p ++ x :: r) = d ∧
      (p ++ x :: r).dropWhile (fun t => !stopKind t.kind) = x :: r := by
    exact ⟨congrArg Prod.fst h, congrArg Prod.snd h⟩
  have htw : (p ++ x :: r).takeWhile (fun t => !stopKind t.kind) = p := by
    have hsplit := List.takeWhile_append_dropWhile
      (fun t => !stopKind t.kind) (p ++ x :: r)
    rw [hdw] at hsplit
    have hlen : ((p ++ x :: r).takeWhile (fun t => !stopKind t.kind)).length =
        p.length := by
      have := congrArg List.length hsplit
      simp only [List.length_append, List.length_cons] at this
      omega
    exact (List.append_inj hsplit (by rw [hlen])).1
  have hall : ∀ t ∈ p, stopKind t.kind = false := by
    intro t ht
    have := List.mem_takeWhile_imp (htw ▸ ht)
    simpa using this
  have hx : stopKind x.kind = true := by
    by_contra hxc
    have hxns : (fun t => !stopKind t.kind) x = true := by
      simp [Bool.not_eq_true] at hxc ⊢
      simp [hxc]
    have : (p ++ x :: r).dropWhile (fun t => !stopKind t.kind) =
        r.dropWhile (fun t => !stopKind t.kind) := by
      rw [dropWhile_append_all _ p _ (by intro a ha; simp [hall a ha]),
        List.dropWhile_cons, if_pos hxns]
    rw [hdw] at this
    have := congrArg List.length this
    have hle := ((List.dropWhile_suffix (fun (t : Token) => !stopKind t.kind) :
      r.dropWhile (fun t => !stopKind t.kind) <:+ r)).length_le
    simp only [List.length_cons] at this
    omega
  rw [capture_eq]
  have hdw' : (p ++ x :: r').dropWhile (fun t => !stopKind t.kind) = x :: r' := by
    rw [dropWhile_append_all _ p _ (by intro a ha; simp [hall a ha]),
      List.dropWhile_cons]
    simp [hx]
  rw [hdw', ← hd, captureData_frame p x r r' hall hx]

theorem nodeData_frame (p : List Token) (x : Token) (r r' : List Token)
    (lf : Leaf) (h : nodeData (p ++ x :: r) = .ok (lf, x :: r)) :
    nodeData (p ++ x :: r') = .ok (lf, x :: r') := by
  unfold nodeData at h ⊢
  cases hS : accept (TokenKind.sym '/') (p ++ x :: r) with
  | mk o1 ts1 =>
    have hs1 : ts1 <:+ p ++ x :: r := by
      have := accept_snd_suffix (TokenKind.sym '/') (p ++ x :: r)
      rw [hS] at this; exact this
    match o1 with
    | some u =>
      simp only [hS, Except.ok.injEq, Prod.mk.injEq] at h
      obtain ⟨hlf, hout⟩ := h
      subst hout
      have hS' : accept (TokenKind.sym '/') (p ++ x :: r') = (some u, x :: r') :=
        accept_frame_some _ _ _ _ _ hS
      simp only [hS', hlf]
    | none =>
      simp only [hS] at h
      cases hA : accept (TokenKind.sym '*') ts1 with
      | mk st ts2 =>
        simp only [hA] at h
        have hs2 : ts2 <:+ ts1 := by
          have := accept_snd_suffix (TokenKind.sym '*') ts1
          rw [hA] at this; exact this
        cases hW : expect TokenKind.word ts2 with
        | error k => simp only [hW] at h; exact Except.noConfusion h
        | ok pr =>
          obtain ⟨w, ts3⟩ := pr
          simp only [hW] at h
          have hs3 : ts3 <:+ ts2 := expect_ok_suffix _ _ _ _ hW
          cases hCp : capture ts3 ("" ++ w.valueStr) with
          | mk dat ts4 =>
            simp only [hCp, Except.ok.injEq, Prod.mk.injEq] at h
            obtain ⟨hlf, hout⟩ := h
            subst hout
            have hs4 : (x :: r) <:+ ts3 := by
              have := capture_snd_suffix ts3 ("" ++ w.valueStr)
              rw [hCp] at this; exact this
            obtain ⟨u1, q1, hp1, ht1⟩ := suffix_split ts1 p (x :: r) hs1
              ((hs4.trans (hs3.trans hs2)).length_le)
            subst ht1
            obtain ⟨u2, q2, hp2, ht2⟩ := suffix_split ts2 q1 (x :: r) hs2
              ((hs4.trans hs3).length_le)
            subst ht2
            obtain ⟨u3, q3, hp3, ht3⟩ := suffix_split ts3 q2 (x :: r) hs3
              hs4.length_le
            subst ht3
            have hS' : accept (TokenKind.sym '/') (p ++ x :: r') =
                (none, q1 ++ x :: r') := by
              rw [hp1, List.append_assoc] at hS ⊢
              exact accept_frame_none_ext _ _ _ _ _ _ hS
            have hA' : accept (TokenKind.sym '*') (q1 ++ x :: r') =
                (st, q2 ++ x :: r') := by
              match st with
              | some v =>
                rw [hp2, List.append_assoc] at hA ⊢
                exact accept_frame_some _ _ _ _ _ hA
              | none =>
                rw [hp2, List.append_assoc] at hA ⊢
                exact accept_frame_none_ext _ _ _ _ _ _ hA
            have hW' : expect TokenKind.word (q2 ++ x :: r') =
                .ok (w, q3 ++ x :: r') := by
              rw [hp3, List.append_assoc] at hW ⊢
              exact expect_frame_some _ _ _ _ _ hW
            have hCp' : capture (q3 ++ x :: r') ("" ++ w.valueStr) =
                (dat, x :: r') :=
              capture_frame _ _ _ _ _ _ hCp
            simp only [hS', hA', hW', hCp', hlf]

theorem nodeData_frame_ext (p m : List Token) (x : Token) (r r' : List Token)
    (lf : Leaf)
    (h : nodeData (p ++ (m ++ x :: r)) = .ok (lf, m ++ x :: r)) :
    nodeData (p ++ (m ++ x :: r')) = .ok (lf, m ++ x :: r') := by
  match m with
  | [] => exact nodeData_frame p x r r' lf h
  | y :: m' =>
    have h2 := nodeData_frame p y (m' ++ x :: r) (m' ++ x :: r') lf
      (by simpa using h)
    simpa using h2

theorem reassoc_app {α : Type} {p u q1 : List α} (q : List α)
    (h : p = u ++ q1) : p ++ q = u ++ (q1 ++ q) := by
  rw [h, List.append_assoc]

theorem reassoc_cons {α : Type} {y : α} {m u : List α} {y' : α} {m' : List α}
    (q : List α) (h : y :: m = u ++ y' :: m') :
    y :: (m ++ q) = u ++ (y' :: (m' ++ q)) := by
  have h2 := congrArg (fun l => l ++ q) h
  simpa [List.append_assoc] using h2

theorem reassoc_app_cons {α : Type} {p u : List α} {y : α} {m : List α}
    (q : List α) (h : p = u ++ y :: m) : p ++ q = u ++ (y :: (m ++ q)) := by
  rw [h, List.append_assoc]
  rfl

theorem pair_eq_of_snd {α β : Type} (x : α × β) (b : β) (h : x.2 = b) :
    x = (x.1, b) := by
  rw [← h]

/-- The frame property: a parsing function that succeeds returning rest `q`
(resp. a rest with preserved lookahead head `x`) behaves identically when
the unconsumed part beyond that point is replaced. -/
theorem parseFrame : ∀ f : Nat,
    (∀ p q q' : List Token, ∀ t, node f (p ++ q) = .ok t q →
      node f (p ++ q') = .ok t q') ∧
    (∀ nt, ∀ p : List Token, ∀ x : Token, ∀ r r' : List Token, ∀ t,
      nodeChain f nt (p ++ x :: r) = .ok t (x :: r) →
      nodeChain f nt (p ++ x :: r') = .ok t (x :: r')) ∧
    (∀ p : List Token, ∀ x : Token, ∀ r r' : List Token, ∀ cs,
      nodeList f (p ++ x :: r) = .ok cs (x :: r) →
      nodeList f (p ++ x :: r') = .ok cs (x :: r')) := by
  intro f
  induction f with
  | zero =>
    refine ⟨?_, ?_, ?_⟩ <;> intros <;> exact PRes.noConfusion (by assumption)
  | succ f ih =>
    obtain ⟨ihN, ihC, ihL⟩ := ih
    refine ⟨?_, ?_, ?_⟩
    · -- node: full-tail replacement
      intro p q q' t h
      rw [node_succ] at h
      cases hE : expect (TokenKind.sym '[') (p ++ q) with
      | error k => simp only [hE] at h; exact PRes.noConfusion h
      | ok pr =>
        obtain ⟨tk1, ts1⟩ := pr
        simp only [hE] at h
        have s1 : ts1 <:+ p ++ q := expect_ok_suffix _ _ _ _ hE
        have sW : (accept_ws TokenKind.whitespace ts1).2 <:+ ts1 :=
          accept_ws_snd_suffix _ _
        by_cases hW :
            peekKind (accept_ws TokenKind.whitespace ts1).2 = TokenKind.word
        · rw [if_pos hW] at h
          cases hNT : nodeType ((accept_ws TokenKind.whitespace ts1).2) with
          | error k => simp only [hNT] at h; exact PRes.noConfusion h
          | ok pr2 =>
            obtain ⟨nt, ts3⟩ := pr2
            simp only [hNT] at h
            cases hC : nodeChain f nt ts3 with
            | fuel => simp only [hC] at h; exact PRes.noConfusion h
            | err k => simp only [hC] at h; exact PRes.noConfusion h
            | ok t4 ts4 =>
              simp only [hC] at h
              cases hE2 : expect (TokenKind.sym ']') ts4 with
              | error k => simp only [hE2] at h; exact PRes.noConfusion h
              | ok pr3 =>
                obtain ⟨tk2, ts5⟩ := pr3
                simp only [hE2] at h
                injection h with h1 h2
                rw [h1] at hC
                rw [h2] at hE2
                have s5 : q <:+ ts4 := expect_ok_suffix _ _ _ _ hE2
                have l5 : q.length < ts4.length := expect_ok_length _ _ _ _ hE2
                have s4 : ts4 <:+ ts3 := nodeChain_ok_suffix f nt ts3 t ts4 hC
                have s3 : ts3 <:+ (accept_ws TokenKind.whitespace ts1).2 :=
                  nodeType_ok_suffix _ _ _ hNT
                have l3 : ts3.length <
                    ((accept_ws TokenKind.whitespace ts1).2).length :=
                  nodeType_ok_length _ _ _ hNT
                obtain ⟨u1, q1, hp1, ht1⟩ := suffix_split ts1 p q s1
                  ((s5.trans (s4.trans (s3.trans sW))).length_le)
                subst ht1
                obtain ⟨u2, y2, m2, hq1, hw⟩ := suffix_split_strict
                  ((accept_ws TokenKind.whitespace (q1 ++ q)).2) q1 q sW
                  (by
                    have := s4.length_le
                    have := s3.length_le
                    omega)
                obtain ⟨u3, y3, m3, hq2, ht3⟩ := suffix_split_strict ts3
                  (y2 :: m2) q (by rw [hw] at s3; simpa using s3)
                  (by have := s4.length_le; omega)
                subst ht3
                obtain ⟨u4, y4, m4, hq3, ht4⟩ := suffix_split_strict ts4
                  (y3 :: m3) q (by simpa using s4) l5
                subst ht4
                -- framed equations on the replaced stream
                have hE' : expect (TokenKind.sym '[') (p ++ q') =
                    .ok (tk1, q1 ++ q') := by
                  rw [reassoc_app q hp1] at hE
                  rw [reassoc_app q' hp1]
                  exact expect_frame_some _ _ _ _ _ hE
                have hAW' : accept_ws TokenKind.whitespace (q1 ++ q') =
                    ((accept_ws TokenKind.whitespace (q1 ++ q)).1,
                      y2 :: (m2 ++ q')) := by
                  have h0 : accept_ws TokenKind.whitespace
                      (u2 ++ y2 :: (m2 ++ q)) =
                      ((accept_ws TokenKind.whitespace (q1 ++ q)).1,
                        y2 :: (m2 ++ q)) := by
                    rw [← reassoc_app_cons q hq1]
                    exact pair_eq_of_snd _ _ hw
                  have h1 := accept_ws_frame TokenKind.whitespace u2 y2
                    (m2 ++ q) (m2 ++ q') _ h0
                  rw [← reassoc_app_cons q' hq1] at h1
                  exact h1
                have hy2 : y2.kind = TokenKind.word := by
                  rw [hw, peekKind_cons] at hW
                  exact hW
                have hNT' : nodeType (y2 :: (m2 ++ q')) =
                    .ok (nt, y3 :: (m3 ++ q')) := by
                  have h0 : nodeType (u3 ++ y3 :: (m3 ++ q)) =
                      .ok (nt, y3 :: (m3 ++ q)) := by
                    rw [← reassoc_cons q hq2, ← hw]
                    exact hNT
                  have h1 := nodeType_frame u3 y3 (m3 ++ q) (m3 ++ q') nt h0
                  rw [← reassoc_cons q' hq2] at h1
                  exact h1
                have hC' : nodeChain f nt (y3 :: (m3 ++ q')) =
                    .ok t (y4 :: (m4 ++ q')) := by
                  have h0 : nodeChain f nt (u4 ++ y4 :: (m4 ++ q)) =
                      .ok t (y4 :: (m4 ++ q)) := by
                    rw [← reassoc_cons q hq3]
                    exact hC
                  have h1 := ihC nt u4 y4 (m4 ++ q) (m4 ++ q') t h0
                  rw [← reassoc_cons q' hq3] at h1
                  exact h1
                have hE2' : expect (TokenKind.sym ']') (y4 :: (m4 ++ q')) =
                    .ok (tk2, q') := by
                  have h0 : expect (TokenKind.sym ']') ((y4 :: m4) ++ q) =
                      .ok (tk2, q) := by simpa using hE2
                  have h1 := expect_frame_some (TokenKind.sym ']')
                    (y4 :: m4) q q' tk2 h0
                  simpa using h1
                rw [node_succ]
                simp only [hE', hAW']
                rw [if_pos (show peekKind (y2 :: (m2 ++ q')) = TokenKind.word
                  from by rw [peekKind_cons, hy2])]
                simp only [hNT', hC', hE2']
        · rw [if_neg hW] at h
          cases hE2 : expect (TokenKind.sym ']')
              ((accept_ws TokenKind.whitespace ts1).2) with
          | error k => simp only [hE2] at h; exact PRes.noConfusion h
          | ok pr3 =>
            obtain ⟨tk2, ts5⟩ := pr3
            simp only [hE2] at h
            injection h with h1 h2
            subst h1
            rw [h2] at hE2
            have l5 : q.length <
                ((accept_ws TokenKind.whitespace ts1).2).length :=
              expect_ok_length _ _ _ _ hE2
            obtain ⟨u1, q1, hp1, ht1⟩ := suffix_split ts1 p q s1
              (Nat.le_trans (Nat.le_of_lt l5) sW.length_le)
            subst ht1
            obtain ⟨u2, y2, m2, hq1, hw⟩ := suffix_split_strict
              ((accept_ws TokenKind.whitespace (q1 ++ q)).2) q1 q sW l5
            have hE' : expect (TokenKind.sym '[') (p ++ q') =
                .ok (tk1, q1 ++ q') := by
              rw [reassoc_app q hp1] at hE
              rw [reassoc_app q' hp1]
              exact expect_frame_some _ _ _ _ _ hE
            have hAW' : accept_ws TokenKind.whitespace (q1 ++ q') =
                ((accept_ws TokenKind.whitespace (q1 ++ q)).1,
                  y2 :: (m2 ++ q')) := by
              have h0 : accept_ws TokenKind.whitespace
                  (u2 ++ y2 :: (m2 ++ q)) =
                  ((accept_ws TokenKind.whitespace (q1 ++ q)).1,
                    y2 :: (m2 ++ q)) := by
                rw [← reassoc_app_cons q hq1]
                exact pair_eq_of_snd _ _ hw
              have h1 := accept_ws_frame TokenKind.whitespace u2 y2
                (m2 ++ q) (m2 ++ q') _ h0
              rw [← reassoc_app_cons q' hq1] at h1
              exact h1
            have hy2 : ¬ y2.kind = TokenKind.word := by
              rw [hw, peekKind_cons] at hW
              exact hW
            have hE2' : expect (TokenKind.sym ']') (y2 :: (m2 ++ q')) =
                .ok (tk2, q') := by
              have h0 : expect (TokenKind.sym ']') ((y2 :: m2) ++ q) =
                  .ok (tk2, q) := by
                rw [hw] at hE2
                exact hE2
              have h1 := expect_frame_some (TokenKind.sym ']')
                (y2 :: m2) q q' tk2 h0
              simpa using h1
            rw [node_succ]
            simp only [hE', hAW']
            rw [if_neg (show ¬ peekKind (y2 :: (m2 ++ q')) = TokenKind.word
              from by rw [peekKind_cons]; exact hy2)]
            simp only [hE2']
    · -- nodeChain: head-preserving replacement
      intro nt p x r r' t h
      rw [nodeChain_succ] at h
      cases hA : accept (TokenKind.sym '.') (p ++ x :: r) with
      | mk o1 ts1 =>
        have sa : ts1 <:+ p ++ x :: r := by
          have := accept_snd_suffix (TokenKind.sym '.') (p ++ x :: r)
          rw [hA] at this; exact this
        match o1 with
        | some u =>
          simp only [hA] at h
          cases hNT : nodeType ts1 with
          | error k => simp only [hNT] at h; exact PRes.noConfusion h
          | ok pr2 =>
            obtain ⟨nt2, ts2⟩ := pr2
            simp only [hNT] at h
            cases hC : nodeChain f nt2 ts2 with
            | fuel => simp only [hC] at h; exact PRes.noConfusion h
            | err k => simp only [hC] at h; exact PRes.noConfusion h
            | ok child ts3 =>
              simp only [hC] at h
              injection h with h1 h2
              subst h1
              subst h2
              have s3 : (x :: r) <:+ ts2 :=
                nodeChain_ok_suffix f nt2 ts2 child _ hC
              have s2 : ts2 <:+ ts1 := nodeType_ok_suffix _ _ _ hNT
              obtain ⟨u1, q1, hp1, ht1⟩ := suffix_split ts1 p (x :: r) sa
                ((s3.trans s2).length_le)
              subst ht1
              obtain ⟨u2, q2, hp2, ht2⟩ := suffix_split ts2 q1 (x :: r) s2
                s3.length_le
              subst ht2
              have hA' : accept (TokenKind.sym '.') (p ++ x :: r') =
                  (some u, q1 ++ x :: r') := by
                rw [reassoc_app (x :: r) hp1] at hA
                rw [reassoc_app (x :: r') hp1]
                exact accept_frame_some _ _ _ _ _ hA
              have hNT' : nodeType (q1 ++ x :: r') =
                  .ok (nt2, q2 ++ x :: r') := by
                rw [reassoc_app (x :: r) hp2] at hNT
                rw [reassoc_app (x :: r') hp2]
                exact nodeType_frame_ext _ _ _ _ _ _ hNT
              have hC' : nodeChain f nt2 (q2 ++ x :: r') =
                  .ok child (x :: r') :=
                ihC nt2 q2 x r r' child hC
              rw [nodeChain_succ]
              simp only [hA', hNT', hC']
        | none =>
          simp only [hA] at h
          have hts1 : ts1 = (accept_ws TokenKind.whitespace (p ++ x :: r)).2 :=
            accept_none_inv _ _ _ hA
          by_cases hL : peekKind ts1 = TokenKind.sym '['
          · rw [if_pos hL] at h
            cases hNL : nodeList f ts1 with
            | fuel => simp only [hNL] at h; exact PRes.noConfusion h
            | err k => simp only [hNL] at h; exact PRes.noConfusion h
            | ok cs2 ts2 =>
              simp only [hNL] at h
              injection h with h1 h2
              subst h1
              subst h2
              have s2 : (x :: r) <:+ ts1 := nodeList_ok_suffix f ts1 cs2 _ hNL
              obtain ⟨u1, q1, hp1, ht1⟩ := suffix_split ts1 p (x :: r) sa
                s2.length_le
              subst ht1
              have hA' : accept (TokenKind.sym '.') (p ++ x :: r') =
                  (none, q1 ++ x :: r') := by
                rw [reassoc_app (x :: r) hp1] at hA
                rw [reassoc_app (x :: r') hp1]
                exact accept_frame_none_ext _ _ _ _ _ _ hA
              have hL' : peekKind (q1 ++ x :: r') = TokenKind.sym '[' := by
                rw [peekKind_append_cons r]
                exact hL
              have hNL' : nodeList f (q1 ++ x :: r') = .ok cs2 (x :: r') :=
                ihL q1 x r r' cs2 hNL
              rw [nodeChain_succ]
              simp only [hA']
              rw [if_pos hL']
              simp only [hNL']
          · rw [if_neg hL] at h
            by_cases hD : dataStart (peekKind ts1) = true
            · rw [if_pos hD] at h
              cases hND : nodeData ts1 with
              | error k => simp only [hND] at h; exact PRes.noConfusion h
              | ok pr2 =>
                obtain ⟨lf, ts2⟩ := pr2
                simp only [hND] at h
                injection h with h1 h2
                subst h1
                subst h2
                have s2 : (x :: r) <:+ ts1 := nodeData_ok_suffix _ _ _ hND
                obtain ⟨u1, q1, hp1, ht1⟩ := suffix_split ts1 p (x :: r) sa
                  s2.length_le
                subst ht1
                have hA' : accept (TokenKind.sym '.') (p ++ x :: r') =
                    (none, q1 ++ x :: r') := by
                  rw [reassoc_app (x :: r) hp1] at hA
                  rw [reassoc_app (x :: r') hp1]
                  exact accept_frame_none_ext _ _ _ _ _ _ hA
                have hL' : ¬ peekKind (q1 ++ x :: r') = TokenKind.sym '[' := by
                  rw [peekKind_append_cons r]
                  exact hL
                have hD' : dataStart (peekKind (q1 ++ x :: r')) = true := by
                  rw [peekKind_append_cons r]
                  exact hD
                have hND' : nodeData (q1 ++ x :: r') = .ok (lf, x :: r') :=
                  nodeData_frame q1 x r r' lf hND
                rw [nodeChain_succ]
                simp only [hA']
                rw [if_neg hL', if_pos hD']
                simp only [hND']
            · rw [if_neg hD] at h
              injection h with h1 h2
              subst h1
              subst h2
              have hA' : accept (TokenKind.sym '.') (p ++ x :: r') =
                  (none, x :: r') :=
                accept_frame_none _ _ _ _ _ hA
              have hL' : ¬ peekKind (x :: r') = TokenKind.sym '[' := by
                rw [peekKind_cons]
                rw [peekKind_cons] at hL
                exact hL
              have hD' : ¬ dataStart (peekKind (x :: r')) = true := by
                rw [peekKind_cons]
                rw [peekKind_cons] at hD
                exact hD
              rw [nodeChain_succ]
              simp only [hA']
              rw [if_neg hL', if_neg hD']
    · -- nodeList: head-preserving replacement
      intro p x r r' cs h
      rw [nodeList_succ] at h
      have sW : (accept_ws TokenKind.whitespace (p ++ x :: r)).2 <:+
          p ++ x :: r := accept_ws_snd_suffix _ _
      by_cases hL :
          peekKind (accept_ws TokenKind.whitespace (p ++ x :: r)).2 =
            TokenKind.sym '['
      · rw [if_pos hL] at h
        cases hN : node f ((accept_ws TokenKind.whitespace (p ++ x :: r)).2) with
        | fuel => simp only [hN] at h; exact PRes.noConfusion h
        | err k => simp only [hN] at h; exact PRes.noConfusion h
        | ok t1 ts2 =>
          simp only [hN] at h
          cases hNL : nodeList f ts2 with
          | fuel => simp only [hNL] at h; exact PRes.noConfusion h
          | err k => simp only [hNL] at h; exact PRes.noConfusion h
          | ok cs2 ts3 =>
            simp only [hNL] at h
            injection h with h1 h2
            subst h1
            subst h2
            have s3 : (x :: r) <:+ ts2 := nodeList_ok_suffix f ts2 cs2 _ hNL
            have s2 : ts2 <:+ (accept_ws TokenKind.whitespace (p ++ x :: r)).2 :=
              node_ok_suffix f _ t1 ts2 hN
            obtain ⟨u1, q1, hp1, hw⟩ := suffix_split
              ((accept_ws TokenKind.whitespace (p ++ x :: r)).2) p (x :: r) sW
              ((s3.trans s2).length_le)
            obtain ⟨u2, q2, hp2, ht2⟩ := suffix_split ts2 q1 (x :: r)
              (by rw [hw] at s2; exact s2) s3.length_le
            subst ht2
            have hAW' : accept_ws TokenKind.whitespace (p ++ x :: r') =
                ((accept_ws TokenKind.whitespace (p ++ x :: r)).1,
                  q1 ++ x :: r') := by
              have h0 : accept_ws TokenKind.whitespace (u1 ++ (q1 ++ x :: r)) =
                  ((accept_ws TokenKind.whitespace (p ++ x :: r)).1,
                    q1 ++ x :: r) := by
                rw [← reassoc_app (x :: r) hp1]
                exact pair_eq_of_snd _ _ hw
              have h1 := accept_ws_frame_ext TokenKind.whitespace u1 q1 x r r' _
                h0
              rw [← reassoc_app (x :: r') hp1] at h1
              exact h1
            have hL' : peekKind (q1 ++ x :: r') = TokenKind.sym '[' := by
              rw [peekKind_append_cons r]
              rw [hw] at hL
              exact hL
            have hN' : node f (q1 ++ x :: r') = .ok t1 (q2 ++ x :: r') := by
              have h0 : node f (u2 ++ (q2 ++ x :: r)) =
                  .ok t1 (q2 ++ x :: r) := by
                rw [← reassoc_app (x :: r) hp2]
                rw [hw] at hN
                exact hN
              have h1 := ihN u2 (q2 ++ x :: r) (q2 ++ x :: r') t1 h0
              rw [← reassoc_app (x :: r') hp2] at h1
              exact h1
            have hNL' : nodeList f (q2 ++ x :: r') = .ok cs2 (x :: r') :=
              ihL q2 x r r' cs2 hNL
            rw [nodeList_succ]
            simp only [hAW']
            rw [if_pos hL']
            simp only [hN', hNL']
      · rw [if_neg hL] at h
        injection h with h1 h2
        subst h1
        have hAW' : accept_ws TokenKind.whitespace (p ++ x :: r') =
            ((accept_ws TokenKind.whitespace (p ++ x :: r)).1, x :: r') := by
          have h0 : accept_ws TokenKind.whitespace (p ++ x :: r) =
              ((accept_ws TokenKind.whitespace (p ++ x :: r)).1, x :: r) :=
            pair_eq_of_snd _ _ h2
          exact accept_ws_frame TokenKind.whitespace p x r r' _ h0
        have hL' : ¬ peekKind (x :: r') = TokenKind.sym '[' := by
          rw [h2, peekKind_cons] at hL
          rw [peekKind_cons]
          exact hL
        rw [nodeList_succ]
        simp only [hAW']
        rw [if_neg hL']

/-! ## Canonical-fuel unfolding equations and frame corollaries -/

theorem nodeD_eq (ts : List Token) :
    nodeD ts =
      match expect (TokenKind.sym '[') ts with
      | .error k => .err k
      | .ok (_, ts1) =>
        if peekKind (accept_ws TokenKind.whitespace ts1).2 = TokenKind.word then
          match nodeType (accept_ws TokenKind.whitespace ts1).2 with
          | .error k => .err k
          | .ok (nt, ts3) =>
            match nodeChainD nt ts3 with
            | .fuel => .fuel
            | .err k => .err k
            | .ok t ts4 =>
              match expect (TokenKind.sym ']') ts4 with
              | .error k => .err k
              | .ok (_, ts5) => .ok t ts5
        else
          match expect (TokenKind.sym ']')
              (accept_ws TokenKind.whitespace ts1).2 with
          | .error k => .err k
          | .ok (_, ts5) => .ok (Tree.mk none [] none none) ts5 := by
  show node (2 * ts.length + 1 + 1) ts = _
  rw [node_succ]
  cases hE : expect (TokenKind.sym '[') ts with
  | error k => rfl
  | ok pr =>
    obtain ⟨tk1, ts1⟩ := pr
    have hl1 : ts1.length < ts.length := expect_ok_length _ _ _ _ hE
    have hl2 : ((accept_ws TokenKind.whitespace ts1).2).length ≤ ts1.length :=
      accept_ws_snd_le _ _
    simp only
    by_cases hW :
        peekKind (accept_ws TokenKind.whitespace ts1).2 = TokenKind.word
    · rw [if_pos hW, if_pos hW]
      cases hNT : nodeType ((accept_ws TokenKind.whitespace ts1).2) with
      | error k => rfl
      | ok pr2 =>
        obtain ⟨nt, ts3⟩ := pr2
        have hl3 := nodeType_ok_length _ _ _ hNT
        simp only
        rw [nodeChain_stable (2 * ts.length + 1) nt ts3 (by omega)]
    · rw [if_neg hW, if_neg hW]

theorem nodeChainD_eq (nt : NodeType) (ts : List Token) :
    nodeChainD nt ts =
      match accept (TokenKind.sym '.') ts with
      | (some _, ts1) =>
        match nodeType ts1 with
        | .error k => .err k
        | .ok (nt2, ts2) =>
          match nodeChainD nt2 ts2 with
          | .fuel => .fuel
          | .err k => .err k
          | .ok child ts3 => .ok (Tree.mk (some nt) [child] none none) ts3
      | (none, ts1) =>
        if peekKind ts1 = TokenKind.sym '[' then
          match nodeListD ts1 with
          | .fuel => .fuel
          | .err k => .err k
          | .ok cs ts2 => .ok (Tree.mk (some nt) cs none none) ts2
        else if dataStart (peekKind ts1) then
          match nodeData ts1 with
          | .error k => .err k
          | .ok (lf, ts2) => .ok (Tree.mk (some nt) [] (some lf) none) ts2
        else
          .ok (Tree.mk (some nt) [] none none) ts1 := by
  show nodeChain (2 * ts.length + 2 + 1) nt ts = _
  rw [nodeChain_succ]
  cases hA : accept (TokenKind.sym '.') ts with
  | mk o1 ts1 =>
    have hla : ts1.length ≤ ts.length := by
      have := accept_snd_le (TokenKind.sym '.') ts
      rw [hA] at this; exact this
    match o1 with
    | some u =>
      have hla2 : ts1.length < ts.length := accept_some_length _ _ _ _ hA
      simp only
      cases hNT : nodeType ts1 with
      | error k => rfl
      | ok pr2 =>
        obtain ⟨nt2, ts2⟩ := pr2
        have hl2 := nodeType_ok_length _ _ _ hNT
        simp only
        rw [nodeChain_stable (2 * ts.length + 2) nt2 ts2 (by omega)]
    | none =>
      simp only
      by_cases hL : peekKind ts1 = TokenKind.sym '['
      · rw [if_pos hL, if_pos hL]
        rw [nodeList_stable (2 * ts.length + 2) ts1 (by omega)]
      · rw [if_neg hL, if_neg hL]

theorem nodeListD_eq (ts : List Token) :
    nodeListD ts =
      if peekKind (accept_ws TokenKind.whitespace ts).2 = TokenKind.sym '[' then
        match nodeD ((accept_ws TokenKind.whitespace ts).2) with
        | .fuel => .fuel
        | .err k => .err k
        | .ok t ts2 =>
          match nodeListD ts2 with
          | .fuel => .fuel
          | .err k => .err k
          | .ok cs ts3 => .ok (t :: cs) ts3
      else
        .ok [] ((accept_ws TokenKind.whitespace ts).2) := by
  show nodeList (2 * ts.length + 2 + 1) ts = _
  rw [nodeList_succ]
  have hlv : ((accept_ws TokenKind.whitespace ts).2).length ≤ ts.length :=
    accept_ws_snd_le _ _
  by_cases hL :
      peekKind (accept_ws TokenKind.whitespace ts).2 = TokenKind.sym '['
  · rw [if_pos hL, if_pos hL]
    rw [node_stable (2 * ts.length + 2) _ (by omega)]
    cases hN : nodeD ((accept_ws TokenKind.whitespace ts).2) with
    | fuel => rfl
    | err k => rfl
    | ok t1 ts2 =>
      have hl2 : ts2.length + 2 ≤
          ((accept_ws TokenKind.whitespace ts).2).length := by
        have := node_ok_length (2 * ((accept_ws TokenKind.whitespace ts).2).length + 2)
          ((accept_ws TokenKind.whitespace ts).2) t1 ts2 hN
        exact this
      simp only
      rw [nodeList_stable (2 * ts.length + 2) ts2 (by omega)]
  · rw [if_neg hL, if_neg hL]

theorem parse_eq (s : String) :
    parse s =
      match nodeD (tokenize s.data) with
      | .fuel => .error TokenKind.eof
      | .err k => .error k
      | .ok t ts1 =>
        match expect TokenKind.eof (accept_ws TokenKind.whitespace ts1).2 with
        | .error k => .error k
        | .ok _ => .ok t := by
  unfold parse parseToks
  rw [node_stable (2 * (tokenize s.data).length + 2) _ (by omega)]
  cases hN : nodeD (tokenize s.data) with
  | fuel => rfl
  | err k => rfl
  | ok t ts1 =>
    cases hE : expect TokenKind.eof (accept_ws TokenKind.whitespace ts1).2 with
    | error k => simp only [hE]
    | ok pr => obtain ⟨a, b⟩ := pr; simp only [hE]

theorem nodeD_frame (p q q' : List Token) (t : Tree)
    (h : nodeD (p ++ q) = .ok t q) : nodeD (p ++ q') = .ok t q' := by
  have hb1 : 2 * (p ++ q).length <
      2 * (p.length + q.length + q'.length) + 3 := by
    simp [List.length_append]; omega
  have hb2 : 2 * (p ++ q').length <
      2 * (p.length + q.length + q'.length) + 3 := by
    simp [List.length_append]; omega
  have h1 : node (2 * (p.length + q.length + q'.length) + 3) (p ++ q) =
      .ok t q := by
    rw [node_stable _ _ hb1]; exact h
  have h2 := (parseFrame (2 * (p.length + q.length + q'.length) + 3)).1
    p q q' t h1
  rw [node_stable _ _ hb2] at h2
  exact h2

theorem nodeChainD_frame (nt : NodeType) (p : List Token) (x : Token)
    (r r' : List Token) (t : Tree)
    (h : nodeChainD nt (p ++ x :: r) = .ok t (x :: r)) :
    nodeChainD nt (p ++ x :: r') = .ok t (x :: r') := by
  have hb1 : 2 * (p ++ x :: r).length + 2 <
      2 * (p.length + r.length + r'.length) + 6 := by
    simp [List.length_append]; omega
  have hb2 : 2 * (p ++ x :: r').length + 2 <
      2 * (p.length + r.length + r'.length) + 6 := by
    simp [List.length_append]; omega
  have h1 : nodeChain (2 * (p.length + r.length + r'.length) + 6) nt
      (p ++ x :: r) = .ok t (x :: r) := by
    rw [nodeChain_stable _ _ _ hb1]; exact h
  have h2 := (parseFrame (2 * (p.length + r.length + r'.length) + 6)).2.1
    nt p x r r' t h1
  rw [nodeChain_stable _ _ _ hb2] at h2
  exact h2

theorem nodeListD_frame (p : List Token) (x : Token) (r r' : List Token)
    (cs : List Tree) (h : nodeListD (p ++ x :: r) = .ok cs (x :: r)) :
    nodeListD (p ++ x :: r') = .ok cs (x :: r') := by
  have hb1 : 2 * (p ++ x :: r).length + 1 <
      2 * (p.length + r.length + r'.length) + 6 := by
    simp [List.length_append]; omega
  have hb2 : 2 * (p ++ x :: r').length + 1 <
      2 * (p.length + r.length + r'.length) + 6 := by
    simp [List.length_append]; omega
  have h1 : nodeList (2 * (p.length + r.length + r'.length) + 6)
      (p ++ x :: r) = .ok cs (x :: r) := by
    rw [nodeList_stable _ _ hb1]; exact h
  have h2 := (parseFrame (2 * (p.length + r.length + r'.length) + 6)).2.2
    p x r r' cs h1
  rw [nodeList_stable _ _ hb2] at h2
  exact h2

/-! ## The leaf/children exclusivity invariant -/

theorem parseInv : ∀ f : Nat,
    (∀ ts t r, node f ts = .ok t r → leafExcl t = true) ∧
    (∀ nt ts t r, nodeChain f nt ts = .ok t r → leafExcl t = true) ∧
    (∀ ts cs r, nodeList f ts = .ok cs r → leafExclList cs = true) := by
  intro f
  induction f with
  | zero =>
    refine ⟨?_, ?_, ?_⟩ <;> intros _ _ _ h <;>
      first
        | exact PRes.noConfusion h
        | (intro h2; exact PRes.noConfusion h2)
  | succ f ih =>
    obtain ⟨ihN, ihC, ihL⟩ := ih
    refine ⟨?_, ?_, ?_⟩
    · intro ts t r h
      simp only [node] at h
      cases hE : expect (TokenKind.sym '[') ts with
      | error k => simp only [hE] at h; exact PRes.noConfusion h
      | ok p =>
        obtain ⟨tk1, ts1⟩ := p
        simp only [hE] at h
        by_cases hW :
            peekKind (accept_ws TokenKind.whitespace ts1).2 = TokenKind.word
        · rw [if_pos hW] at h
          cases hNT : nodeType ((accept_ws TokenKind.whitespace ts1).2) with
          | error k => simp only [hNT] at h; exact PRes.noConfusion h
          | ok p2 =>
            obtain ⟨nt, ts3⟩ := p2
            simp only [hNT] at h
            cases hC : nodeChain f nt ts3 with
            | fuel => simp only [hC] at h; exact PRes.noConfusion h
            | err k => simp only [hC] at h; exact PRes.noConfusion h
            | ok t4 ts4 =>
              simp only [hC] at h
              cases hE2 : expect (TokenKind.sym ']') ts4 with
              | error k => simp only [hE2] at h; exact PRes.noConfusion h
              | ok p3 =>
                obtain ⟨tk2, ts5⟩ := p3
                simp only [hE2] at h
                injection h with h1 h2
                exact h1 ▸ ihC nt ts3 t4 ts4 hC
        · rw [if_neg hW] at h
          cases hE2 : expect (TokenKind.sym ']')
              ((accept_ws TokenKind.whitespace ts1).2) with
          | error k => simp only [hE2] at h; exact PRes.noConfusion h
          | ok p3 =>
            obtain ⟨tk2, ts5⟩ := p3
            simp only [hE2] at h
            injection h with h1 h2
            rw [← h1]
            rfl
    · intro nt ts t r h
      simp only [nodeChain] at h
      cases hA : accept (TokenKind.sym '.') ts with
      | mk o1 ts1 =>
        match o1 with
        | some u =>
          simp only [hA] at h
          cases hNT : nodeType ts1 with
          | error k => simp only [hNT] at h; exact PRes.noConfusion h
          | ok p2 =>
            obtain ⟨nt2, ts2⟩ := p2
            simp only [hNT] at h
            cases hC : nodeChain f nt2 ts2 with
            | fuel => simp only [hC] at h; exact PRes.noConfusion h
            | err k => simp only [hC] at h; exact PRes.noConfusion h
            | ok child ts3 =>
              simp only [hC] at h
              injection h with h1 h2
              rw [← h1]
              have hc := ihC nt2 ts2 child ts3 hC
              simp [leafExcl, leafExclList, hc]
        | none =>
          simp only [hA] at h
          by_cases hL : peekKind ts1 = TokenKind.sym '['
          · rw [if_pos hL] at h
            cases hNL : nodeList f ts1 with
            | fuel => simp only [hNL] at h; exact PRes.noConfusion h
            | err k => simp only [hNL] at h; exact PRes.noConfusion h
            | ok cs2 ts2 =>
              simp only [hNL] at h
              injection h with h1 h2
              rw [← h1]
              have hc := ihL ts1 cs2 ts2 hNL
              simp [leafExcl, hc]
          · rw [if_neg hL] at h
            by_cases hD : dataStart (peekKind ts1) = true
            · rw [if_pos hD] at h
              cases hND : nodeData ts1 with
              | error k => simp only [hND] at h; exact PRes.noConfusion h
              | ok p2 =>
                obtain ⟨lf, ts2⟩ := p2
                simp only [hND] at h
                injection h with h1 h2
                rw [← h1]
                rfl
            · rw [if_neg hD] at h
              injection h with h1 h2
              rw [← h1]
              rfl
    · intro ts cs r h
      simp only [nodeList] at h
      by_cases hL : peekKind (accept_ws TokenKind.whitespace ts).2 =
          TokenKind.sym '['
      · rw [if_pos hL] at h
        cases hN : node f ((accept_ws TokenKind.whitespace ts).2) with
        | fuel => simp only [hN] at h; exact PRes.noConfusion h
        | err k => simp only [hN] at h; exact PRes.noConfusion h
        | ok t1 ts2 =>
          simp only [hN] at h
          cases hNL : nodeList f ts2 with
          | fuel => simp only [hNL] at h; exact PRes.noConfusion h
          | err k => simp only [hNL] at h; exact PRes.noConfusion h
          | ok cs2 ts3 =>
            simp only [hNL] at h
            injection h with h1 h2
            rw [← h1]
            have hn := ihN _ t1 ts2 hN
            have hl := ihL ts2 cs2 ts3 hNL
            simp [leafExclList, hn, hl]
      · rw [if_neg hL] at h
        injection h with h1 h2
        rw [← h1]
        rfl

theorem node_ok_leafExcl (f : Nat) (ts : List Token) (t : Tree)
    (r : List Token) (h : node f ts = .ok t r) : leafExcl t = true :=
  (parseInv f).1 ts t r h

/-- A successful `parse` comes from a successful root `node` whose remaining
stream passes the trailing whitespace skip and the `EOF` check. -/
theorem parse_ok_inv (s : String) (t : Tree) (h : parse s = .ok t) :
    ∃ r, nodeD (tokenize s.data) = .ok t r ∧
      ∃ tk rest, expect TokenKind.eof
        (accept_ws TokenKind.whitespace r).2 = .ok (tk, rest) := by
  rw [parse_eq] at h
  cases hN : nodeD (tokenize s.data) with
  | fuel => simp only [hN] at h; exact Except.noConfusion h
  | err k => simp only [hN] at h; exact Except.noConfusion h
  | ok t1 r =>
    simp only [hN] at h
    cases hE : expect TokenKind.eof (accept_ws TokenKind.whitespace r).2 with
    | error k => simp only [hE] at h; exact Except.noConfusion h
    | ok pr =>
      obtain ⟨tk, rest⟩ := pr
      simp only [hE] at h
      injection h with h1
      subst h1
      exact ⟨r, rfl, tk, rest, hE⟩

/-- **C7**: in every tree returned by a successful `parse`, no node carries
both a leaf and a non-empty children sequence (`leafExcl` holds of the whole
result: every node with a present leaf has empty children). -/
theorem c7_leaf_children_exclusive (s : String) (t : Tree)
    (h : parse s = .ok t) : leafExcl t = true := by
  obtain ⟨r, hN, -⟩ := parse_ok_inv s t h
  exact node_ok_leafExcl _ _ t r hN

theorem c7_leaf_children_exclusive_witness :
    leafExcl (Tree.mk (some ⟨"X", "", ""⟩) [] (some ⟨"d", false⟩) none) =
      true :=
  c7_leaf_children_exclusive "[X d]" _ (by rfl)

/-! ## Tokenizer claims -/

/-- **C3**: for every input, concatenating the literal text covered by the
emitted tokens (the symbol character for a symbol token, the carried value
for `WHITESPACE` and `WORD`, nothing for `EOF`) reproduces the input
exactly, and the token sequence ends with a single final `EOF` token. -/
theorem c3_token_coverage (cs : List Char) :
    ((tokenize cs).map covered).flatten = cs ∧
    ∃ ts, tokenize cs = ts ++ [Token.eof] ∧ ∀ t ∈ ts, t ≠ Token.eof := by
  refine ⟨tokenize_covered cs, ?_⟩
  obtain ⟨ts, h1, h2⟩ := tokenize_wf cs
  exact ⟨ts, h1, fun t ht => (h2 t ht).1⟩

/-- **C8**: tokenization is total and never fails: any fuel beyond the input
length yields the same token sequence (the loop terminates after at most one
step per character), and the result is a well-formed token sequence ending
in `EOF`. -/
theorem c8_tokenize_total (cs : List Char) (f : Nat) (hf : cs.length < f) :
    tokenizeF f cs = tokenize cs ∧
    ∃ ts, tokenize cs = ts ++ [Token.eof] ∧
      ∀ t ∈ ts, t ≠ Token.eof ∧ wfTok t = true :=
  ⟨tokenizeF_stable f cs hf, tokenize_wf cs⟩

theorem c8_tokenize_total_witness :
    tokenizeF 9 "a b".data = tokenize "a b".data ∧
    ∃ ts, tokenize "a b".data = ts ++ [Token.eof] ∧
      ∀ t ∈ ts, t ≠ Token.eof ∧ wfTok t = true :=
  c8_tokenize_total "a b".data 9 (by decide)

/-! ## Rejection claims -/

/-- **C4**: each of the eight listed inputs fails to parse; the failure is a
syntax error value carrying the kind of the unexpected (found) token, and —
the result being `Except.error` — no partial tree reaches the caller. -/
theorem c4_rejections :
    parse "[" = .error TokenKind.eof ∧
    parse "[[]" = .error (TokenKind.sym '[') ∧
    parse "[]]" = .error (TokenKind.sym ']') ∧
    parse "X[]" = .error TokenKind.word ∧
    parse "[X.]" = .error (TokenKind.sym ']') ∧
    parse "[X X []]" = .error (TokenKind.sym '[') ∧
    parse "[X [] X]" = .error TokenKind.word ∧
    parse "[/ data]" = .error (TokenKind.sym '/') :=
  ⟨rfl, rfl, rfl, rfl, rfl, rfl, rfl, rfl⟩

/-! ## Leaf content claims -/

/-- **C6**: a `/` in `NodeData` position yields the fixed null-content leaf
`"∅"` with `isCollapsed = false`, for any continuation of the stream; and a
leading `*` marks the leaf collapsed, as on the two quoted inputs. -/
theorem c6_null_and_collapsed :
    (∀ ts : List Token,
      nodeData (Token.sym '/' :: ts) =
        .ok ({ data := "∅", isCollapsed := false }, ts)) ∧
    parse "[X /]" = .ok (Tree.mk (some ⟨"X", "", ""⟩) []
      (some ⟨"∅", false⟩) none) ∧
    parse "[X* data]" = .ok (Tree.mk (some ⟨"X", "", ""⟩) []
      (some ⟨"data", true⟩) none) :=
  ⟨fun _ => rfl, rfl, rfl⟩

/-! ## Verbatim capture -/

theorem capture_cons_stop (t : Token) (rest : List Token) (acc : String)
    (h : stopKind t.kind = true) :
    capture (t :: rest) acc = (acc, t :: rest) := by
  unfold capture
  rw [if_pos h]

theorem capture_cons_go (t : Token) (rest : List Token) (acc : String)
    (h : stopKind t.kind = false) :
    capture (t :: rest) acc = capture rest (acc ++ captureText t) := by
  show (if stopKind t.kind = true then (acc, t :: rest)
      else capture rest (acc ++ captureText t)) =
    capture rest (acc ++ captureText t)
  rw [if_neg (by simp [h])]

/-- For a well-formed non-stop token, the text appended by the capture loop
is exactly the input text the token covers. -/
theorem captureText_covered (t : Token) (hwf : wfTok t = true)
    (hstop : stopKind t.kind = false) :
    captureText t = String.mk (covered t) := by
  cases t with
  | sym c => rfl
  | word s =>
    have hne : ¬ s = "" := by
      simp only [wfTok, Bool.and_eq_true, Bool.not_eq_true',
        List.isEmpty_eq_false] at hwf
      intro hs
      rw [hs] at hwf
      exact hwf.1 rfl
    unfold captureText Token.valueStr
    rw [if_neg hne]
    rfl
  | whitespace s =>
    have hne : ¬ s = "" := by
      simp only [wfTok, Bool.and_eq_true, Bool.not_eq_true',
        List.isEmpty_eq_false] at hwf
      intro hs
      rw [hs] at hwf
      exact hwf.1 rfl
    unfold captureText Token.valueStr
    rw [if_neg hne]
    rfl
  | eof => simp [stopKind, Token.kind] at hstop

/-- Over well-formed tokens, the data accumulated by the capture loop is the
concatenated covered text of the tokens before the first stop token. -/
theorem captureData_covered : ∀ ts : List Token,
    (∀ t ∈ ts, wfTok t = true) →
    captureData ts =
      String.mk
        (((ts.takeWhile fun t => !stopKind t.kind).map covered).flatten) := by
  intro ts
  induction ts with
  | nil => intro _; rfl
  | cons t rest ih =>
    intro hwf
    by_cases hs : stopKind t.kind = true
    · unfold captureData
      rw [if_pos hs, List.takeWhile_cons_of_neg (by simp [hs])]
      rfl
    · have hs' : stopKind t.kind = false := by
        revert hs; cases stopKind t.kind <;> simp
      unfold captureData
      rw [if_neg hs, List.takeWhile_cons_of_pos (by simp [hs'])]
      rw [ih (fun u hu => hwf u (List.mem_cons_of_mem _ hu))]
      rw [captureText_covered t (hwf t (List.mem_cons_self _ _)) hs']
      rfl

/-- **C2** (corrected): once capture starts, every token's covered input text
is appended verbatim until the next token is `[`, `]` or `EOF`; but the
captured data starts at the first data token, after the whitespace between
the node type and the data has been skipped, so on the quoted input the leaf
data is the substring starting at `this_data`, without the leading space. -/
theorem c2_verbatim_capture :
    (∀ (ts : List Token) (acc : String), (∀ t ∈ ts, wfTok t = true) →
      capture ts acc =
        (acc ++ String.mk
            (((ts.takeWhile fun t => !stopKind t.kind).map covered).flatten),
         ts.dropWhile fun t => !stopKind t.kind)) ∧
    parse "[X this_data ^ has./punct* ]" =
      .ok (Tree.mk (some ⟨"X", "", ""⟩) []
        (some ⟨"this_data ^ has./punct* ", false⟩) none) := by
  constructor
  · intro ts acc hwf
    rw [capture_eq, captureData_covered ts hwf]
  · rfl

theorem c2_verbatim_capture_witness :
    capture [Token.word "a", Token.sym '^', Token.sym ']'] "x" =
      ("x" ++ String.mk
          ((([Token.word "a", Token.sym '^',
              Token.sym ']'].takeWhile fun t => !stopKind t.kind).map
            covered).flatten),
       [Token.word "a", Token.sym '^',
          Token.sym ']'].dropWhile fun t => !stopKind t.kind) :=
  c2_verbatim_capture.1 [Token.word "a", Token.sym '^', Token.sym ']'] "x"
    (by decide)

/-- **C2** counterexample: on the spec's own example the captured leaf data
is `"this_data ^ has./punct* "`, not the full input substring between the
node type and the closing bracket, which begins with the whitespace
separating `X` from `this_data`. -/
theorem c2_counterexample :
    "[X this_data ^ has./punct* ]" =
      "[X" ++ " this_data ^ has./punct* " ++ "]" ∧
    parse "[X this_data ^ has./punct* ]" =
      .ok (Tree.mk (some ⟨"X", "", ""⟩) []
        (some ⟨"this_data ^ has./punct* ", false⟩) none) ∧
    "this_data ^ has./punct* " ≠ " this_data ^ has./punct* " :=
  ⟨rfl, rfl, by decide⟩

/-! ## Node type claims -/

theorem accept_cons_skip_neg (k : TokenKind) (t : Token) (ts : List Token)
    (hws : ¬ t.kind = TokenKind.whitespace) (hk : ¬ t.kind = k) :
    accept k (t :: ts) = (none, t :: ts) := by
  unfold accept
  rw [accept_ws_cons_neg _ _ _ hws]
  exact accept_ws_cons_neg _ _ _ hk

/-- A bare `WORD` whose continuation cannot be mistaken for a script gives a
node type with both scripts defaulted to the empty string. -/
theorem nodeType_plain (n : String) (ts : List Token)
    (hs : scriptSafe ts = true) :
    nodeType (Token.word n :: ts) = .ok (plainType n, ts) := by
  cases ts with
  | nil => rfl
  | cons t ts2 =>
    simp only [scriptSafe, Bool.not_eq_eq_eq_not, Bool.not_true,
      Bool.or_eq_false_iff, decide_eq_false_iff_not] at hs
    obtain ⟨⟨hws, hsub⟩, hsup⟩ := hs
    have hE : expect TokenKind.word (Token.word n :: t :: ts2) =
        .ok (Token.word n, t :: ts2) := rfl
    have hA1 : accept (TokenKind.sym '_') (t :: ts2) = (none, t :: ts2) :=
      accept_cons_skip_neg _ _ _ hws hsub
    have hA2 : accept (TokenKind.sym '^') (t :: ts2) = (none, t :: ts2) :=
      accept_cons_skip_neg _ _ _ hws hsup
    simp only [nodeType, hE, hA1, hA2]
    rfl

theorem nodeType_sub_sup (n a b : String) (ts : List Token) :
    nodeType (Token.word n :: Token.sym '_' :: Token.word a ::
      Token.sym '^' :: Token.word b :: ts) = .ok (⟨n, a, b⟩, ts) := rfl

theorem nodeType_sup_sub (n a b : String) (ts : List Token) :
    nodeType (Token.word n :: Token.sym '^' :: Token.word b ::
      Token.sym '_' :: Token.word a :: ts) = .ok (⟨n, a, b⟩, ts) := rfl

/-- **C5**: subscript and superscript may be given in either order with the
same resulting node type, and each script defaults to the empty string when
absent; in particular the two quoted inputs parse to the same tree with
`nodeType = {name := "X", sub := "1", sup := "2"}`. -/
theorem c5_script_order :
    (∀ (n a b : String) (ts : List Token),
      nodeType (Token.word n :: Token.sym '_' :: Token.word a ::
          Token.sym '^' :: Token.word b :: ts) = .ok (⟨n, a, b⟩, ts) ∧
      nodeType (Token.word n :: Token.sym '^' :: Token.word b ::
          Token.sym '_' :: Token.word a :: ts) = .ok (⟨n, a, b⟩, ts)) ∧
    (∀ (n : String) (ts : List Token), scriptSafe ts = true →
      nodeType (Token.word n :: ts) = .ok (⟨n, "", ""⟩, ts)) ∧
    parse "[X_1^2]" = .ok (Tree.mk (some ⟨"X", "1", "2"⟩) [] none none) ∧
    parse "[X^2_1]" = .ok (Tree.mk (some ⟨"X", "1", "2"⟩) [] none none) :=
  ⟨fun n a b ts => ⟨nodeType_sub_sup n a b ts, nodeType_sup_sub n a b ts⟩,
   fun n ts hs => nodeType_plain n ts hs, rfl, rfl⟩

theorem c5_script_order_witness :
    nodeType [Token.word "N"] = .ok (⟨"N", "", ""⟩, []) :=
  c5_script_order.2.1 "N" [] (by decide)

/-! ## Data boundary claim -/

/-- **C10**: whitespace between the node type (or the `*` marker) and the
first data word is skipped and never enters the leaf data (`nodeData`
ignores a leading whitespace token), whereas whitespace between the last
data token and the closing `]` is captured verbatim; on the quoted input the
leaf data is `"data  "`, with no leading and two trailing spaces. -/
theorem c10_data_boundary :
    (∀ (w : String) (ts : List Token),
      peekKind ts ≠ TokenKind.whitespace →
      nodeData (Token.whitespace w :: ts) = nodeData ts) ∧
    (∀ (acc w : String) (r : List Token), ¬ w = "" →
      capture (Token.whitespace w :: Token.sym ']' :: r) acc =
        (acc ++ w, Token.sym ']' :: r)) ∧
    parse "[X  data  ]" =
      .ok (Tree.mk (some ⟨"X", "", ""⟩) [] (some ⟨"data  ", false⟩) none) := by
  refine ⟨?_, ?_, rfl⟩
  · intro w ts hpk
    have hacc : ∀ k, accept k (Token.whitespace w :: ts) = accept k ts := by
      intro k
      show accept_ws k
          (accept_ws TokenKind.whitespace (Token.whitespace w :: ts)).2 =
        accept_ws k (accept_ws TokenKind.whitespace ts).2
      rw [accept_ws_cons_pos TokenKind.whitespace (Token.whitespace w) ts rfl]
      cases ts with
      | nil => rfl
      | cons t r =>
        rw [accept_ws_cons_neg TokenKind.whitespace t r
          (fun hh => hpk hh)]
    unfold nodeData
    rw [hacc (TokenKind.sym '/')]
  · intro acc w r hw
    have h1 : captureText (Token.whitespace w) = w := by
      unfold captureText Token.valueStr
      rw [if_neg hw]
    rw [capture_cons_go (Token.whitespace w) (Token.sym ']' :: r) acc rfl,
      h1, capture_cons_stop (Token.sym ']') r (acc ++ w) rfl]

theorem c10_data_boundary_witness :
    nodeData (Token.whitespace " " :: [Token.word "d"]) =
      nodeData [Token.word "d"] ∧
    capture (Token.whitespace " " :: Token.sym ']' :: []) "x" =
      ("x" ++ " ", Token.sym ']' :: []) :=
  ⟨c10_data_boundary.1 " " [Token.word "d"] (by decide),
   c10_data_boundary.2.1 "x" " " [] (by decide)⟩

/-! ## Chain desugaring -/

theorem tyTokens_cons (L : TypeLit) :
    ∃ n rest2, tyTokens L = Token.word n :: rest2 := by
  cases L <;> exact ⟨_, _, rfl⟩

/-- A type literal's tokens parse as exactly that node type whenever the
continuation cannot be mistaken for a further script. -/
theorem nodeType_lit (L : TypeLit) (ts : List Token)
    (hs : scriptSafe ts = true) :
    nodeType (tyTokens L ++ ts) = .ok (tyType L, ts) := by
  cases L with
  | plain n =>
    simp only [tyTokens, List.cons_append, List.nil_append]
    exact nodeType_plain n ts hs
  | subsup n a b =>
    simp only [tyTokens, List.cons_append, List.nil_append]
    exact nodeType_sub_sup n a b ts
  | supsub n a b =>
    simp only [tyTokens, List.cons_append, List.nil_append]
    exact nodeType_sup_sub n a b ts
  | sub n a =>
    simp only [tyTokens, List.cons_append, List.nil_append]
    cases ts with
    | nil => rfl
    | cons t ts2 =>
      simp only [scriptSafe, Bool.not_eq_eq_eq_not, Bool.not_true,
        Bool.or_eq_false_iff, decide_eq_false_iff_not] at hs
      obtain ⟨⟨hws, hsub⟩, hsup⟩ := hs
      have hE : expect TokenKind.word (Token.word n :: Token.sym '_' ::
          Token.word a :: t :: ts2) =
        .ok (Token.word n, Token.sym '_' :: Token.word a :: t :: ts2) := rfl
      have hA1 : accept (TokenKind.sym '_')
          (Token.sym '_' :: Token.word a :: t :: ts2) =
        (some (Token.sym '_'), Token.word a :: t :: ts2) := rfl
      have hE2 : expect TokenKind.word (Token.word a :: t :: ts2) =
        .ok (Token.word a, t :: ts2) := rfl
      have hA2 : accept (TokenKind.sym '^') (t :: ts2) = (none, t :: ts2) :=
        accept_cons_skip_neg _ _ _ hws hsup
      simp only [nodeType, hE, hA1, hE2, hA2]
      rfl
  | sup n b =>
    simp only [tyTokens, List.cons_append, List.nil_append]
    cases ts with
    | nil => rfl
    | cons t ts2 =>
      simp only [scriptSafe, Bool.not_eq_eq_eq_not, Bool.not_true,
        Bool.or_eq_false_iff, decide_eq_false_iff_not] at hs
      obtain ⟨⟨hws, hsub⟩, hsup⟩ := hs
      have hE : expect TokenKind.word (Token.word n :: Token.sym '^' ::
          Token.word b :: t :: ts2) =
        .ok (Token.word n, Token.sym '^' :: Token.word b :: t :: ts2) := rfl
      have hA1 : accept (TokenKind.sym '_')
          (Token.sym '^' :: Token.word b :: t :: ts2) =
        (none, Token.sym '^' :: Token.word b :: t :: ts2) := rfl
      have hA2 : accept (TokenKind.sym '^')
          (Token.sym '^' :: Token.word b :: t :: ts2) =
        (some (Token.sym '^'), Token.word b :: t :: ts2) := rfl
      have hE2 : expect TokenKind.word (Token.word b :: t :: ts2) =
        .ok (Token.word b, t :: ts2) := rfl
      have hA3 : accept (TokenKind.sym '_') (t :: ts2) = (none, t :: ts2) :=
        accept_cons_skip_neg _ _ _ hws hsub
      simp only [nodeType, hE, hA1, hA2, hE2, hA3]
      rfl

theorem nodeListD_stop (ts : List Token)
    (h1 : peekKind ts ≠ TokenKind.whitespace)
    (h2 : peekKind ts ≠ TokenKind.sym '[') :
    nodeListD ts = .ok [] ts := by
  have hws : (accept_ws TokenKind.whitespace ts).2 = ts := by
    cases ts with
    | nil => rfl
    | cons t r => rw [accept_ws_cons_neg TokenKind.whitespace t r
        (fun hh => h1 hh)]
  rw [nodeListD_eq]
  simp only [hws]
  rw [if_neg h2]

theorem nodeListD_one (ts r : List Token) (t : Tree)
    (hhead : peekKind ts = TokenKind.sym '[')
    (hn : nodeD ts = .ok t (Token.sym ']' :: r)) :
    nodeListD ts = .ok [t] (Token.sym ']' :: r) := by
  have hws : (accept_ws TokenKind.whitespace ts).2 = ts := by
    cases ts with
    | nil => rfl
    | cons t0 r0 =>
      rw [accept_ws_cons_neg TokenKind.whitespace t0 r0
        (fun hh => by rw [peekKind_cons, hh] at hhead
                      exact TokenKind.noConfusion hhead)]
  rw [nodeListD_eq]
  simp only [hws]
  rw [if_pos hhead]
  simp only [hn]
  simp only [nodeListD_stop (Token.sym ']' :: r)
    (by simp [peekKind, Token.kind]) (by simp [peekKind, Token.kind])]

/-- A chain head whose continuation is a single bracketed node followed by
the closing bracket of the enclosing node: the chain attaches that node as
the single `NodeList` child. -/
theorem nodeChainD_listG (nt : NodeType) (inner after : List Token)
    (t : Tree) (hhead : ∃ rest2, inner = Token.sym '[' :: rest2)
    (hn : nodeD (inner ++ Token.sym ']' :: after) =
      .ok t (Token.sym ']' :: after)) :
    nodeChainD nt (inner ++ Token.sym ']' :: after) =
      .ok (Tree.mk (some nt) [t] none none)
        (Token.sym ']' :: after) := by
  obtain ⟨rest2, rfl⟩ := hhead
  simp only [List.cons_append] at hn ⊢
  rw [nodeChainD_eq]
  simp only [accept_cons_skip_neg (TokenKind.sym '.') (Token.sym '[')
    (rest2 ++ Token.sym ']' :: after) (by decide) (by decide)]
  rw [if_pos (show peekKind
    (Token.sym '[' :: (rest2 ++ Token.sym ']' :: after)) =
    TokenKind.sym '[' from rfl)]
  simp only [nodeListD_one
    (Token.sym '[' :: (rest2 ++ Token.sym ']' :: after)) after t rfl hn]

/-- `node` on a stream opening with `[`, a type literal and a script-safe
continuation: the bracket and the type are consumed, the chain runs on the
continuation, and the closing `]` check is taken from the chain's rest. -/
theorem nodeD_shapeG (L : TypeLit) (rest after : List Token) (t : Tree)
    (R : List Token) (tk2 : Token)
    (hss : scriptSafe rest = true)
    (hch : nodeChainD (tyType L) rest = .ok t R)
    (hex : expect (TokenKind.sym ']') R = .ok (tk2, after)) :
    nodeD (Token.sym '[' :: (tyTokens L ++ rest)) = .ok t after := by
  obtain ⟨n, rest2, hty⟩ := tyTokens_cons L
  rw [nodeD_eq, hty]
  simp only [List.cons_append]
  simp only [show expect (TokenKind.sym '[') (Token.sym '[' :: Token.word n ::
      (rest2 ++ rest)) =
    Except.ok ((Token.sym '[' : Token), Token.word n :: (rest2 ++ rest))
    from rfl]
  simp only [show (accept_ws TokenKind.whitespace
      (Token.word n :: (rest2 ++ rest))).2 =
    Token.word n :: (rest2 ++ rest) from rfl]
  rw [if_pos (show peekKind (Token.word n :: (rest2 ++ rest)) =
    TokenKind.word from rfl)]
  have hback : Token.word n :: (rest2 ++ rest) = tyTokens L ++ rest := by
    rw [hty, List.cons_append]
  rw [hback]
  simp only [nodeType_lit L rest hss]
  simp only [hch]
  simp only [hex]

/-- Inversion of a bracketed body that parses to `c` consuming everything:
the pieces the chain loop produces on the way. -/
theorem nodeD_inner_inv (body : List Token) (c : Tree)
    (hw : peekKind body = TokenKind.word)
    (hbase : nodeD (Token.sym '[' :: (body ++ [Token.sym ']'])) = .ok c []) :
    ∃ ntk Z ts4 tk2,
      nodeType (body ++ [Token.sym ']']) = .ok (ntk, Z) ∧
      nodeChainD ntk Z = .ok c ts4 ∧
      expect (TokenKind.sym ']') ts4 = .ok (tk2, []) := by
  obtain ⟨b0, body', hb⟩ : ∃ b0 body', body = b0 :: body' := by
    cases body with
    | nil => simp [peekKind] at hw
    | cons b0 body' => exact ⟨b0, body', rfl⟩
  subst hb
  simp only [List.cons_append] at hbase ⊢
  have hb0 : b0.kind = TokenKind.word := by
    rw [← peekKind_cons b0 body']
    exact hw
  have hnws : ¬ b0.kind = TokenKind.whitespace := by
    rw [hb0]
    intro hh
    exact TokenKind.noConfusion hh
  rw [nodeD_eq] at hbase
  simp only [show expect (TokenKind.sym '[')
      (Token.sym '[' :: b0 :: (body' ++ [Token.sym ']'])) =
    Except.ok ((Token.sym '[' : Token), b0 :: (body' ++ [Token.sym ']']))
    from rfl] at hbase
  have hAW : (accept_ws TokenKind.whitespace
      (b0 :: (body' ++ [Token.sym ']']))).2 =
      b0 :: (body' ++ [Token.sym ']']) := by
    rw [accept_ws_cons_neg _ _ _ hnws]
  simp only [hAW] at hbase
  rw [if_pos (show peekKind (b0 :: (body' ++ [Token.sym ']'])) =
    TokenKind.word from by rw [peekKind_cons]; exact hb0)] at hbase
  cases hNT : nodeType (b0 :: (body' ++ [Token.sym ']'])) with
  | error k => simp only [hNT] at hbase; exact PRes.noConfusion hbase
  | ok pr =>
    obtain ⟨ntk, Z⟩ := pr
    simp only [hNT] at hbase
    cases hCH : nodeChainD ntk Z with
    | fuel => simp only [hCH] at hbase; exact PRes.noConfusion hbase
    | err k => simp only [hCH] at hbase; exact PRes.noConfusion hbase
    | ok t4 ts4 =>
      simp only [hCH] at hbase
      cases hEX : expect (TokenKind.sym ']') ts4 with
      | error k => simp only [hEX] at hbase; exact PRes.noConfusion hbase
      | ok pr2 =>
        obtain ⟨tk2, ts5⟩ := pr2
        simp only [hEX] at hbase
        injection hbase with h1 h2
        subst h1
        subst h2
        exact ⟨ntk, Z, ts4, tk2, rfl, hCH, hEX⟩

/-- The last chain step: consuming the final dot, parsing the body's type
and running the chain on it gives the body's tree, with the closing bracket
check transported to the enclosing chain's stream. -/
theorem chain_body_step (body : List Token) (c : Tree) (after : List Token)
    (nt0 ntk : NodeType) (Z ts4 : List Token) (tk2 : Token)
    (hNT : nodeType (body ++ [Token.sym ']']) = .ok (ntk, Z))
    (hCH : nodeChainD ntk Z = .ok c ts4)
    (hEX : expect (TokenKind.sym ']') ts4 = .ok (tk2, [])) :
    ∃ y4 m4, ts4 = y4 :: m4 ∧
      nodeChainD nt0 (Token.sym '.' :: (body ++ Token.sym ']' :: after)) =
        .ok (Tree.mk (some nt0) [c] none none) (y4 :: (m4 ++ after)) ∧
      expect (TokenKind.sym ']') (y4 :: (m4 ++ after)) = .ok (tk2, after) := by
  obtain ⟨y4, m4, hts4⟩ : ∃ y4 m4, ts4 = y4 :: m4 := by
    cases ts4 with
    | nil =>
      rw [show expect (TokenKind.sym ']') ([] : List Token) =
        Except.error TokenKind.eof from rfl] at hEX
      exact Except.noConfusion hEX
    | cons y4 m4 => exact ⟨y4, m4, rfl⟩
  subst hts4
  have hsZ : Z <:+ body ++ [Token.sym ']'] := nodeType_ok_suffix _ _ _ hNT
  have hs4 : y4 :: m4 <:+ Z :=
    nodeChain_ok_suffix (2 * Z.length + 3) ntk Z c (y4 :: m4) hCH
  obtain ⟨u, hu⟩ := hs4
  have hZne : Z ≠ [] := by
    intro hh
    rw [hh, List.append_eq_nil] at hu
    exact (List.cons_ne_nil y4 m4) hu.2
  obtain ⟨z0, Z', hZ⟩ := List.exists_cons_of_ne_nil hZne
  obtain ⟨pZ, hpZ⟩ := hsZ
  rw [hZ] at hpZ hu hNT hCH
  have E1 : body ++ Token.sym ']' :: after = pZ ++ z0 :: (Z' ++ after) := by
    have h9 : (body ++ [Token.sym ']']) ++ after =
        (pZ ++ (z0 :: Z')) ++ after := by rw [hpZ]
    rw [List.append_assoc, List.append_assoc] at h9
    exact h9
  have E2 : z0 :: (Z' ++ after) = u ++ y4 :: (m4 ++ after) := by
    have h10 : (u ++ (y4 :: m4)) ++ after = (z0 :: Z') ++ after := by
      rw [hu]
    rw [List.append_assoc] at h10
    exact h10.symm
  have hNT2 : nodeType (pZ ++ z0 :: Z') = .ok (ntk, z0 :: Z') := by
    rw [hpZ]
    exact hNT
  have hNT3 := nodeType_frame pZ z0 Z' (Z' ++ after) ntk hNT2
  have hCH2 : nodeChainD ntk (u ++ y4 :: m4) = .ok c (y4 :: m4) := by
    rw [hu]
    exact hCH
  have hCH3 := nodeChainD_frame ntk u y4 m4 (m4 ++ after) c hCH2
  have hEX2 : expect (TokenKind.sym ']') ((y4 :: m4) ++ []) =
      .ok (tk2, []) := by
    rw [List.append_nil]
    exact hEX
  have hEX3 := expect_frame_some (TokenKind.sym ']') (y4 :: m4) [] after
    tk2 hEX2
  refine ⟨y4, m4, rfl, ?_, hEX3⟩
  rw [nodeChainD_eq]
  simp only [show accept (TokenKind.sym '.')
      (Token.sym '.' :: (body ++ Token.sym ']' :: after)) =
    (some (Token.sym '.'), body ++ Token.sym ']' :: after) from rfl]
  rw [E1]
  simp only [hNT3]
  rw [E2]
  simp only [hCH3]

/-- Unrolling the chain loop over the spine of inner links: the body's tree
is wrapped in one single-child node per link. -/
theorem chainD_spineG : ∀ (ns : List TypeLit) (nt0 : NodeType)
    (body : List Token) (c : Tree) (after : List Token)
    (ntk : NodeType) (Z ts4 : List Token) (tk2 : Token),
    nodeType (body ++ [Token.sym ']']) = .ok (ntk, Z) →
    nodeChainD ntk Z = .ok c ts4 →
    expect (TokenKind.sym ']') ts4 = .ok (tk2, []) →
    ∃ y4 m4, ts4 = y4 :: m4 ∧
      nodeChainD nt0 (dotsG ns ++ (Token.sym '.' ::
          (body ++ Token.sym ']' :: after))) =
        .ok (wrapChain nt0 ns c) (y4 :: (m4 ++ after)) ∧
      expect (TokenKind.sym ']') (y4 :: (m4 ++ after)) = .ok (tk2, after) := by
  intro ns
  induction ns with
  | nil =>
    intro nt0 body c after ntk Z ts4 tk2 hNT hCH hEX
    obtain ⟨y4, m4, h1, h2, h3⟩ :=
      chain_body_step body c after nt0 ntk Z ts4 tk2 hNT hCH hEX
    refine ⟨y4, m4, h1, ?_, h3⟩
    simp only [dotsG, List.nil_append, wrapChain]
    exact h2
  | cons L ls ih =>
    intro nt0 body c after ntk Z ts4 tk2 hNT hCH hEX
    obtain ⟨y4, m4, h1, h2, h3⟩ :=
      ih (tyType L) body c after ntk Z ts4 tk2 hNT hCH hEX
    refine ⟨y4, m4, h1, ?_, h3⟩
    have hss : scriptSafe (dotsG ls ++ (Token.sym '.' ::
        (body ++ Token.sym ']' :: after))) = true := by
      cases ls <;> rfl
    simp only [dotsG, List.cons_append, List.append_assoc]
    rw [nodeChainD_eq]
    simp only [show accept (TokenKind.sym '.') (Token.sym '.' ::
        (tyTokens L ++ (dotsG ls ++ (Token.sym '.' ::
          (body ++ Token.sym ']' :: after))))) =
      (some (Token.sym '.'), tyTokens L ++ (dotsG ls ++ (Token.sym '.' ::
        (body ++ Token.sym ']' :: after)))) from rfl]
    simp only [nodeType_lit L _ hss]
    simp only [h2]
    simp only [wrapChain]

/-- The explicitly nested form `[A [B1 [... [<body>] ...]]]` parses to the
wrapped body tree. -/
theorem nestG : ∀ (ns : List TypeLit) (a : TypeLit) (body : List Token)
    (c : Tree) (after : List Token),
    nodeD (Token.sym '[' :: (body ++ [Token.sym ']'])) = .ok c [] →
    nodeD (nestNodeG a ns body ++ after) = .ok (chainWrapG a ns c) after := by
  intro ns
  induction ns with
  | nil =>
    intro a body c after hbase
    have h9 : nodeD ((Token.sym '[' :: (body ++ [Token.sym ']'])) ++ []) =
        .ok c [] := by
      rw [List.append_nil]
      exact hbase
    have hinner := nodeD_frame (Token.sym '[' :: (body ++ [Token.sym ']']))
      [] (Token.sym ']' :: after) c h9
    have hch := nodeChainD_listG (tyType a)
      (Token.sym '[' :: (body ++ [Token.sym ']'])) after c
      ⟨body ++ [Token.sym ']'], rfl⟩ hinner
    have hss : scriptSafe ((Token.sym '[' :: (body ++ [Token.sym ']'])) ++
        Token.sym ']' :: after) = true := rfl
    have hsh := nodeD_shapeG a
      ((Token.sym '[' :: (body ++ [Token.sym ']'])) ++ Token.sym ']' :: after)
      after (Tree.mk (some (tyType a)) [c] none none)
      (Token.sym ']' :: after) (Token.sym ']') hss hch
      (show expect (TokenKind.sym ']') (Token.sym ']' :: after) =
        .ok ((Token.sym ']' : Token), after) from rfl)
    simp only [nestNodeG, List.cons_append, List.append_assoc,
      List.singleton_append]
    simp only [List.cons_append, List.append_assoc,
      List.singleton_append] at hsh
    exact hsh
  | cons L ls ih =>
    intro a body c after hbase
    have hih := ih L body c (Token.sym ']' :: after) hbase
    have hhead : ∃ rest2, nestNodeG L ls body = Token.sym '[' :: rest2 := by
      cases ls <;> exact ⟨_, rfl⟩
    have hch := nodeChainD_listG (tyType a) (nestNodeG L ls body) after
      (chainWrapG L ls c) hhead hih
    have hss : scriptSafe (nestNodeG L ls body ++ Token.sym ']' :: after) =
        true := by
      obtain ⟨rest2, hr⟩ := hhead
      rw [hr]
      rfl
    have hsh := nodeD_shapeG a (nestNodeG L ls body ++ Token.sym ']' :: after)
      after (Tree.mk (some (tyType a)) [chainWrapG L ls c] none none)
      (Token.sym ']' :: after) (Token.sym ']') hss hch
      (show expect (TokenKind.sym ']') (Token.sym ']' :: after) =
        .ok ((Token.sym ']' : Token), after) from rfl)
    simp only [nestNodeG, List.cons_append, List.append_assoc,
      List.singleton_append]
    simp only [List.cons_append, List.append_assoc,
      List.singleton_append] at hsh
    exact hsh

/-- The shorthand chain form parses to the same wrapped body tree. -/
theorem chainG (a : TypeLit) (ns : List TypeLit) (body : List Token)
    (c : Tree) (after : List Token)
    (hw : peekKind body = TokenKind.word)
    (hbase : nodeD (Token.sym '[' :: (body ++ [Token.sym ']'])) = .ok c []) :
    nodeD (chainNodeG a ns body ++ after) = .ok (chainWrapG a ns c) after := by
  obtain ⟨ntk, Z, ts4, tk2, hNT, hCH, hEX⟩ := nodeD_inner_inv body c hw hbase
  obtain ⟨y4, m4, hts4, hchain, hexp⟩ :=
    chainD_spineG ns (tyType a) body c after ntk Z ts4 tk2 hNT hCH hEX
  have hss : scriptSafe (dotsG ns ++ (Token.sym '.' ::
      (body ++ Token.sym ']' :: after))) = true := by
    cases ns <;> rfl
  have hsh := nodeD_shapeG a
    (dotsG ns ++ (Token.sym '.' :: (body ++ Token.sym ']' :: after)))
    after (wrapChain (tyType a) ns c) (y4 :: (m4 ++ after)) tk2
    hss hchain hexp
  simp only [chainNodeG, List.cons_append, List.append_assoc,
    List.singleton_append]
  exact hsh

/-- **C1**: every dot chain parses identically to the explicitly nested
form: for any spine of type literals (scripted or not, in either script
order), and any body (the deepest link's type and content, an arbitrary
word-led token sequence) that parses as a bracketed node, the shorthand
`[A.B1...Bk.<body>]` and the nested `[A [B1 [... [<body>] ...]]]` token
forms parse to the same tree, with the body's result at the deepest link
and the outer root returned; in particular whitespace-separated content
(`[AdjP.Adj big]`), scripted links (`[X^2.X_1]`, `[NP_1.N her]`) and long
chains (`[XX.YY.ZZ* more data]`) equal their nested spellings, and
`parse "[X.Y]"` gives a root `X` with exactly one child `Y` and no leaf
anywhere. -/
theorem c1_chain_desugar :
    (∀ (a : TypeLit) (ns : List TypeLit) (body after : List Token)
        (c : Tree),
      peekKind body = TokenKind.word →
      nodeD (Token.sym '[' :: (body ++ [Token.sym ']'])) = .ok c [] →
      nodeD (chainNodeG a ns body ++ after) =
          .ok (chainWrapG a ns c) after ∧
        nodeD (nestNodeG a ns body ++ after) =
          .ok (chainWrapG a ns c) after) ∧
    parse "[AdjP.Adj big]" = parse "[AdjP [Adj big]]" ∧
    parse "[X^2.X_1]" = parse "[X^2 [X_1]]" ∧
    parse "[NP_1.N her]" = parse "[NP_1 [N her]]" ∧
    parse "[XX.YY.ZZ* more data]" = parse "[XX [YY [ZZ* more data]]]" ∧
    parse "[X.Y]" = .ok (Tree.mk (some ⟨"X", "", ""⟩)
      [Tree.mk (some ⟨"Y", "", ""⟩) [] none none] none none) ∧
    noLeaf (Tree.mk (some ⟨"X", "", ""⟩)
      [Tree.mk (some ⟨"Y", "", ""⟩) [] none none] none none) = true :=
  ⟨fun a ns body after c hw hbase =>
    ⟨chainG a ns body c after hw hbase, nestG ns a body c after hbase⟩,
   rfl, rfl, rfl, rfl, rfl, rfl⟩

theorem c1_chain_desugar_witness :
    nodeD (chainNodeG (TypeLit.sup "X" "2") []
        [Token.word "X", Token.sym '_', Token.word "1"] ++ [Token.eof]) =
      .ok (chainWrapG (TypeLit.sup "X" "2") []
        (Tree.mk (some ⟨"X", "1", ""⟩) [] none none)) [Token.eof] ∧
    nodeD (nestNodeG (TypeLit.sup "X" "2") []
        [Token.word "X", Token.sym '_', Token.word "1"] ++ [Token.eof]) =
      .ok (chainWrapG (TypeLit.sup "X" "2") []
        (Tree.mk (some ⟨"X", "1", ""⟩) [] none none)) [Token.eof] ∧
    nodeD (chainNodeG (TypeLit.plain "A") []
        [Token.word "B", Token.whitespace " ", Token.word "big"] ++
        [Token.eof]) =
      .ok (chainWrapG (TypeLit.plain "A") []
        (Tree.mk (some ⟨"B", "", ""⟩) [] (some ⟨"big", false⟩) none))
        [Token.eof] ∧
    nodeD (nestNodeG (TypeLit.plain "A") []
        [Token.word "B", Token.whitespace " ", Token.word "big"] ++
        [Token.eof]) =
      .ok (chainWrapG (TypeLit.plain "A") []
        (Tree.mk (some ⟨"B", "", ""⟩) [] (some ⟨"big", false⟩) none))
        [Token.eof] :=
  ⟨(c1_chain_desugar.1 (TypeLit.sup "X" "2") []
      [Token.word "X", Token.sym '_', Token.word "1"] [Token.eof]
      (Tree.mk (some ⟨"X", "1", ""⟩) [] none none) (by rfl) (by rfl)).1,
   (c1_chain_desugar.1 (TypeLit.sup "X" "2") []
      [Token.word "X", Token.sym '_', Token.word "1"] [Token.eof]
      (Tree.mk (some ⟨"X", "1", ""⟩) [] none none) (by rfl) (by rfl)).2,
   (c1_chain_desugar.1 (TypeLit.plain "A") []
      [Token.word "B", Token.whitespace " ", Token.word "big"] [Token.eof]
      (Tree.mk (some ⟨"B", "", ""⟩) [] (some ⟨"big", false⟩) none)
      (by rfl) (by rfl)).1,
   (c1_chain_desugar.1 (TypeLit.plain "A") []
      [Token.word "B", Token.whitespace " ", Token.word "big"] [Token.eof]
      (Tree.mk (some ⟨"B", "", ""⟩) [] (some ⟨"big", false⟩) none)
      (by rfl) (by rfl)).2⟩

/-! ## Trailing input after the root node -/

theorem takeWhile_append_last (p : α → Bool) (l : List α) (c : α)
    (hc : p c = false) : (l ++ [c]).takeWhile p = l.takeWhile p := by
  induction l with
  | nil => simp [List.takeWhile_cons, hc]
  | cons a l ih =>
    simp only [List.cons_append, List.takeWhile_cons]
    cases hp : p a <;> simp [ih]

theorem snoc_eq_snoc {α : Type} {a b : List α} {x y : α}
    (h : a ++ [x] = b ++ [y]) : a = b ∧ x = y := by
  have hl : a.length = b.length := by
    have h2 := congrArg List.length h
    simp only [List.length_append, List.length_cons, List.length_nil] at h2
    omega
  obtain ⟨h1, h2⟩ := List.append_inj h hl
  refine ⟨h1, ?_⟩
  injection h2

/-- Tokenizing an input ending in a symbol character: the last two tokens
are that symbol and `EOF`. -/
theorem tokenize_snoc_symbol : ∀ l : List Char, ∀ c : Char,
    isSymbol c = true →
    ∃ pre, tokenize (l ++ [c]) = pre ++ [Token.sym c, Token.eof] := by
  suffices H : ∀ n : Nat, ∀ l : List Char, l.length ≤ n → ∀ c : Char,
      isSymbol c = true →
      ∃ pre, tokenize (l ++ [c]) = pre ++ [Token.sym c, Token.eof] from
    fun l c hc => H l.length l le_rfl c hc
  intro n
  induction n with
  | zero =>
    intro l hl c hc
    have hnil : l = [] := List.length_eq_zero.mp (Nat.le_zero.mp hl)
    subst hnil
    refine ⟨[], ?_⟩
    rw [List.nil_append, tokenize_cons_symbol c [] hc, tokenize_nil]
    rfl
  | succ n ih =>
    intro l hl c hc
    match l with
    | [] =>
      refine ⟨[], ?_⟩
      rw [List.nil_append, tokenize_cons_symbol c [] hc, tokenize_nil]
      rfl
    | e :: l =>
      simp only [List.length_cons] at hl
      by_cases he : isSymbol e = true
      · obtain ⟨pre, hpre⟩ := ih l (by omega) c hc
        refine ⟨Token.sym e :: pre, ?_⟩
        rw [List.cons_append, tokenize_cons_symbol e (l ++ [c]) he, hpre]
        rfl
      · have hcw : isWS c = false := symbol_not_ws c hc
        by_cases hw : isWS e = true
        · obtain ⟨pre, hpre⟩ := ih (l.dropWhile isWS)
            (Nat.le_trans (List.dropWhile_suffix isWS).length_le (by omega))
            c hc
          refine ⟨Token.whitespace (String.mk (e :: l.takeWhile isWS)) ::
            pre, ?_⟩
          rw [List.cons_append, tokenize_cons_ws e (l ++ [c]) hw,
            takeWhile_append_last isWS l c hcw,
            dropWhile_append_stop isWS l c [] hcw, hpre]
          rfl
        · have he' : isSymbol e = false := by
            revert he; cases isSymbol e <;> simp
          have hw' : isWS e = false := by
            revert hw; cases isWS e <;> simp
          have hcq : (fun d => !isSymbol d && !isWS d) c = false := by
            simp [hc]
          obtain ⟨pre, hpre⟩ := ih
            (l.dropWhile (fun d => !isSymbol d && !isWS d))
            (Nat.le_trans
              (List.dropWhile_suffix (fun d => !isSymbol d && !isWS d)).length_le
              (by omega))
            c hc
          refine ⟨Token.word (String.mk (e ::
            l.takeWhile (fun d => !isSymbol d && !isWS d))) :: pre, ?_⟩
          rw [List.cons_append, tokenize_cons_word e (l ++ [c]) he' hw',
            takeWhile_append_last (fun d => !isSymbol d && !isWS d) l c hcq,
            dropWhile_append_stop (fun d => !isSymbol d && !isWS d) l c [] hcq,
            hpre]
          rfl

/-- `node` ignores one leading whitespace token when the next token is not
whitespace: the opening `expect('[')` itself skips it. -/
theorem node_ws (f : Nat) (w : String) (ts : List Token)
    (h : peekKind ts ≠ TokenKind.whitespace) :
    node f (Token.whitespace w :: ts) = node f ts := by
  cases f with
  | zero => rfl
  | succ f =>
    rw [node_succ, node_succ]
    have hE : expect (TokenKind.sym '[') (Token.whitespace w :: ts) =
        expect (TokenKind.sym '[') ts := by
      unfold expect accept
      rw [accept_ws_cons_pos TokenKind.whitespace (Token.whitespace w) ts rfl]
      cases ts with
      | nil => rfl
      | cons t r =>
        rw [accept_ws_cons_neg TokenKind.whitespace t r (fun hh => h hh)]
    rw [hE]

theorem nodeD_ws (w : String) (ts : List Token)
    (h : peekKind ts ≠ TokenKind.whitespace) :
    nodeD (Token.whitespace w :: ts) = nodeD ts := by
  show node (2 * (Token.whitespace w :: ts).length + 2)
    (Token.whitespace w :: ts) = nodeD ts
  rw [node_ws _ w ts h]
  exact node_stable _ ts (by simp only [List.length_cons]; omega)

/-- If `EOF` occurs only as the last token of a stream, a suffix starting at
an `EOF` token is the final singleton. -/
theorem eof_suffix_unique (P l : List Token) (hwf : Token.eof ∉ P)
    (hsuf : Token.eof :: l <:+ P ++ [Token.eof]) : l = [] := by
  obtain ⟨u, q, hP, hform⟩ :=
    suffix_split (Token.eof :: l) P [Token.eof] hsuf (by simp)
  cases q with
  | nil =>
    simp only [List.nil_append] at hform
    exact (List.cons_eq_cons.mp hform).2
  | cons q0 q' =>
    simp only [List.cons_append] at hform
    obtain ⟨h1, h2⟩ := List.cons_eq_cons.mp hform
    exfalso
    apply hwf
    rw [hP, ← h1]
    exact List.mem_append_right u (List.mem_cons_self _ _)

/-- In a stream of shape `pre ++ [']', EOF]`, a suffix of shape
`x :: EOF :: l` forces `x = ']'` and `l = []`. -/
theorem penult_suffix (pre : List Token) (x : Token) (l : List Token)
    (hsuf : x :: Token.eof :: l <:+ (pre ++ [Token.sym ']']) ++ [Token.eof])
    (hwf : Token.eof ∉ pre ++ [Token.sym ']']) :
    x = Token.sym ']' ∧ l = [] := by
  have hl : l = [] := eof_suffix_unique _ _ hwf
    ((List.suffix_cons x _).trans hsuf)
  subst hl
  obtain ⟨u, q, hP, hform⟩ := suffix_split [x, Token.eof]
    (pre ++ [Token.sym ']']) [Token.eof] hsuf (by simp)
  have hq : q = [x] := by
    have h2 : [x] ++ [Token.eof] = q ++ [Token.eof] := hform
    exact ((snoc_eq_snoc h2).1).symm
  subst hq
  exact ⟨((snoc_eq_snoc hP).2).symm, rfl⟩

/-- If the stream ends `... ']' EOF` and, after at most two whitespace
skips from `r`, the lookahead token has kind `EOF`, then `r` is exactly the
final `[EOF]`. -/
theorem parse_rest_eof (pre r : List Token) (tk : Token) (rest : List Token)
    (hwfP : Token.eof ∉ pre ++ [Token.sym ']'])
    (hsufr : r <:+ (pre ++ [Token.sym ']']) ++ [Token.eof])
    (h3 : (accept_ws TokenKind.whitespace
      (accept_ws TokenKind.whitespace r).2).2 = tk :: rest)
    (hkind : tk.kind = TokenKind.eof) :
    r = [Token.eof] := by
  have htk : tk = Token.eof := by
    cases tk with
    | eof => rfl
    | sym c => exact absurd hkind (by simp [Token.kind])
    | word s => exact absurd hkind (by simp [Token.kind])
    | whitespace s => exact absurd hkind (by simp [Token.kind])
  subst htk
  have hsuf2 : (accept_ws TokenKind.whitespace r).2 <:+ r :=
    accept_ws_snd_suffix _ _
  have hsuf3 : (accept_ws TokenKind.whitespace
      (accept_ws TokenKind.whitespace r).2).2 <:+
      (accept_ws TokenKind.whitespace r).2 := accept_ws_snd_suffix _ _
  have hrest : rest = [] := by
    apply eof_suffix_unique (pre ++ [Token.sym ']']) rest hwfP
    rw [← h3]
    exact (hsuf3.trans hsuf2).trans hsufr
  subst hrest
  cases hA1 : accept_ws TokenKind.whitespace r with
  | mk o1 r2 =>
    have hr2 : (accept_ws TokenKind.whitespace r).2 = r2 := by rw [hA1]
    rw [hr2] at h3
    cases hA2 : accept_ws TokenKind.whitespace r2 with
    | mk o2 r3 =>
      have hr3 : (accept_ws TokenKind.whitespace r2).2 = r3 := by rw [hA2]
      rw [hr3] at h3
      subst h3
      match o2 with
      | some w2 =>
        obtain ⟨hr2eq, hw2⟩ := accept_ws_some_inv _ _ _ _ hA2
        exfalso
        have hs : w2 :: Token.eof :: [] <:+
            (pre ++ [Token.sym ']']) ++ [Token.eof] := by
          rw [← hr2eq]
          exact (hr2 ▸ hsuf2).trans hsufr
        obtain ⟨hx, -⟩ := penult_suffix pre w2 [] hs hwfP
        rw [hx] at hw2
        exact absurd hw2 (by simp [Token.kind])
      | none =>
        have h4 := accept_ws_none_inv TokenKind.whitespace r2 _ hA2
        match o1 with
        | none =>
          have h5 := accept_ws_none_inv TokenKind.whitespace r _ hA1
          rw [← h5, ← h4]
        | some w1 =>
          obtain ⟨hreq, hw1⟩ := accept_ws_some_inv _ _ _ _ hA1
          exfalso
          have hs : w1 :: Token.eof :: [] <:+
              (pre ++ [Token.sym ']']) ++ [Token.eof] := by
            rw [← h4] at hreq
            rw [← hreq]
            exact hsufr
          obtain ⟨hx, -⟩ := penult_suffix pre w1 [] hs hwfP
          rw [hx] at hw1
          exact absurd hw1 (by simp [Token.kind])

/-- A bracket-delimited input that parses successfully: the token stream
splits as a root segment `P` (starting with `[`, ending with `]`) followed
by `EOF`, the root `node` consumes exactly `P`, and tokenizing the input
with any continuation yields `P` followed by the continuation's tokens. -/
theorem parse_root_split (s : String) (t : Tree)
    (hhead : s.data.head? = some '[') (hlast : s.data.getLast? = some ']')
    (hok : parse s = .ok t) :
    ∃ P : List Token,
      (∀ ds : List Char, tokenize (s.data ++ ds) = P ++ tokenize ds) ∧
      nodeD (P ++ [Token.eof]) = .ok t [Token.eof] ∧
      ∃ P2, P = Token.sym '[' :: P2 := by
  obtain ⟨cs, hcs⟩ : ∃ cs, s.data = '[' :: cs := by
    cases hsd : s.data with
    | nil => rw [hsd] at hhead; exact absurd hhead (by simp)
    | cons c cs =>
      rw [hsd] at hhead
      simp only [List.head?_cons, Option.some.injEq] at hhead
      exact ⟨cs, by rw [hhead]⟩
  have hne : s.data ≠ [] := by rw [hcs]; exact List.cons_ne_nil _ _
  have hinit : s.data.dropLast ++ [']'] = s.data := by
    have h2 : s.data.getLast hne = ']' := by
      have h1 := List.getLast?_eq_getLast s.data hne
      rw [h1] at hlast
      exact Option.some.inj hlast
    rw [← h2]
    exact List.dropLast_append_getLast hne
  obtain ⟨ts0, htok0, hwf0⟩ := tokenize_wf s.data
  obtain ⟨pre, hpre⟩ := tokenize_snoc_symbol s.data.dropLast ']' (by decide)
  rw [hinit] at hpre
  have hS : tokenize s.data = (pre ++ [Token.sym ']']) ++ [Token.eof] := by
    rw [hpre, List.append_assoc]
    rfl
  have hts0 : ts0 = pre ++ [Token.sym ']'] := by
    have h5 : ts0 ++ [Token.eof] = (pre ++ [Token.sym ']']) ++ [Token.eof] := by
      rw [← htok0, hS]
    exact (snoc_eq_snoc h5).1
  have hwfP : Token.eof ∉ pre ++ [Token.sym ']'] := by
    rw [← hts0]
    intro hmem
    exact (hwf0 _ hmem).1 rfl
  obtain ⟨r, hN, tk, rest, hE⟩ := parse_ok_inv s t hok
  have hsufr : r <:+ (pre ++ [Token.sym ']']) ++ [Token.eof] := by
    have h6 := node_ok_suffix _ _ t r hN
    rw [hS] at h6
    exact h6
  have hacc := expect_ok_inv _ _ _ _ hE
  obtain ⟨h3, hkind⟩ := accept_some_inv _ _ _ _ hacc
  have hreof : r = [Token.eof] :=
    parse_rest_eof pre r tk rest hwfP hsufr h3 hkind
  rw [hreof, hS] at hN
  refine ⟨pre ++ [Token.sym ']'], ?_, hN, ?_⟩
  · intro ds
    have h7 : s.data ++ ds = s.data.dropLast ++ (']' :: ds) := by
      conv_lhs => rw [← hinit]
      rw [List.append_assoc]
      rfl
    rw [h7, tokenize_append_symbol s.data.dropLast ']' ds (by decide),
      hinit, hS, List.dropLast_concat]
  · have h7 : tokenize s.data = Token.sym '[' :: tokenize cs := by
      rw [hcs]; exact tokenize_cons_symbol '[' cs (by decide)
    have h8 : (pre ++ [Token.sym ']']) ++ [Token.eof] =
        Token.sym '[' :: tokenize cs := by rw [← hS, h7]
    cases hPP : pre ++ [Token.sym ']'] with
    | nil =>
      rw [hPP] at h8
      simp only [List.nil_append] at h8
      obtain ⟨ha, -⟩ := List.cons_eq_cons.mp h8
      exact absurd ha (by simp)
    | cons p0 P2 =>
      rw [hPP] at h8
      simp only [List.cons_append] at h8
      obtain ⟨ha, -⟩ := List.cons_eq_cons.mp h8
      exact ⟨P2, by rw [ha]⟩

theorem expect_eof_after_ws (ts : List Token)
    (h : ts = [Token.eof] ∨ ∃ u, ts = [Token.whitespace u, Token.eof]) :
    expect TokenKind.eof (accept_ws TokenKind.whitespace ts).2 =
      .ok (Token.eof, []) := by
  rcases h with rfl | ⟨u, rfl⟩ <;> rfl

theorem expect_eof_head_err (t0 : Token) (rest : List Token)
    (h1 : ¬ t0.kind = TokenKind.whitespace)
    (h2 : ¬ t0.kind = TokenKind.eof) :
    expect TokenKind.eof (accept_ws TokenKind.whitespace (t0 :: rest)).2 =
      .error t0.kind := by
  have hAW : (accept_ws TokenKind.whitespace (t0 :: rest)).2 = t0 :: rest := by
    rw [accept_ws_cons_neg _ _ _ h1]
  have hA : accept TokenKind.eof (t0 :: rest) = (none, t0 :: rest) :=
    accept_cons_skip_neg TokenKind.eof t0 rest h1 h2
  rw [hAW]
  unfold expect
  simp only [hA, peekKind_cons]

theorem expect_eof_cons_err (t0 : Token) (rest : List Token)
    (h1 : ¬ t0.kind = TokenKind.whitespace)
    (h2 : ¬ t0.kind = TokenKind.eof) :
    expect TokenKind.eof (t0 :: rest) = .error t0.kind := by
  have hA : accept TokenKind.eof (t0 :: rest) = (none, t0 :: rest) :=
    accept_cons_skip_neg TokenKind.eof t0 rest h1 h2
  unfold expect
  simp only [hA, peekKind_cons]

theorem tokenize_head_nonws (c0 : Char) (cs0 : List Char)
    (hws : isWS c0 = false) :
    ∃ t0 rest, tokenize (c0 :: cs0) = t0 :: rest ∧
      ¬ t0.kind = TokenKind.whitespace ∧ ¬ t0.kind = TokenKind.eof := by
  by_cases hsym : isSymbol c0 = true
  · exact ⟨Token.sym c0, tokenize cs0, tokenize_cons_symbol c0 cs0 hsym,
      by simp [Token.kind], by simp [Token.kind]⟩
  · have hsym' : isSymbol c0 = false := by
      revert hsym; cases isSymbol c0 <;> simp
    exact ⟨Token.word (String.mk (c0 ::
        cs0.takeWhile (fun d => !isSymbol d && !isWS d))),
      tokenize (cs0.dropWhile (fun d => !isSymbol d && !isWS d)),
      tokenize_cons_word c0 cs0 hsym' hws,
      by simp [Token.kind], by simp [Token.kind]⟩

/-- Surrounding a parsed bracket-delimited input with whitespace does not
change the result. -/
theorem parse_pad (s w1 w2 : String) (t : Tree)
    (hw1 : ∀ c ∈ w1.data, isWS c = true)
    (hw2 : ∀ c ∈ w2.data, isWS c = true)
    (hhead : s.data.head? = some '[') (hlast : s.data.getLast? = some ']')
    (hok : parse s = .ok t) :
    parse (w1 ++ s ++ w2) = .ok t := by
  obtain ⟨P, hsplit, hN, P2, hP2⟩ := parse_root_split s t hhead hlast hok
  have hframe : nodeD (P ++ tokenize w2.data) = .ok t (tokenize w2.data) :=
    nodeD_frame P [Token.eof] (tokenize w2.data) t hN
  have htw2 : tokenize w2.data = [Token.eof] ∨
      ∃ u, tokenize w2.data = [Token.whitespace u, Token.eof] := by
    by_cases hw2e : w2.data = []
    · left; rw [hw2e]; rfl
    · right; exact ⟨String.mk w2.data, tokenize_all_ws w2.data hw2e hw2⟩
  have hdata : (w1 ++ s ++ w2).data = w1.data ++ (s.data ++ w2.data) := by
    simp [String.data_append]
  have hinner : tokenize (s.data ++ w2.data) = P ++ tokenize w2.data :=
    hsplit w2.data
  rw [parse_eq]
  by_cases hw1e : w1.data = []
  · have htoks : tokenize (w1 ++ s ++ w2).data = P ++ tokenize w2.data := by
      rw [hdata, hw1e, List.nil_append, hinner]
    rw [htoks]
    simp only [hframe]
    simp only [expect_eof_after_ws (tokenize w2.data) htw2]
  · have hhead2 : ∀ c, (s.data ++ w2.data).head? = some c →
        isWS c = false := by
      intro c hc
      obtain ⟨cs, hcs⟩ : ∃ cs, s.data = '[' :: cs := by
        cases hsd : s.data with
        | nil => rw [hsd] at hhead; exact absurd hhead (by simp)
        | cons c2 cs =>
          rw [hsd] at hhead
          simp only [List.head?_cons, Option.some.injEq] at hhead
          exact ⟨cs, by rw [hhead]⟩
      rw [hcs] at hc
      simp only [List.cons_append, List.head?_cons, Option.some.injEq] at hc
      rw [← hc]
      decide
    have htoks : tokenize (w1 ++ s ++ w2).data =
        Token.whitespace (String.mk w1.data) :: (P ++ tokenize w2.data) := by
      rw [hdata, tokenize_ws_prefix w1.data (s.data ++ w2.data) hw1e hw1
        hhead2, hinner]
    rw [htoks]
    have hskip : nodeD (Token.whitespace (String.mk w1.data) ::
        (P ++ tokenize w2.data)) = nodeD (P ++ tokenize w2.data) := by
      apply nodeD_ws
      rw [hP2]
      simp [peekKind, List.cons_append, Token.kind]
    rw [hskip]
    simp only [hframe]
    simp only [expect_eof_after_ws (tokenize w2.data) htw2]

/-- A non-whitespace token after a parsed bracket-delimited input — even
when separated from it by a whitespace run — makes `parse` fail, with the
error naming the kind of the first trailing non-whitespace token. -/
theorem parse_trailing (s w x : String) (t : Tree)
    (hhead : s.data.head? = some '[') (hlast : s.data.getLast? = some ']')
    (hok : parse s = .ok t)
    (hw : ∀ c ∈ w.data, isWS c = true)
    (hxne : x.data ≠ [])
    (hx : ∀ c, x.data.head? = some c → isWS c = false) :
    parse (s ++ w ++ x) = .error (peekKind (tokenize x.data)) ∧
    peekKind (tokenize x.data) ≠ TokenKind.eof := by
  obtain ⟨P, hsplit, hN, P2, hP2⟩ := parse_root_split s t hhead hlast hok
  have hframe : nodeD (P ++ tokenize (w.data ++ x.data)) =
      .ok t (tokenize (w.data ++ x.data)) :=
    nodeD_frame P [Token.eof] (tokenize (w.data ++ x.data)) t hN
  obtain ⟨c0, cs0, hx0⟩ : ∃ c0 cs0, x.data = c0 :: cs0 := by
    cases hxd : x.data with
    | nil => exact absurd hxd hxne
    | cons c0 cs0 => exact ⟨c0, cs0, rfl⟩
  have hc0 : isWS c0 = false := hx c0 (by rw [hx0]; rfl)
  obtain ⟨t0, rest0, htx, ht1, ht2⟩ := tokenize_head_nonws c0 cs0 hc0
  have htx' : tokenize x.data = t0 :: rest0 := by rw [hx0]; exact htx
  have htail : tokenize (w.data ++ x.data) = t0 :: rest0 ∨
      ∃ u, tokenize (w.data ++ x.data) =
        Token.whitespace u :: t0 :: rest0 := by
    by_cases hwe : w.data = []
    · left
      rw [hwe, List.nil_append, htx']
    · right
      refine ⟨String.mk w.data, ?_⟩
      rw [ tokenize_ws_prefix w.data x.data hwe hw
        (fun c hc => by
          rw [hx0] at hc
          simp only [List.head?_cons, Option.some.injEq] at hc
          rw [← hc]
          exact hc0), htx']
  have hdata : (s ++ w ++ x).data = s.data ++ (w.data ++ x.data) := by
    simp [String.data_append]
  have htoks : tokenize (s ++ w ++ x).data =
      P ++ tokenize (w.data ++ x.data) := by
    rw [hdata, hsplit (w.data ++ x.data)]
  constructor
  · rw [parse_eq, htoks]
    simp only [hframe]
    rcases htail with h | ⟨u, h⟩
    · rw [h]
      simp only [expect_eof_head_err t0 rest0 ht1 ht2]
      rw [htx', peekKind_cons]
    · rw [h]
      have hAW : (accept_ws TokenKind.whitespace
          (Token.whitespace u :: t0 :: rest0)).2 = t0 :: rest0 := by
        rw [accept_ws_cons_pos TokenKind.whitespace (Token.whitespace u)
          (t0 :: rest0) rfl]
      rw [hAW]
      simp only [expect_eof_cons_err t0 rest0 ht1 ht2]
      rw [htx', peekKind_cons]
  · rw [htx', peekKind_cons]
    exact ht2

/-- **C9**: after the root node closes, `parse` skips optional whitespace
and then requires end of input: a bracket-delimited input that parses
successfully still parses to the same tree when surrounded by (possibly
empty) whitespace on either side, while any non-whitespace token after the
root's closing bracket — whether adjacent to it or separated from it by a
whitespace run — causes a syntax error naming the kind of the first
trailing non-whitespace token (which is never `EOF`). -/
theorem c9_trailing_input :
    (∀ (s w1 w2 : String) (t : Tree),
      (∀ c ∈ w1.data, isWS c = true) → (∀ c ∈ w2.data, isWS c = true) →
      s.data.head? = some '[' → s.data.getLast? = some ']' →
      parse s = .ok t → parse (w1 ++ s ++ w2) = .ok t) ∧
    (∀ (s w x : String) (t : Tree),
      s.data.head? = some '[' → s.data.getLast? = some ']' →
      parse s = .ok t →
      (∀ c ∈ w.data, isWS c = true) →
      x.data ≠ [] →
      (∀ c, x.data.head? = some c → isWS c = false) →
      parse (s ++ w ++ x) = .error (peekKind (tokenize x.data)) ∧
      peekKind (tokenize x.data) ≠ TokenKind.eof) :=
  ⟨fun s w1 w2 t h1 h2 h3 h4 h5 => parse_pad s w1 w2 t h1 h2 h3 h4 h5,
   fun s w x t h1 h2 h3 h4 h5 h6 => parse_trailing s w x t h1 h2 h3 h4 h5 h6⟩

theorem c9_trailing_input_witness :
    parse (" " ++ "[X]" ++ " ") =
      .ok (Tree.mk (some ⟨"X", "", ""⟩) [] none none) ∧
    parse ("[X]" ++ " " ++ "y") = .error (peekKind (tokenize "y".data)) ∧
    peekKind (tokenize "y".data) ≠ TokenKind.eof :=
  ⟨c9_trailing_input.1 "[X]" " " " "
      (Tree.mk (some ⟨"X", "", ""⟩) [] none none)
      (by decide) (by decide) (by rfl) (by rfl) (by rfl),
   (c9_trailing_input.2 "[X]" " " "y"
      (Tree.mk (some ⟨"X", "", ""⟩) [] none none)
      (by rfl) (by rfl) (by rfl) (by decide) (by decide)
      (fun c hc => by cases Option.some.inj hc; decide)).1,
   (c9_trailing_input.2 "[X]" " " "y"
      (Tree.mk (some ⟨"X", "", ""⟩) [] none none)
      (by rfl) (by rfl) (by rfl) (by decide) (by decide)
      (fun c hc => by cases Option.some.inj hc; decide)).2⟩

end Chomsky
